import Mathlib

/-!
# Propositional resolution prover: embedding and verification

Shallow embedding of `lab work 3/main.cpp` together with the inline helpers of
`lab work 1/mathlogic.h` (the header that the labs include).

* `Token` is the C++ `char`; `Queue` and `Stack` are lists whose head is the
  front of the queue, respectively the top of the stack.
* A C++ `throw String(msg)` is `Failure.thrown msg`, a failed `assert` is
  `Failure.assertFailed`, and an access outside an allocated array is
  `Failure.outOfBounds`.
* Memory that the program reads before writing it (`new int[countVars]`) is a
  parameter of the model: the initial content of the matrix and of the
  resolvent buffer are arguments.
-/

set_option autoImplicit false

namespace Resolution

/-! ## Types of `mathlogic.h` -/

/-- Token (lexeme): `typedef char Token`. -/
abbrev Token := Char

/-- Sequence of tokens, `std::queue<Token>`; the head is the front. -/
abbrev Queue := List Token

/-- Stack of tokens, `std::stack<Token>`; the head is the top. -/
abbrev Stack := List Token

/-- Set of unique tokens, `std::set<Token>`, as the list of its elements in iteration order. -/
abbrev TokenSet := List Token

/-- Table of variable values, `std::map<Token, Token>`, as an association list. -/
abbrev Map := List (Token × Token)

/-- The ways a run leaves the normal control flow. -/
inductive Failure where
  /-- A `throw String(msg)`. -/
  | thrown (msg : String)
  /-- A failed `assert`. -/
  | assertFailed
  /-- An access outside the allocated rows or columns. -/
  | outOfBounds
  deriving DecidableEq, Repr

deriving instance DecidableEq for Except

/-! ## Inline helpers of `mathlogic.h` -/

/-- Is the token a number? -/
def isNumber (t : Token) : Bool := t == '0' || t == '1'

/-- Is the token a variable? -/
def isVariable (t : Token) : Bool :=
  (decide ('A' ≤ t) && decide (t ≤ 'Z')) || (decide ('a' ≤ t) && decide (t ≤ 'z'))

/-- Is the token an operation? -/
def isOperation (t : Token) : Bool :=
  t == '|' || t == '&' || t == '-' || t == '>' || t == '~'

/-- Is the token an opening parenthesis? -/
def isOpeningPar (t : Token) : Bool := t == '('

/-- Is the token a closing parenthesis? -/
def isClosingPar (t : Token) : Bool := t == ')'

/-- Priority of an operation (the larger the number, the higher the priority).
The source asserts `isOperation op`; both call sites test it first, and the
`switch` leaves `res = 0` for any other token. -/
def priority (op : Token) : Nat :=
  if op = '-' then 5
  else if op = '&' then 4
  else if op = '|' then 3
  else if op = '>' then 2
  else if op = '~' then 1
  else 0

/-- Is the character a whitespace character? (`c <= ' '`). The argument is a
`char`, a signed 8-bit type where this code builds: a byte above 0x7f is
negative and so `<= ' '`. A character outside ASCII consists of such bytes
only (in UTF-8 as in the 8-bit code pages), hence it counts as whitespace as
a whole; for the other comparisons of characters the sign makes no
difference. -/
def isSpace (c : Char) : Bool := decide (c ≤ ' ') || decide (127 < c.toNat)

/-- Lowercase letters become uppercase (`c - 'a' + 'A'`), other characters stay. -/
def toUpperCase (c : Char) : Char :=
  if 'a' ≤ c ∧ c ≤ 'z' then Char.ofNat (c.toNat - 'a'.toNat + 'A'.toNat) else c

/-- Is the operation binary? -/
def isBinOp (t : Token) : Bool := t == '&' || t == '|' || t == '>' || t == '~'

/-- Is the operation unary? -/
def isUnarOp (t : Token) : Bool := t == '-'

/-- Boolean value of a token-number (`x == '1'`); the source asserts `isNumber x`. -/
def logicVal (x : Token) : Bool := x == '1'

/-- Convert a boolean value to a token-number. -/
def boolToToken (x : Bool) : Token := if x then '1' else '0'

/-- Result of a binary operation. The leading `assert` is modelled; after it
`op` is one of the four cases of the `switch`. -/
def evalBinOp (a op b : Token) : Except Failure Token :=
  if !(isNumber a && isBinOp op && isNumber b) then .error .assertFailed
  else
    let left := logicVal a
    let right := logicVal b
    if op = '&' then .ok (boolToToken (left && right))
    else if op = '|' then .ok (boolToToken (left || right))
    else if op = '>' then .ok (boolToToken (!left || right))
    else .ok (boolToToken ((!left || right) && (!right || left)))

/-- Result of a unary operation, with its leading `assert`. -/
def evalUnarOp (op a : Token) : Except Failure Token :=
  if !(isUnarOp op && isNumber a) then .error .assertFailed
  else .ok (boolToToken (!logicVal a))

/-! ## `infixToPostfix` (lab work 3, lines 13-84) -/

/-- The inner `while` of the operation branch: while the stack top is an
operation `op2` with `priority t <= priority op2`, move it to the output. -/
def popOperations (t : Token) : Queue → Stack → Queue × Stack
  | out, [] => (out, [])
  | out, top :: s =>
    if isOperation top && decide (priority t ≤ priority top) then
      popOperations t (out ++ [top]) s
    else (out, top :: s)

/-- The inner `while` of the closing-parenthesis branch: move tokens to the
output until the stack is empty or its top is an opening parenthesis. -/
def popToOpeningPar : Queue → Stack → Except Failure (Queue × Stack)
  | out, [] => .ok (out, [])
  | out, top :: s =>
    if !isOpeningPar top then
      if isOperation top then popToOpeningPar (out ++ [top]) s
      else .error .assertFailed
    else .ok (out, top :: s)

/-- The final `while`: drain the stack to the output. -/
def drainStack : Queue → Stack → Except Failure Queue
  | out, [] => .ok out
  | out, top :: s =>
    if isOpeningPar top then .error (.thrown "Unclosed parenthesis!")
    else if isOperation top then drainStack (out ++ [top]) s
    else .error .assertFailed

/-- The main `while` of `infixToPostfix` with its state: remaining input,
output queue and working stack. -/
def infixToPostfixLoop : Queue → Queue → Stack → Except Failure Queue
  | [], out, s => drainStack out s
  | t :: input, out, s =>
    if isNumber t || isVariable t then
      infixToPostfixLoop input (out ++ [t]) s
    else if isOperation t then
      infixToPostfixLoop input (popOperations t out s).1 (t :: (popOperations t out s).2)
    else if isOpeningPar t then
      infixToPostfixLoop input out (t :: s)
    else if isClosingPar t then
      match popToOpeningPar out s with
      | .error e => .error e
      | .ok (_, []) => .error (.thrown "Missing opening parenthesis!")
      | .ok (out1, _ :: s1) => infixToPostfixLoop input out1 s1
    else
      .error (.thrown ("Unknown symbol \x27" ++ (String.singleton t ++ "\x27!")))

/-- Shunting yard: infix token sequence to reverse Polish notation. -/
def infixToPostfix (input : Queue) : Except Failure Queue :=
  infixToPostfixLoop input [] []

/-! ## Lexer, variables, substitution (lines 96-150) -/

/-- Convert a string with an expression into a sequence of tokens. -/
def stringToSequence (s : String) : Queue :=
  (s.toList.filter fun c => !isSpace c).map toUpperCase

/-- Insertion into a `std::set<char>`: the elements stay in ascending order
and an element already present is not inserted again. -/
def setInsert (t : Token) : TokenSet → TokenSet
  | [] => [t]
  | x :: xs =>
    if t < x then t :: x :: xs
    else if t = x then x :: xs
    else x :: setInsert t xs

/-- The loop of `getVariables` (lab 3 form): the set `res` is extended in
place and the counter of newly inserted variables is returned with it. -/
def getVariablesLoop : Queue → TokenSet → Nat → Nat × TokenSet
  | [], res, c => (c, res)
  | t :: s, res, c =>
    if isVariable t && !res.contains t then getVariablesLoop s (setInsert t res) ((c + 1) % 4294967296)
    else getVariablesLoop s res c

/-- Extract variables from the sequence of tokens: returns the count of
inserted variables and the updated set. -/
def getVariables (s : Queue) (res : TokenSet) : Nat × TokenSet :=
  getVariablesLoop s res 0

/-- `std::map::insert`: a key already present keeps its value. -/
def mapInsert (m : Map) (k v : Token) : Map :=
  if m.any (fun p => p.1 == k) then m else m ++ [(k, v)]

/-- `varVal[k]`: the stored value, or the value-initialised `char` (code 0)
that `operator[]` inserts for a missing key. -/
def mapGet (m : Map) (k : Token) : Token :=
  match m.find? (fun p => p.1 == k) with
  | some p => p.2
  | none => Char.ofNat 0

/-- Replace variables with their values. -/
def substValues (expr : Queue) (varVal : Map) : Queue :=
  expr.map fun t => if isVariable t then mapGet varVal t else t

/-! ## Evaluation of reverse Polish notation (lines 154-223) -/

/-- Calculate the value of an operation, modifying the stack. -/
def evalOpUsingStack (op : Token) (s : Stack) : Except Failure Stack :=
  if !isOperation op then .error .assertFailed
  else if isBinOp op then
    match s with
    | b :: a :: rest =>
      if !isNumber b then .error (.thrown "Invalid expression!")
      else if !isNumber a then .error (.thrown "Invalid expression!")
      else
        match evalBinOp a op b with
        | .ok r => .ok (r :: rest)
        | .error e => .error e
    | _ => .error (.thrown "Invalid expression!")
  else if isUnarOp op && !s.isEmpty then
    match s with
    | a :: rest =>
      if !isNumber a then .error (.thrown "Invalid expression!")
      else
        match evalUnarOp op a with
        | .ok r => .ok (r :: rest)
        | .error e => .error e
    | [] => .error (.thrown "Invalid expression!")
  else .error (.thrown "Invalid expression!")

/-- The `while` of `evaluate` with its working stack. -/
def evaluateLoop : Queue → Stack → Except Failure Token
  | [], s =>
    match s with
    | [r] => .ok r
    | _ => .error (.thrown "Invalid expression!")
  | t :: expr, s =>
    if !(isNumber t || isOperation t) then .error .assertFailed
    else if isNumber t then evaluateLoop expr (t :: s)
    else
      match evalOpUsingStack t s with
      | .ok s1 => evaluateLoop expr s1
      | .error e => .error e

/-- Calculate the value of an expression recorded in reverse Polish notation. -/
def evaluate (expr : Queue) : Except Failure Token :=
  evaluateLoop expr []

/-! ## `SKNF` (lines 232-273) -/

/-- The matrix of disjuncts, `int** matr`: a list of rows. -/
abbrev Matrix := List (List Int)

/-- Read of `matr[r][j]`. -/
def cell (matr : Matrix) (r j : Nat) : Int := (matr.getD r []).getD j 0

/-- Write `matr[r][j] = v`, inside the allocated rows and columns. -/
def writeCell (matr : Matrix) (r j : Nat) (v : Int) : Except Failure Matrix :=
  if r < matr.length ∧ j < (matr.getD r []).length then
    .ok (matr.set r ((matr.getD r []).set j v))
  else .error .outOfBounds

/-- The matrix that `main` allocates: `rows` rows of `countVars` cells, none
of them initialised; `fill r j` is the content the memory happens to hold. -/
def allocate (rows countVars : Nat) (fill : Nat → Nat → Int) : Matrix :=
  (List.range rows).map fun r => (List.range countVars).map fun j => fill r j

/-- First inner `for` of `SKNF`: the table of variable values of counter
value `i`. `steps` iterations remain, `k` is the position of the set iterator
and `mask` the current 32-bit mask. -/
def buildVarVals (i : Nat) (vars : TokenSet) : Nat → Nat → Nat → Map → Except Failure Map
  | 0, _, _, varVals => .ok varVals
  | steps + 1, k, mask, varVals =>
    match vars.get? k with
    | none => .error .outOfBounds
    | some v =>
      buildVarVals i vars steps (k + 1) (mask / 2)
        (mapInsert varVals v (boolToToken ((i &&& (mask / 2)) != 0)))

/-- Second inner `for` of `SKNF`, run when the formula is false at counter
value `i`: each iteration writes cell `j` of the row under the pointer and
then advances the row pointer `p` and the counter `c` (`matr++; c++;` stand
inside the loop body). -/
def writeClause (i : Nat) : Nat → Nat → Nat → Matrix → Nat → Nat →
    Except Failure (Matrix × Nat × Nat)
  | 0, _, _, matr, p, c => .ok (matr, p, c)
  | steps + 1, j, mask, matr, p, c =>
    match writeCell matr p j (if (i &&& (mask / 2)) != 0 then -1 else 0) with
    | .error e => .error e
    | .ok matr1 => writeClause i steps (j + 1) (mask / 2) matr1 (p + 1) ((c + 1) % 4294967296)

/-- Outer `for` of `SKNF` over the counter values `i < lim`. -/
def sknfLoop (expr : Queue) (vars : TokenSet) (countVars lim : Nat) :
    Nat → Nat → Matrix → Nat → Nat → Except Failure (Matrix × Nat)
  | 0, _, matr, _, c => .ok (matr, c)
  | steps + 1, i, matr, p, c =>
    match buildVarVals i vars countVars 0 lim [] with
    | .error e => .error e
    | .ok varVals =>
      match evaluate (substValues expr varVals) with
      | .error e => .error e
      | .ok res =>
        if res = '0' then
          match writeClause i countVars 0 lim matr p c with
          | .error e => .error e
          | .ok (matr1, p1, c1) => sknfLoop expr vars countVars lim steps (i + 1) matr1 p1 c1
        else sknfLoop expr vars countVars lim steps (i + 1) matr p c

/-- Construct the matrix of CNF formulas; returns the matrix and the counter
`c`. `lim = 1 << countVars` is a 32-bit `unsigned`. -/
def SKNF (expr : Queue) (matr : Matrix) (vars : TokenSet) (countVars : Nat) :
    Except Failure (Matrix × Nat) :=
  sknfLoop expr vars countVars ((1 <<< countVars) % 4294967296)
    ((1 <<< countVars) % 4294967296) 0 matr 0 0

/-! ## Resolution (lines 277-369) -/

/-- Check if the resolvent is empty: every cell is `1`. -/
def EmptySequence (a : List Int) (countVars : Nat) : Bool :=
  (List.range countVars).all fun i => a.getD i 0 == 1

/-- Check for equality of arrays. -/
def EqvivArr (a b : List Int) (countVars : Nat) : Bool :=
  (List.range countVars).all fun i => a.getD i 0 == b.getD i 0

/-- Search for an array in rows `n - 1` down to `0` of the matrix. -/
def SearchArr (matr : Matrix) : Nat → Nat → List Int → Bool
  | 0, _, _ => false
  | n + 1, countVars, a =>
    if EqvivArr (matr.getD n []) a countVars then true else SearchArr matr n countVars a

/-- The `for` of `WriteArr`: copy cells `i, i + 1, ...` of `a` into row `n`. -/
def writeArrLoop (n : Nat) (a : List Int) : Nat → Nat → Matrix → Except Failure Matrix
  | 0, _, matr => .ok matr
  | steps + 1, i, matr =>
    match writeCell matr n i (a.getD i 0) with
    | .error e => .error e
    | .ok matr1 => writeArrLoop n a steps (i + 1) matr1

/-- Write to the matrix of disjunctions: row `n` becomes `a` and the row
count grows by one. -/
def WriteArr (matr : Matrix) (n countVars : Nat) (a : List Int) : Except Failure (Matrix × Nat) :=
  match writeArrLoop n a countVars 0 matr with
  | .error e => .error e
  | .ok matr1 => .ok (matr1, n + 1)

/-- The `if / else if` chain of the `z` loop for one position: `x = matr[i][z]`,
`y = matr[j][z]`, and `old` is what `a[z]` held before (no branch assigns when
none of the four conditions holds). -/
def resolveCell (x y old : Int) : Int :=
  if (x = 0 ∧ y = -1) ∨ (x = -1 ∧ y = 0) then 1
  else if x = 0 ∨ y = 0 then 0
  else if x = -1 ∧ y = -1 then -1
  else if x = 1 ∧ y = 1 then 1
  else old

/-- The `z` loop: combine rows `i` and `j` into the buffer `a`. -/
def combine (matr : Matrix) (i j countVars : Nat) (a : List Int) : List Int :=
  (List.range countVars).foldl
    (fun acc z => acc.set z (resolveCell (cell matr i z) (cell matr j z) (acc.getD z 0))) a

/-- Time limit allocated for finding a solution. -/
def TIMEOUT_LIMIT : Int := 100

/-- State of `MethodResolution`: the matrix, the row count `tk`, the resolvent
buffer `a`, and (for the trace) the pairs `(i, j)` combined so far. -/
structure ResState where
  matr : Matrix
  tk : Nat
  a : List Int
  pairs : List (Nat × Nat)
  deriving DecidableEq, Repr

/-- The reads `matr[n][i]`, `i < countVars`, that `PrintfArr(matr, n, ...)`
makes: all of them inside the allocated rows and cells. -/
def rowReadable (matr : Matrix) (n countVars : Nat) : Bool :=
  (List.range countVars).all fun i =>
    decide (n < matr.length) && decide (i < (matr.getD n []).length)

/-- Body of the `j` loop for the pair `(i, j)`: `true` when the resolvent is
empty (`return true`), otherwise the resolvent is appended unless `SearchArr`
finds it among rows `0 .. tk - 1`. After `WriteArr` has incremented `tk` the
trace is printed with `PrintfArr(matr, tk, ...)`, which reads the row after
the one just written. -/
def pairStep (countVars : Nat) (st : ResState) (i j : Nat) : Except Failure (Bool × ResState) :=
  if EmptySequence (combine st.matr i j countVars st.a) countVars then
    .ok (true, { st with a := combine st.matr i j countVars st.a, pairs := st.pairs ++ [(i, j)] })
  else if !SearchArr st.matr st.tk countVars (combine st.matr i j countVars st.a) then
    match WriteArr st.matr st.tk countVars (combine st.matr i j countVars st.a) with
    | .error e => .error e
    | .ok (matr1, tk1) =>
      if rowReadable matr1 tk1 countVars then
        .ok (false, { matr := matr1, tk := tk1, a := combine st.matr i j countVars st.a,
                      pairs := st.pairs ++ [(i, j)] })
      else .error .outOfBounds
  else
    .ok (false, { st with a := combine st.matr i j countVars st.a, pairs := st.pairs ++ [(i, j)] })

/-- The `for (j = i + 1; j < k; j++)` loop; `steps` iterations remain. -/
def loopJ (countVars i : Nat) : Nat → Nat → ResState → Except Failure (Bool × ResState)
  | 0, _, st => .ok (false, st)
  | steps + 1, j, st =>
    match pairStep countVars st i j with
    | .error e => .error e
    | .ok (true, st1) => .ok (true, st1)
    | .ok (false, st1) => loopJ countVars i steps (j + 1) st1

/-- The `for (i = 0; i < k - 1; i++)` loop; `steps` iterations remain. -/
def loopI (countVars k : Nat) : Nat → Nat → ResState → Except Failure (Bool × ResState)
  | 0, _, st => .ok (false, st)
  | steps + 1, i, st =>
    match loopJ countVars i (k - (i + 1)) (i + 1) st with
    | .error e => .error e
    | .ok (true, st1) => .ok (true, st1)
    | .ok (false, st1) => loopI countVars k steps (i + 1) st1

/-- The `while` loop. Each test of its condition reads the clock once; the
readings are the list `clock`. The result is `some true` (`return true`),
`some false` (`return is_solved` after the time limit) or `none` when the
readings end while the loop is still running. -/
def resolutionRounds (countVars : Nat) (start : Int) :
    List Int → Nat → ResState → Except Failure (Option Bool × ResState)
  | [], _, st => .ok (none, st)
  | now :: clock, k, st =>
    if now - start < TIMEOUT_LIMIT then
      match loopI countVars k (k - 1) 0 st with
      | .error e => .error e
      | .ok (true, st1) => .ok (some true, st1)
      | .ok (false, st1) => resolutionRounds countVars start clock st1.tk st1
    else .ok (some false, st)

/-- Resolution method on the first `n` rows of `matr`. `a` is the content of
the freshly allocated resolvent buffer; the first element of `clock` is the
start time and the others are the later readings of `time(NULL)`. -/
def MethodResolution (matr : Matrix) (n countVars : Nat) (a : List Int) (clock : List Int) :
    Except Failure (Option Bool × ResState) :=
  match clock with
  | [] => .ok (none, { matr := matr, tk := n, a := a, pairs := [] })
  | start :: clock =>
    resolutionRounds countVars start clock n { matr := matr, tk := n, a := a, pairs := [] }

/-! ## `main` (lines 382-451) -/

/-- The formula string that `main` assembles from the premises read in the
loop (`init`), the premise read after the loop (`last`) and the consequence. -/
def mainFormula (init : List String) (last consequence : String) : String :=
  ((init.foldl (fun expres exp => expres ++ ("(" ++ exp ++ ")&")) "-(")
      ++ ("(" ++ last ++ ")") ++ ")>") ++ "(" ++ consequence ++ ")" ++ ")"

/-- The proof pipeline of `main`. `fill` and `buffer` are the contents of the
uninitialised matrix and resolvent buffer, `clock` the readings of the clock.
The result is the value of `isSolved`, if `MethodResolution` returns one. -/
def mainProve (init : List String) (last consequence : String) (fill : Nat → Nat → Int)
    (buffer : Nat → Int) (clock : List Int) : Except Failure (Option Bool) :=
  match infixToPostfix (stringToSequence (mainFormula init last consequence)) with
  | .error e => .error e
  | .ok output =>
    match SKNF output
        (allocate ((3 * ((1 <<< (getVariables output []).1) % 4294967296)) % 4294967296)
          (getVariables output []).1 fill)
        (getVariables output []).2 (getVariables output []).1 with
    | .error e => .error e
    | .ok (matr, k) =>
      match MethodResolution matr k (getVariables output []).1
          ((List.range (getVariables output []).1).map buffer) clock with
      | .error e => .error e
      | .ok (r, _) => .ok r

/-! ## Specification side: formulas, their grammar and their truth value -/

/-- Syntax tree of a propositional formula: a constant token, a variable,
a negation, or a binary operation with its operator token. -/
inductive Formula where
  | const (t : Token)
  | var (v : Token)
  | neg (f : Formula)
  | bin (op : Token) (l r : Formula)
  deriving DecidableEq, Repr

/-- Truth tables of the binary connectives: conjunction `&`, disjunction `|`,
implication `>` and equivalence `~`. -/
def binSem (op : Token) (a b : Bool) : Bool :=
  if op = '&' then a && b
  else if op = '|' then a || b
  else if op = '>' then !a || b
  else a == b

/-- Direct structural evaluation of a formula under a valuation of the variables. -/
def Formula.eval (val : Token → Bool) : Formula → Bool
  | .const t => logicVal t
  | .var v => val v
  | .neg f => !(f.eval val)
  | .bin op l r => binSem op (l.eval val) (r.eval val)

/-- Reverse Polish notation of a syntax tree: operands first, then the operator. -/
def Formula.rpn : Formula → Queue
  | .const t => [t]
  | .var v => [v]
  | .neg f => f.rpn ++ ['-']
  | .bin op l r => l.rpn ++ r.rpn ++ [op]

/-- The grammar of infix formulas under the priority table negation (5) >
conjunction (4) > disjunction (3) > implication (2) > equivalence (1).
`Parses nested p ts f`: the tokens `ts` are a formula with syntax tree `f` all
of whose operators outside parentheses have priority at least `p`; level 6 is
a constant, a variable or a parenthesised formula. Binary operators group to
the left. With `nested = false` the operand of a negation must be of level 6;
with `nested = true` it may itself be a negation (`--A`). A well-formed
formula is `Parses true 1 ts f`. -/
inductive Parses (nested : Bool) : Nat → Queue → Formula → Prop where
  | const (t : Token) : isNumber t = true → Parses nested 6 [t] (.const t)
  | var (t : Token) : isVariable t = true → Parses nested 6 [t] (.var t)
  | paren {ts : Queue} {f : Formula} : Parses nested 1 ts f → Parses nested 6 ('(' :: (ts ++ [')'])) f
  | neg {ts : Queue} {f : Formula} : Parses nested 6 ts f → Parses nested 5 ('-' :: ts) (.neg f)
  | negNested {ts : Queue} {f : Formula} : nested = true → Parses nested 5 ts f →
      Parses nested 5 ('-' :: ts) (.neg f)
  | bin {op : Token} {l r : Queue} {a b : Formula} : isBinOp op = true →
      Parses nested (priority op) l a → Parses nested (priority op + 1) r b →
      Parses nested (priority op) (l ++ op :: r) (.bin op a b)
  | up {p : Nat} {ts : Queue} {f : Formula} : Parses nested (p + 1) ts f → Parses nested p ts f

/-- The stack top, if it is an operation, has priority below `p`. -/
def LowTop (p : Nat) (s : Stack) : Prop :=
  ∀ top ∈ s.head?, isOperation top = true → priority top < p

/-- No negation sign is immediately followed by another negation sign. -/
def DoubleNegFree (ts : Queue) : Prop := ¬ ['-', '-'] <:+: ts

instance (ts : Queue) : Decidable (DoubleNegFree ts) := by
  unfold DoubleNegFree; infer_instance

/-- The table of variable values that gives the `j`-th variable of `vars` the
`j`-th truth value of `assign`. -/
def assignMap (vars : TokenSet) (assign : List Bool) : Map :=
  vars.zip (assign.map boolToToken)

/-- Truth of the clause in row `r` under a positional assignment: some
position holds a literal that is true (`-1` is the negated variable, `0` the
variable itself; any other entry is no literal). -/
def clauseHolds (matr : Matrix) (r countVars : Nat) (assign : List Bool) : Bool :=
  (List.range countVars).any fun j =>
    (cell matr r j == -1 && !assign.getD j false) || (cell matr r j == 0 && assign.getD j false)

/-- Truth of the conjunction of the clauses in rows `0 .. n - 1`. -/
def cnfHolds (matr : Matrix) (n countVars : Nat) (assign : List Bool) : Bool :=
  (List.range n).all fun r => clauseHolds matr r countVars assign

/-- All assignments of `n` positions. -/
def assignments : Nat → List (List Bool)
  | 0 => [[]]
  | n + 1 => (assignments n).flatMap fun a => [false :: a, true :: a]

/-- Number of assignments of `vars` under which the formula evaluates to `0`. -/
def falsifyingCount (expr : Queue) (vars : TokenSet) : Nat :=
  ((assignments vars.length).filter fun a =>
    decide (evaluate (substValues expr (assignMap vars a)) = .ok '0')).length

/-! ## Specification side: parentheses, unknown characters, valid postfix sequences, distinct rows -/

/-- A recognised token: constant, variable, operation or parenthesis. -/
def isRecognised (t : Token) : Bool :=
  isNumber t || isVariable t || isOperation t || isOpeningPar t || isClosingPar t

/-- Some prefix of the sequence contains more `)` than `(`. -/
def ClosesUnopened (ts : Queue) : Prop :=
  ∃ p, p <+: ts ∧ p.count '(' < p.count ')'

/-- Number of parentheses open after reading the tokens, starting from `d`
open ones; `none` when a `)` arrives while none is open. -/
def parDepth : Queue → Nat → Option Nat
  | [], d => some d
  | t :: ts, d =>
    if t = '(' then parDepth ts (d + 1)
    else if t = ')' then (if d = 0 then none else parDepth ts (d - 1))
    else parDepth ts d

/-- The working stack of `infixToPostfix` holds operations and opening parentheses only. -/
def StackOK (s : Stack) : Prop := ∀ t ∈ s, isOperation t = true ∨ t = '('

/-- A character that is none of constant, variable, operation, parenthesis or
space in the sense of `isSpace` (which takes every character outside ASCII
for a space). -/
def isUnknownChar (c : Char) : Bool := !(isSpace c || isRecognised c)

/-- Number of values on the stack after scanning a postfix sequence from left
to right, starting with `d` values: a constant adds one, a binary operator
needs two and leaves one, a negation needs one and leaves one; `none` when an
operator does not find its operands. -/
def stackDepth : Queue → Nat → Option Nat
  | [], d => some d
  | t :: ts, d =>
    if isNumber t then stackDepth ts (d + 1)
    else if isBinOp t then (if 2 ≤ d then stackDepth ts (d - 1) else none)
    else (if 1 ≤ d then stackDepth ts d else none)

/-- A valid postfix expression: every operator finds its operands and exactly
one value remains at the end. -/
def ValidPostfix (ts : Queue) : Prop := stackDepth ts 0 = some 1

instance (ts : Queue) : Decidable (ValidPostfix ts) := by
  unfold ValidPostfix; infer_instance

/-- Rows `0 .. n - 1` are pairwise distinct by structural equality (`EqvivArr`). -/
def RowsDistinct (matr : Matrix) (n countVars : Nat) : Prop :=
  ∀ r1 r2, r1 < r2 → r2 < n → EqvivArr (matr.getD r1 []) (matr.getD r2 []) countVars = false

/-- The states that any number of pair combinations of `MethodResolution` can
reach from a state: each step is one run of the body of the `j` loop. -/
inductive PairSteps (countVars : Nat) : ResState → ResState → Prop where
  | refl (st : ResState) : PairSteps countVars st st
  | step {st st1 st2 : ResState} {i j : Nat} {b : Bool} :
      PairSteps countVars st st1 → pairStep countVars st1 i j = .ok (b, st2) →
      PairSteps countVars st st2


/-! ## Lab work 1 and 2: `getVariables` without counter -/

/-- The loop of `getVariables` in the form of lab works 1 and 2
(`Set getVariables(Queue s)`), which builds and returns the set. -/
def Lab1.getVariablesLoop : Queue → TokenSet → TokenSet
  | [], res => res
  | t :: s, res =>
    if isVariable t && !res.contains t then Lab1.getVariablesLoop s (setInsert t res)
    else Lab1.getVariablesLoop s res

/-- Extract the set of variables from the sequence of tokens (lab works 1 and 2). -/
def Lab1.getVariables (s : Queue) : TokenSet := Lab1.getVariablesLoop s []

/-! ## Specification side: the formula shape, rounds, pairs of a round -/

/-- The conjunction `(P1)&(P2)&...&(Pn)` of the premises, each in parentheses. -/
def premisesConj : List String → String
  | [] => ""
  | [p] => "(" ++ p ++ ")"
  | p :: q :: ps => "(" ++ p ++ ")&" ++ premisesConj (q :: ps)

/-- The formula shape `-((P1)&(P2)&...&(Pn))>(C)` that the specification names. -/
def shapeFormula (premises : List String) (consequence : String) : String :=
  "-(" ++ premisesConj premises ++ ")>(" ++ consequence ++ ")"

/-- A text with balanced parentheses and only recognised symbols: every
character is a space or a recognised token, no prefix contains more `)` than
`(`, and the whole text contains as many `(` as `)`. -/
def BalancedText (p : String) : Prop :=
  (∀ c ∈ p.toList, isSpace c = true ∨ isRecognised c = true) ∧
    ¬ ClosesUnopened p.toList ∧ p.toList.count '(' = p.toList.count ')'

/-- A text that leaves the count of open parentheses as it found it: as many
`(` as `)`, recognised tokens only, and from any depth `d` the scan of its
tokens ends at depth `d`. -/
def Neutral (s : String) : Prop :=
  s.toList.count '(' = s.toList.count ')' ∧
    (∀ t ∈ stringToSequence s, isRecognised t = true) ∧
    ∀ d, parDepth (stringToSequence s) d = some d

/-- All pairs `(i, j)` with `i < j < k`, in ascending lexicographic order. -/
def allPairs (k : Nat) : List (Nat × Nat) :=
  (List.range k).flatMap fun i =>
    ((List.range k).filter fun j => decide (i < j)).map fun j => (i, j)

/-- Up to `r` rounds of `MethodResolution` from the frontier `k`, without the
clock: the result is `true` with the state in which a round produced the
empty resolvent, or `false` with the frontier and state after `r` rounds. -/
def runRounds (countVars : Nat) : Nat → Nat → ResState → Except Failure (Bool × Nat × ResState)
  | 0, k, st => .ok (false, k, st)
  | r + 1, k, st =>
    match loopI countVars k (k - 1) 0 st with
    | .error e => .error e
    | .ok (true, st1) => .ok (true, k, st1)
    | .ok (false, st1) => runRounds countVars r st1.tk st1

/-- Rows that `r` rounds of `MethodResolution` starting from `k` rows can fill
at most: a round over `k` rows combines `(k - 1) * k / 2` pairs and each pair
appends at most one row. -/
def roundsRoom : Nat → Nat → Nat
  | 0, k => k
  | r + 1, k => roundsRoom r (k + (k - 1) * k / 2)


/-! ## `PrintfArr` (lab work 3, lines 309-322) -/

/-- The `for` of `PrintfArr`. The loop header declares two `int`s, `i` and
`it`; `it` starts at the character code of the first variable and is
incremented with `i`, and `(Token)(it)` is the character printed. -/
def printfArrLoop (matr : Matrix) (n : Nat) : Nat → Nat → Nat → String → String
  | 0, _, _, out => out
  | steps + 1, i, it, out =>
    printfArrLoop matr n steps (i + 1) (it + 1)
      (if cell matr n i ≠ 1 then
        (if cell matr n i = -1 then out ++ "-" ++ String.singleton (Char.ofNat (it % 256))
          else out ++ String.singleton (Char.ofNat (it % 256))) ++ " | "
       else out)

/-- Output the disjunction of row `n`: the text sent to `std::cout`.
`*vars.begin()` of an empty set is an invalid read. -/
def PrintfArr (matr : Matrix) (n countVars : Nat) (vars : TokenSet) : Except Failure String :=
  match vars with
  | [] => .error .outOfBounds
  | v :: _ => .ok (printfArrLoop matr n countVars 0 v.toNat "(" ++ "\x08\x08\x08)")

/-! ## `isValid` (lab work 1, lines 257-282) -/

/-- The function-local statics of `isValidInner`: the vector `D` of 100
tokens and the counter `n_truth`. -/
structure ValidStatics where
  D : List Token
  n_truth : Nat
  deriving DecidableEq, Repr

/-- The statics at program start: `D(100, '0')` and `n_truth = 0`. -/
def ValidStatics.initial : ValidStatics := { D := List.replicate 100 '0', n_truth := 0 }

/-- The map `varVal` built at a leaf of `isValidInner`: the `k`-th variable of
the set gets `D[k]`. -/
def Lab1.varValOf (D : List Token) : TokenSet → Nat → Map → Map
  | [], _, varVal => varVal
  | x :: xs, k, varVal => Lab1.varValOf D xs (k + 1) (mapInsert varVal x (D.getD k '0'))

/-- One iteration of the `for (j = '0'; j <= '1'; j++)` of `isValidInner` at a
leaf (`i == n - 1`): evaluate the formula under `D` and count a `'1'`. -/
def Lab1.leaf (output : Queue) (vars : TokenSet) (D : List Token) (n_truth : Nat) :
    Except Failure ValidStatics :=
  match evaluate (substValues output (Lab1.varValOf D vars 0 [])) with
  | .error e => .error e
  | .ok res => .ok { D := D, n_truth := if res = '1' then (n_truth + 1) % 4294967296 else n_truth }

/-- The recursion `isValidInner(output, variables, i, n)`. `room` is the
number of cells of `D` from index `i` on (`D[i] = j` with no room left is a
write outside the vector). The test `i == n - 1` on `int`s is `i + 1 = n`;
the two iterations of the `for` over `j` are written out. The result is the
returned `bool` and the statics after the call. -/
def Lab1.isValidInner (output : Queue) (vars : TokenSet) (n : Nat) :
    Nat → Nat → ValidStatics → Except Failure (Bool × ValidStatics)
  | 0, _, _ => .error .outOfBounds
  | room + 1, i, st =>
    match (if i + 1 = n then Lab1.leaf output vars (st.D.set i '0') st.n_truth
           else match Lab1.isValidInner output vars n room (i + 1)
                    { st with D := st.D.set i '0' } with
                | .error e => .error e
                | .ok (_, st1) => .ok st1) with
    | .error e => .error e
    | .ok st1 =>
      match (if i + 1 = n then Lab1.leaf output vars (st1.D.set i '1') st1.n_truth
             else match Lab1.isValidInner output vars n room (i + 1)
                      { st1 with D := st1.D.set i '1' } with
                  | .error e => .error e
                  | .ok (_, st2) => .ok st2) with
      | .error e => .error e
      | .ok st2 => .ok (st2.n_truth == (1 <<< n) % 4294967296, st2)

/-- The function `isValid(output)`, run with the statics `st`. -/
def Lab1.isValid (output : Queue) (st : ValidStatics) : Except Failure (Bool × ValidStatics) :=
  Lab1.isValidInner output (Lab1.getVariables output) (Lab1.getVariables output).length 100 0 st

/-- Rendering of a clause row as the contract words it: position `i` is
skipped when absent (`1`), otherwise the `i`-th variable of the set is printed,
with `-` before it when the entry is `-1`, and `" | "` after it. -/
def renderClause (row : List Int) : TokenSet → Nat → String
  | [], _ => ""
  | v :: vars, i =>
    (if row.getD i 0 ≠ 1 then
      (if row.getD i 0 = -1 then "-" ++ String.singleton v else String.singleton v) ++ " | "
     else "") ++ renderClause row vars (i + 1)

/-- Two results of a matrix computation agree up to the content of the cells:
the same failure, or matrices of the same shape with the same value beside
them. -/
def ShapeRel {α : Type} : Except Failure (Matrix × α) → Except Failure (Matrix × α) → Prop
  | .ok (m, a), .ok (m1, a1) => m.map List.length = m1.map List.length ∧ a = a1
  | .error e, .error e1 => e = e1
  | _, _ => False
/-! ## Lab work 2: consequences of the premises (lines 213-310) -/

/-- The statics `D` of `writeExpr` and the lines sent to `std::cout` so far
(each line is followed by a newline in the stream). -/
structure ExprState where
  D : List Int
  out : List String
  deriving DecidableEq, Repr

/-- The `for` over `v` of `writeExpr`: the text printed for the combination
`D` and the flag `end` (still `true` when no disjunct was selected). -/
def lineLoop (D : List Int) : List String → Nat → String → Bool → String × Bool
  | [], _, text, e => (text, e)
  | x :: d, v, text, e =>
    if D.getD v 0 ≠ 0 then
      (if !e then lineLoop D d (v + 1) (text ++ "&" ++ x) e
       else lineLoop D d (v + 1) (text ++ x) false)
    else lineLoop D d (v + 1) text e

/-- The branch `i == d.size() - 1` of `writeExpr`: print the selected
disjuncts and, if there was one, the newline. -/
def writeExprLeaf (d : List String) (st : ExprState) : ExprState :=
  if !(lineLoop st.D d 0 "" true).2 then
    { st with out := st.out ++ [(lineLoop st.D d 0 "" true).1] }
  else st

/-- Outputs the given set of disjuncts and all its combinations. `room` is the
number of cells of `D` from index `i` on. The test `i == d.size() - 1` is
`i + 1 = d.length`; the two iterations of the `for` over `x` are written out. -/
def writeExpr (d : List String) : Nat → Nat → ExprState → Except Failure ExprState
  | 0, _, _ => .error .outOfBounds
  | room + 1, i, st =>
    match (if i + 1 = d.length then .ok (writeExprLeaf d { st with D := st.D.set i 0 })
           else writeExpr d room (i + 1) { st with D := st.D.set i 0 }) with
    | .error e => .error e
    | .ok st1 =>
      if i + 1 = d.length then .ok (writeExprLeaf d { st1 with D := st1.D.set i 1 })
      else writeExpr d room (i + 1) { st1 with D := st1.D.set i 1 }

/-- The disjuncts of `d`, from index `v` on, that the combination `D` selects. -/
def selected (D : List Int) : List String → Nat → List String
  | [], _ => []
  | x :: d, v => if D.getD v 0 ≠ 0 then x :: selected D d (v + 1) else selected D d (v + 1)

/-- The token sequences `xs` joined by `&`. -/
def joinTokens : List Queue → Queue
  | [] => []
  | x :: xs => x ++ xs.flatMap fun y => '&' :: y

/-- An operand token: a constant or a variable. -/
def isOperand (t : Token) : Bool := isNumber t || isVariable t

/-- A token that belongs to the formula proper: a constant, a variable or an
operation (anything recognised except the parentheses). -/
def isFormulaToken (t : Token) : Bool := isNumber t || isVariable t || isOperation t

/-- The disjuncts of `d` that the counter value `c` selects when `d[0]` is the
most significant bit: `d[v]` is selected when bit `d.length - 1 - v` of `c`
is set. -/
def counterSelection : List String → Nat → List String
  | [], _ => []
  | x :: r, c =>
    if (c / 2 ^ r.length) % 2 = 1 then x :: counterSelection r c else counterSelection r c


/-! ## Parser and evaluator: auxiliary lemmas -/

theorem isNumber_cases {t : Token} (h : isNumber t = true) : t = '0' ∨ t = '1' := by
  simpa [isNumber] using h

theorem isBinOp_cases {t : Token} (h : isBinOp t = true) :
    t = '&' ∨ t = '|' ∨ t = '>' ∨ t = '~' := by
  simpa [isBinOp, or_assoc] using h

/-- An incoming operation `t` pops a block `Y` of pending operations of priority
at least its own and then stops at a stack whose top is lower. -/
theorem popOperations_pending (t : Token) (s : Stack) (hs : LowTop (priority t) s) :
    ∀ (Y : Stack) (out : Queue), (∀ y ∈ Y, isOperation y = true ∧ priority t ≤ priority y) →
      popOperations t out (Y ++ s) = (out ++ Y, s) := by
  intro Y
  induction Y with
  | nil =>
    intro out _
    cases s with
    | nil => simp [popOperations]
    | cons top s =>
      have h := hs top (by simp)
      by_cases hop : isOperation top = true
      · have := h hop
        simp [popOperations, hop]; omega
      · simp [popOperations, hop]
  | cons y Y ih =>
    intro out hY
    have hy := hY y (by simp)
    have h := ih (out ++ [y]) (fun z hz => hY z (by simp [hz]))
    simp [popOperations, hy.1, hy.2, h]

theorem isOperation_not_par {y : Token} (h : isOperation y = true) : isOpeningPar y = false := by
  simp only [isOperation, Bool.or_eq_true, beq_iff_eq] at h
  rcases h with (((h | h) | h) | h) | h <;> subst h <;> decide

/-- A closing parenthesis pops a block `Y` of pending operations down to the
opening parenthesis below it. -/
theorem popToOpeningPar_pending (s : Stack) :
    ∀ (Y : Stack) (out : Queue), (∀ y ∈ Y, isOperation y = true) →
      popToOpeningPar out (Y ++ '(' :: s) = .ok (out ++ Y, '(' :: s) := by
  intro Y
  induction Y with
  | nil => intro out _; simp [popToOpeningPar, isOpeningPar]
  | cons y Y ih =>
    intro out hY
    have hy := hY y (by simp)
    have h := ih (out ++ [y]) (fun z hz => hY z (by simp [hz]))
    simp [popToOpeningPar, isOperation_not_par hy, hy, h]

/-- The final drain moves a stack of operations to the output. -/
theorem drainStack_pending :
    ∀ (Y : Stack) (out : Queue), (∀ y ∈ Y, isOperation y = true) →
      drainStack out Y = .ok (out ++ Y) := by
  intro Y
  induction Y with
  | nil => intro out _; simp [drainStack]
  | cons y Y ih =>
    intro out hY
    have hy := hY y (by simp)
    have h := ih (out ++ [y]) (fun z hz => hY z (by simp [hz]))
    simp [drainStack, isOperation_not_par hy, hy, h]

theorem isBinOp_facts {op : Token} (h : isBinOp op = true) :
    isNumber op = false ∧ isVariable op = false ∧ isOperation op = true ∧
      1 ≤ priority op ∧ priority op ≤ 4 := by
  rcases isBinOp_cases h with h | h | h | h <;> subst h <;> decide

/-- Reading a formula of level `p` on a stack whose top is lower than `p`
appends a part `X` of its reverse Polish notation to the output and leaves the
rest `Y`, operations of priority at least `p`, pending on the stack. -/
theorem loop_parses {p : Nat} {ts : Queue} {f : Formula} (h : Parses false p ts f) :
    ∀ (out : Queue) (s : Stack) (rest : Queue), LowTop p s →
      ∃ X Y, X ++ Y = f.rpn ∧ (∀ y ∈ Y, isOperation y = true ∧ p ≤ priority y) ∧
        infixToPostfixLoop (ts ++ rest) out s = infixToPostfixLoop rest (out ++ X) (Y ++ s) := by
  induction h with
  | const t ht =>
    intro out s rest _
    exact ⟨[t], [], by simp [Formula.rpn], by simp, by simp [infixToPostfixLoop, ht]⟩
  | var t ht =>
    intro out s rest _
    exact ⟨[t], [], by simp [Formula.rpn], by simp, by simp [infixToPostfixLoop, ht]⟩
  | @paren ts f _ ih =>
    intro out s rest _
    obtain ⟨X, Y, hXY, hY, hrun⟩ := ih out ('(' :: s) (')' :: rest) (by
      intro top htop hop
      simp at htop
      subst htop
      exact absurd hop (by decide))
    refine ⟨f.rpn, [], by simp, by simp, ?_⟩
    have h1 : infixToPostfixLoop ('(' :: (ts ++ [')']) ++ rest) out s
        = infixToPostfixLoop (ts ++ ')' :: rest) out ('(' :: s) := by
      have e : ('(' :: (ts ++ [')']) ++ rest) = '(' :: (ts ++ ')' :: rest) := by simp
      rw [e]
      simp [infixToPostfixLoop, isNumber, isVariable, isOperation, isOpeningPar]
    rw [h1, hrun]
    have h2 := popToOpeningPar_pending s Y (out ++ X) (fun y hy => (hY y hy).1)
    simp [infixToPostfixLoop, isNumber, isVariable, isOperation, isOpeningPar, isClosingPar, h2,
      ← hXY]
  | @neg ts f _ ih =>
    intro out s rest hs
    obtain ⟨X, Y, hXY, hY, hrun⟩ := ih out ('-' :: s) rest (by
      intro top htop _
      simp at htop
      subst htop
      decide)
    refine ⟨X, Y ++ ['-'], by simp [Formula.rpn, ← hXY], ?_, ?_⟩
    · intro y hy
      rcases List.mem_append.mp hy with hy | hy
      · exact ⟨(hY y hy).1, by have := (hY y hy).2; omega⟩
      · simp at hy; subst hy; decide
    · have h1 := popOperations_pending '-' s (by simpa using hs) [] out (by simp)
      simp at h1
      have h2 : infixToPostfixLoop ('-' :: ts ++ rest) out s
          = infixToPostfixLoop (ts ++ rest) out ('-' :: s) := by
        simp [infixToPostfixLoop, isNumber, isVariable, isOperation, h1]
      rw [h2, hrun]
      simp
  | negNested hn _ _ => exact absurd hn (by decide)
  | @bin op l r a b hop _ _ iha ihb =>
    intro out s rest hs
    obtain ⟨hnum, hvar, hisop, _, _⟩ := isBinOp_facts hop
    obtain ⟨X1, Y1, hXY1, hY1, hrun1⟩ := iha out s (op :: (r ++ rest)) hs
    have hpop := popOperations_pending op s hs Y1 (out ++ X1) hY1
    obtain ⟨X2, Y2, hXY2, hY2, hrun2⟩ := ihb (out ++ X1 ++ Y1) (op :: s) rest (by
      intro top htop _
      simp at htop
      subst htop
      omega)
    refine ⟨a.rpn ++ X2, Y2 ++ [op], ?_, ?_, ?_⟩
    · simp [Formula.rpn, ← hXY2]
    · intro y hy
      rcases List.mem_append.mp hy with hy | hy
      · exact ⟨(hY2 y hy).1, by have := (hY2 y hy).2; omega⟩
      · simp at hy; subst hy; exact ⟨hisop, le_refl _⟩
    · have e : (l ++ op :: r) ++ rest = l ++ op :: (r ++ rest) := by simp
      rw [e, hrun1]
      have h3 : infixToPostfixLoop (op :: (r ++ rest)) (out ++ X1) (Y1 ++ s)
          = infixToPostfixLoop (r ++ rest) (out ++ X1 ++ Y1) (op :: s) := by
        simp [infixToPostfixLoop, hnum, hvar, hisop, hpop]
      rw [h3, hrun2]
      simp [← hXY1]
  | @up p ts f _ ih =>
    intro out s rest hs
    obtain ⟨X, Y, hXY, hY, hrun⟩ := ih out s rest (by
      intro top htop hop
      have := hs top htop hop
      omega)
    exact ⟨X, Y, hXY, fun y hy => ⟨(hY y hy).1, by have := (hY y hy).2; omega⟩, hrun⟩

/-- On a formula without a negation applied to a negation `infixToPostfix`
returns the reverse Polish notation of its syntax tree. -/
theorem infixToPostfix_parses {ts : Queue} {f : Formula} (h : Parses false 1 ts f) :
    infixToPostfix ts = .ok f.rpn := by
  obtain ⟨X, Y, hXY, hY, hrun⟩ := loop_parses h [] [] [] (by intro top htop; simp at htop)
  have hd := drainStack_pending Y X (fun y hy => (hY y hy).1)
  simp at hrun
  simp [infixToPostfix, hrun, infixToPostfixLoop, hd, hXY]

theorem boolToToken_isNumber (b : Bool) : isNumber (boolToToken b) = true := by
  cases b <;> decide

theorem boolToToken_logicVal {t : Token} (h : isNumber t = true) : boolToToken (logicVal t) = t := by
  rcases isNumber_cases h with h | h <;> subst h <;> decide

theorem evalOpUsingStack_bin {op : Token} (hop : isBinOp op = true) (x y : Bool) (s : Stack) :
    evalOpUsingStack op (boolToToken y :: boolToToken x :: s)
      = .ok (boolToToken (binSem op x y) :: s) := by
  rcases isBinOp_cases hop with h | h | h | h <;> subst h <;> cases x <;> cases y <;> rfl

theorem evalOpUsingStack_neg (x : Bool) (s : Stack) :
    evalOpUsingStack '-' (boolToToken x :: s) = .ok (boolToToken (!x) :: s) := by
  cases x <;> rfl

theorem evaluateLoop_number {t : Token} (h : isNumber t = true) (rest : Queue) (s : Stack) :
    evaluateLoop (t :: rest) s = evaluateLoop rest (t :: s) := by
  simp [evaluateLoop, h]

/-- Evaluating the substituted reverse Polish notation of a formula pushes its
structural truth value on the working stack. -/
theorem evaluateLoop_parses (varVal : Map) {n : Bool} {p : Nat} {ts : Queue} {f : Formula}
    (h : Parses n p ts f) :
    (∀ v ∈ ts, isVariable v = true → isNumber (mapGet varVal v) = true) →
    ∀ (rest : Queue) (s : Stack),
      evaluateLoop (substValues f.rpn varVal ++ rest) s
        = evaluateLoop rest
            (boolToToken (f.eval fun v => logicVal (mapGet varVal v)) :: s) := by
  induction h with
  | const t ht =>
    intro _ rest s
    have hv : isVariable t = false := by
      rcases isNumber_cases ht with h | h <;> subst h <;> decide
    have e : boolToToken (logicVal t) = t := boolToToken_logicVal ht
    simp [Formula.rpn, substValues, hv, Formula.eval, evaluateLoop_number ht, e]
  | var t ht =>
    intro hσ rest s
    have hnum := hσ t (by simp) ht
    simp [Formula.rpn, substValues, ht, Formula.eval, evaluateLoop_number hnum,
      boolToToken_logicVal hnum]
  | paren _ ih =>
    intro hσ rest s
    exact ih (fun v hv => hσ v (by simp [hv])) rest s
  | neg _ ih =>
    intro hσ rest s
    have ih1 := ih (fun v hv => hσ v (by simp [hv])) ('-' :: rest) s
    simp only [substValues] at ih1
    have hm : isVariable '-' = false := by decide
    simp [Formula.rpn, substValues, hm, Formula.eval, ih1]
    simp [evaluateLoop, isNumber, isOperation, evalOpUsingStack_neg]
  | negNested _ _ ih =>
    intro hσ rest s
    have ih1 := ih (fun v hv => hσ v (by simp [hv])) ('-' :: rest) s
    simp only [substValues] at ih1
    have hm : isVariable '-' = false := by decide
    simp [Formula.rpn, substValues, hm, Formula.eval, ih1]
    simp [evaluateLoop, isNumber, isOperation, evalOpUsingStack_neg]
  | @bin op l r a b hop _ _ iha ihb =>
    intro hσ rest s
    obtain ⟨hnum, hvar, hisop, _, _⟩ := isBinOp_facts hop
    have ih1 := iha (fun v hv => hσ v (by simp [hv]))
      (substValues b.rpn varVal ++ op :: rest) s
    have ih2 := ihb (fun v hv => hσ v (by simp [hv])) (op :: rest)
      (boolToToken (a.eval fun v => logicVal (mapGet varVal v)) :: s)
    simp only [substValues] at ih1 ih2
    simp [Formula.rpn, substValues, hvar, Formula.eval, ih1, ih2]
    simp [evaluateLoop, hnum, hisop, evalOpUsingStack_bin hop]
  | up _ ih => exact ih

theorem evaluate_parses (varVal : Map) {n : Bool} {ts : Queue} {f : Formula}
    (h : Parses n 1 ts f)
    (hσ : ∀ v ∈ ts, isVariable v = true → isNumber (mapGet varVal v) = true) :
    evaluate (substValues f.rpn varVal)
      = .ok (boolToToken (f.eval fun v => logicVal (mapGet varVal v))) := by
  have := evaluateLoop_parses varVal h hσ [] []
  simpa [evaluate, evaluateLoop] using this

theorem Parses.atom_of_head {n : Bool} {p : Nat} {ts : Queue} {f : Formula}
    (h : Parses n p ts f) : 5 ≤ p → ts.head? ≠ some '-' → Parses n 6 ts f := by
  induction h with
  | const t ht => intro _ _; exact .const t ht
  | var t ht => intro _ _; exact .var t ht
  | paren h _ => intro _ _; exact .paren h
  | neg _ _ => intro _ hh; simp at hh
  | negNested _ _ _ => intro _ hh; simp at hh
  | bin hop _ _ _ _ => intro hp _; have := (isBinOp_facts hop).2.2.2.2; omega
  | up _ ih => intro hp hh; exact ih (by omega) hh

/-- A well-formed formula without two consecutive negation signs never applies
a negation to a negation. -/
theorem Parses.strict {p : Nat} {ts : Queue} {f : Formula} (h : Parses true p ts f) :
    DoubleNegFree ts → Parses false p ts f := by
  induction h with
  | const t ht => intro _; exact .const t ht
  | var t ht => intro _; exact .var t ht
  | @paren ts f _ ih =>
    intro hfree
    refine .paren (ih fun hin => hfree (hin.trans ?_))
    exact (List.prefix_append ts [')']).isInfix.trans (List.infix_cons (List.infix_refl _))
  | @neg ts f _ ih =>
    intro hfree
    exact .neg (ih fun hin => hfree (hin.trans (List.infix_cons (List.infix_refl _))))
  | @negNested ts f _ _ ih =>
    intro hfree
    have h5 := ih fun hin => hfree (hin.trans (List.infix_cons (List.infix_refl _)))
    refine .neg (h5.atom_of_head (le_refl _) ?_)
    intro hh
    apply hfree
    cases ts with
    | nil => simp at hh
    | cons t ts =>
      simp at hh
      subst hh
      exact (List.prefix_append ['-', '-'] ts).isInfix
  | @bin op l r a b hop _ _ iha ihb =>
    intro hfree
    refine .bin hop (iha fun hin => hfree (hin.trans ?_)) (ihb fun hin => hfree (hin.trans ?_))
    · exact (List.prefix_append l (op :: r)).isInfix
    · exact (List.infix_cons (List.infix_refl r)).trans (List.suffix_append l (op :: r)).isInfix
  | up _ ih => intro hfree; exact .up (ih hfree)

/-! ## C1: parser and evaluator against structural evaluation -/

/-- C1, as stated, fails: not every well-formed formula is evaluated by the
pipeline. For `--A` (a negation applied to a negation) `infixToPostfix` yields
`-A-`, because the second `-` pops the first one of equal priority before the
operand is read, and `evaluate` throws "Invalid expression!". -/
theorem wellFormed_double_negation_not_evaluated :
    ¬ ∀ (ts : Queue) (f : Formula) (varVal : Map), Parses true 1 ts f →
        (∀ v ∈ ts, isVariable v = true → isNumber (mapGet varVal v) = true) →
        ∃ post, infixToPostfix ts = .ok post ∧
          evaluate (substValues post varVal)
            = .ok (boolToToken (f.eval fun v => logicVal (mapGet varVal v))) := by
  intro h
  have hwf : Parses true 1 ['-', '-', 'A'] (.neg (.neg (.var 'A'))) :=
    .up (.up (.up (.up (.negNested rfl (.neg (.var 'A' (by decide)))))))
  obtain ⟨post, h1, h2⟩ := h ['-', '-', 'A'] _ [('A', '1')] hwf (by decide)
  have e : infixToPostfix ['-', '-', 'A'] = .ok ['-', 'A', '-'] := by decide
  rw [e] at h1
  cases h1
  revert h2
  decide

/-- C1, amended: for every well-formed formula in which no negation sign is
immediately followed by another one, and every table that gives each of its
variables a value `0` or `1`, `infixToPostfix` succeeds and `evaluate` of the
substituted postfix sequence returns the truth value of the direct structural
evaluation under the five-level priority table. -/
theorem infixToPostfix_evaluate_structural (ts : Queue) (f : Formula) (varVal : Map)
    (hwf : Parses true 1 ts f) (hfree : DoubleNegFree ts)
    (hval : ∀ v ∈ ts, isVariable v = true → isNumber (mapGet varVal v) = true) :
    ∃ post, infixToPostfix ts = .ok post ∧
      evaluate (substValues post varVal)
        = .ok (boolToToken (f.eval fun v => logicVal (mapGet varVal v))) :=
  ⟨f.rpn, infixToPostfix_parses (hwf.strict hfree), evaluate_parses varVal hwf hval⟩

/-- Witness of C1 (amended) at `-(A>B)&-C` with `A = 1`, `B = 0`, `C = 1`. -/
theorem infixToPostfix_evaluate_structural_witness :
    DoubleNegFree ['-', '(', 'A', '>', 'B', ')', '&', '-', 'C'] ∧
    ∃ post, infixToPostfix ['-', '(', 'A', '>', 'B', ')', '&', '-', 'C'] = .ok post ∧
      evaluate (substValues post [('A', '1'), ('B', '0'), ('C', '1')])
        = .ok (boolToToken ((Formula.bin '&' (.neg (.bin '>' (.var 'A') (.var 'B')))
            (.neg (.var 'C'))).eval fun v =>
              logicVal (mapGet [('A', '1'), ('B', '0'), ('C', '1')] v))) :=
  ⟨by decide,
    infixToPostfix_evaluate_structural _ _ _
      (.up (.up (.up (@Parses.bin true '&' ['-', '(', 'A', '>', 'B', ')'] ['-', 'C'] _ _
        (by decide)
        (.up (.neg (.paren (.up (@Parses.bin true '>' ['A'] ['B'] _ _ (by decide)
          (.up (.up (.up (.up (.var 'A' (by decide))))))
          (.up (.up (.up (.var 'B' (by decide))))))))))
        (.neg (.var 'C' (by decide)))))))
      (by decide) (by decide)⟩

/-! ## C2, C6, C7: what `SKNF` writes and returns

In the second inner loop of `SKNF` the statements `matr++; c++;` stand inside
the loop over the positions `j`, so each falsifying assignment spreads its
clause over `countVars` rows (row `p + j` receives only cell `j`) and the
returned counter counts cells, although the comment on `return c` and the
caller `main` take it for the number of clauses. -/

/-- C2, evaluation at a failing input: for the formula `-(A&B)` (postfix
`AB&-`) over `A`, `B` in a zero-filled matrix, `SKNF` returns the count 2 and
the rows `(-A | B)` and `(A | -B)`; their conjunction is true under
`A = 1, B = 1`, where the formula evaluates to `0`. For a formula without
variables that evaluates to `0`, `SKNF` writes nothing and returns 0. -/
theorem SKNF_clauses_differ_from_formula :
    SKNF ['A', 'B', '&', '-'] (allocate 12 2 fun _ _ => 0) ['A', 'B'] 2
      = .ok ([[-1, 0], [0, -1]] ++ List.replicate 10 [0, 0], 2) ∧
    cnfHolds ([[-1, 0], [0, -1]] ++ List.replicate 10 [0, 0]) 2 2 [true, true] = true ∧
    evaluate (substValues ['A', 'B', '&', '-'] (assignMap ['A', 'B'] [true, true])) = .ok '0' ∧
    ∀ matr : Matrix, SKNF ['0'] matr [] 0 = .ok (matr, 0) := by
  refine ⟨by decide, by decide, by decide, fun matr => rfl⟩

/-! ## Resolution: auxiliary lemmas -/

theorem foldl_set_length (g : Nat → Int → Int) (a : List Int) :
    ∀ n, (List.foldl (fun acc z => acc.set z (g z (acc.getD z 0))) a (List.range n)).length
      = a.length := by
  intro n
  induction n with
  | zero => rfl
  | succ n ih =>
    rw [List.range_succ, List.foldl_append]
    simp only [List.foldl_cons, List.foldl_nil, List.length_set]
    exact ih

theorem foldl_set_getD (g : Nat → Int → Int) (a : List Int) :
    ∀ n z, z < a.length →
      (List.foldl (fun acc z => acc.set z (g z (acc.getD z 0))) a (List.range n)).getD z 0
        = if z < n then g z (a.getD z 0) else a.getD z 0 := by
  intro n
  induction n with
  | zero => intro z _; rfl
  | succ n ih =>
    intro z hz
    have hlen := foldl_set_length g a n
    rw [List.range_succ, List.foldl_append]
    simp only [List.foldl_cons, List.foldl_nil]
    by_cases hzn : z = n
    · subst hzn
      rw [ih z hz, if_neg (lt_irrefl z), if_pos (Nat.lt_succ_self z),
        List.getD_eq_getElem?_getD, List.getElem?_set_self (by omega)]
      rfl
    · rw [List.getD_eq_getElem?_getD, List.getElem?_set_ne (Ne.symm hzn),
        ← List.getD_eq_getElem?_getD, ih z hz]
      by_cases h1 : z < n
      · rw [if_pos h1, if_pos (Nat.lt_succ_of_lt h1)]
      · rw [if_neg h1, if_neg (by omega)]

theorem combine_length (matr : Matrix) (i j countVars : Nat) (a : List Int) :
    (combine matr i j countVars a).length = a.length :=
  foldl_set_length (fun z old => resolveCell (cell matr i z) (cell matr j z) old) a countVars

/-- Cell `z` of the resolvent buffer after the `z` loop. -/
theorem combine_getD (matr : Matrix) (i j countVars : Nat) (a : List Int) (z : Nat)
    (hz : z < a.length) :
    (combine matr i j countVars a).getD z 0
      = if z < countVars then resolveCell (cell matr i z) (cell matr j z) (a.getD z 0)
        else a.getD z 0 :=
  foldl_set_getD (fun z old => resolveCell (cell matr i z) (cell matr j z) old) a countVars z hz


theorem pairStep_buffer {countVars : Nat} {st : ResState} {i j : Nat} {b : Bool} {st1 : ResState}
    (h : pairStep countVars st i j = .ok (b, st1)) :
    st1.a = combine st.matr i j countVars st.a := by
  unfold pairStep at h
  split at h
  · cases h; rfl
  · split at h
    · split at h
      · cases h
      · split at h
        · cases h; rfl
        · cases h
    · cases h; rfl

theorem pairStep_solved {countVars : Nat} {st : ResState} {i j : Nat}
    (h : EmptySequence (combine st.matr i j countVars st.a) countVars = true) :
    pairStep countVars st i j
      = .ok (true, { st with a := combine st.matr i j countVars st.a,
                             pairs := st.pairs ++ [(i, j)] }) := by
  unfold pairStep
  rw [if_pos h]

/-- Invariant rule for the `j` loop: if every pair step keeps `Inv` or ends in
`Post`, so does the loop. -/
theorem loopJ_invariant (Inv Post : ResState → Prop) {countVars k i : Nat}
    (hstep : ∀ st j b st1, Inv st → i < j → j < k →
      pairStep countVars st i j = .ok (b, st1) → if b = true then Post st1 else Inv st1) :
    ∀ steps j st b st1, i < j → j + steps ≤ k → Inv st →
      loopJ countVars i steps j st = .ok (b, st1) → if b = true then Post st1 else Inv st1 := by
  intro steps
  induction steps with
  | zero =>
    intro j st b st1 _ _ hinv h
    simp only [loopJ, Except.ok.injEq, Prod.mk.injEq] at h
    obtain ⟨hb, hst⟩ := h
    subst hb hst
    simpa using hinv
  | succ steps ih =>
    intro j st b st1 hij hjk hinv h
    unfold loopJ at h
    cases hp : pairStep countVars st i j with
    | error e => rw [hp] at h; cases h
    | ok r =>
      obtain ⟨b', st'⟩ := r
      have hs := hstep st j b' st' hinv hij (by omega) hp
      rw [hp] at h
      cases b' with
      | true =>
        simp only [Except.ok.injEq, Prod.mk.injEq] at h
        obtain ⟨hb, hst⟩ := h
        subst hb hst
        exact hs
      | false =>
        simp only at h
        exact ih (j + 1) st' b st1 (by omega) (by omega) (by simpa using hs) h

/-- Invariant rule for the `i` loop. -/
theorem loopI_invariant (Inv Post : ResState → Prop) {countVars k : Nat}
    (hstep : ∀ st i j b st1, Inv st → i < j → j < k →
      pairStep countVars st i j = .ok (b, st1) → if b = true then Post st1 else Inv st1) :
    ∀ steps i st b st1, i + steps ≤ k - 1 → Inv st →
      loopI countVars k steps i st = .ok (b, st1) → if b = true then Post st1 else Inv st1 := by
  intro steps
  induction steps with
  | zero =>
    intro i st b st1 _ hinv h
    simp only [loopI, Except.ok.injEq, Prod.mk.injEq] at h
    obtain ⟨hb, hst⟩ := h
    subst hb hst
    simpa using hinv
  | succ steps ih =>
    intro i st b st1 hik hinv h
    unfold loopI at h
    cases hp : loopJ countVars i (k - (i + 1)) (i + 1) st with
    | error e => rw [hp] at h; cases h
    | ok r =>
      obtain ⟨b', st'⟩ := r
      have hs := loopJ_invariant Inv Post (fun st j b st1 => hstep st i j b st1)
        (k - (i + 1)) (i + 1) st b' st' (by omega) (by omega) hinv hp
      rw [hp] at h
      cases b' with
      | true =>
        simp only [Except.ok.injEq, Prod.mk.injEq] at h
        obtain ⟨hb, hst⟩ := h
        subst hb hst
        exact hs
      | false =>
        simp only at h
        exact ih (i + 1) st' b st1 (by omega) (by simpa using hs) h

/-- Invariant rule for the rounds: a `true` result ends in `Post`, provided the
invariant fixes the row count. -/
theorem resolutionRounds_invariant (Inv Post : ResState → Prop) {countVars k : Nat} {start : Int}
    (hk : ∀ st, Inv st → st.tk = k)
    (hstep : ∀ st i j b st1, Inv st → i < j → j < k →
      pairStep countVars st i j = .ok (b, st1) → if b = true then Post st1 else Inv st1) :
    ∀ clock st st1, Inv st →
      resolutionRounds countVars start clock k st = .ok (some true, st1) → Post st1 := by
  intro clock
  induction clock with
  | nil =>
    intro st st1 _ h
    simp [resolutionRounds] at h
  | cons now clock ih =>
    intro st st1 hinv h
    unfold resolutionRounds at h
    split at h
    · cases hp : loopI countVars k (k - 1) 0 st with
      | error e => rw [hp] at h; cases h
      | ok r =>
        obtain ⟨b', st'⟩ := r
        have hs := loopI_invariant Inv Post hstep (k - 1) 0 st b' st' (by omega) hinv hp
        rw [hp] at h
        cases b' with
        | true =>
          simp only [Except.ok.injEq, Prod.mk.injEq] at h
          obtain ⟨_, hst⟩ := h
          subst hst
          exact hs
        | false =>
          simp only at h
          have hinv' : Inv st' := by simpa using hs
          rw [hk st' hinv'] at h
          exact ih st' st1 hinv' h
    · simp at h

theorem SearchArr_of_row {matr : Matrix} {countVars : Nat} {a : List Int} (r : Nat)
    (hr : EqvivArr (matr.getD r []) a countVars = true) :
    ∀ n, r < n → SearchArr matr n countVars a = true := by
  intro n
  induction n with
  | zero => intro h; omega
  | succ n ih =>
    intro h
    unfold SearchArr
    by_cases hrn : r = n
    · subst hrn
      rw [if_pos hr]
    · split
      · rfl
      · exact ih (by omega)

theorem EmptySequence_one (a : List Int) : EmptySequence a 1 = (a.getD 0 0 == 1) := by
  simp [EmptySequence, List.range_succ]

theorem EqvivArr_one (row a : List Int) : EqvivArr row a 1 = (row.getD 0 0 == a.getD 0 0) := by
  simp [EqvivArr, List.range_succ]

/-- Width 1, literal rows: a pair step either finds the rows `(A)` and `(-A)`
or leaves matrix and row count unchanged. -/
theorem pairStep_width_one {matr : Matrix} {n : Nat}
    (hlit : ∀ r < n, cell matr r 0 = 0 ∨ cell matr r 0 = -1) :
    ∀ st i j b st1, (st.matr = matr ∧ st.tk = n ∧ st.a.length = 1) → i < j → j < n →
      pairStep 1 st i j = .ok (b, st1) →
      if b = true then
        ∃ i j, i < n ∧ j < n ∧ cell matr i 0 = 0 ∧ cell matr j 0 = -1
      else st1.matr = matr ∧ st1.tk = n ∧ st1.a.length = 1 := by
  intro st i j b st1 hinv hij hjn h
  obtain ⟨hm, htk, hlen⟩ := hinv
  have hget : (combine st.matr i j 1 st.a).getD 0 0
      = resolveCell (cell matr i 0) (cell matr j 0) (st.a.getD 0 0) := by
    rw [combine_getD st.matr i j 1 st.a 0 (by omega), hm]
    simp
  have hlen' := combine_length st.matr i j 1 st.a
  unfold pairStep at h
  rw [EmptySequence_one, hget] at h
  rcases hlit i (by omega) with hx | hx <;> rcases hlit j hjn with hy | hy
  · -- both positive: the resolvent equals row `i`, nothing is appended
    have hs : SearchArr st.matr st.tk 1 (combine st.matr i j 1 st.a) = true := by
      refine SearchArr_of_row i ?_ st.tk (by omega)
      have hrow : (st.matr.getD i []).getD 0 0 = 0 := by rw [hm]; exact hx
      rw [EqvivArr_one, hget, hx, hy, hrow]
      simp [resolveCell]
    rw [hx, hy, hs] at h
    simp [resolveCell] at h
    obtain ⟨hb, hst⟩ := h
    subst hb hst
    exact ⟨hm, htk, hlen'.trans hlen⟩
  · rw [hx, hy] at h
    simp [resolveCell] at h
    obtain ⟨hb, hst⟩ := h
    subst hb
    exact ⟨i, j, by omega, hjn, hx, hy⟩
  · rw [hx, hy] at h
    simp [resolveCell] at h
    obtain ⟨hb, hst⟩ := h
    subst hb
    exact ⟨j, i, hjn, by omega, hy, hx⟩
  · have hs : SearchArr st.matr st.tk 1 (combine st.matr i j 1 st.a) = true := by
      refine SearchArr_of_row i ?_ st.tk (by omega)
      have hrow : (st.matr.getD i []).getD 0 0 = -1 := by rw [hm]; exact hx
      rw [EqvivArr_one, hget, hx, hy, hrow]
      simp [resolveCell]
    rw [hx, hy, hs] at h
    simp [resolveCell] at h
    obtain ⟨hb, hst⟩ := h
    subst hb hst
    exact ⟨hm, htk, hlen'.trans hlen⟩

/-- Width 0: every pair step ends the search, so a pair exists. -/
theorem pairStep_width_zero {n : Nat} :
    ∀ (st : ResState) i j b st1, st.tk = n → i < j → j < n →
      pairStep 0 st i j = .ok (b, st1) → if b = true then 2 ≤ n else st1.tk = n := by
  intro st i j b st1 _ hij hjn h
  have he : EmptySequence (combine st.matr i j 0 st.a) 0 = true := by simp [EmptySequence]
  rw [pairStep_solved he] at h
  simp only [Except.ok.injEq, Prod.mk.injEq] at h
  obtain ⟨hb, _⟩ := h
  subst hb
  simp
  omega

theorem unit_clauses_contradict {matr : Matrix} {n i j : Nat} (hi : i < n) (hj : j < n)
    (hx : cell matr i 0 = 0) (hy : cell matr j 0 = -1) (assign : List Bool) :
    cnfHolds matr n 1 assign = false := by
  by_contra hne
  have hall : cnfHolds matr n 1 assign = true := by simpa using hne
  simp only [cnfHolds, List.all_eq_true, List.mem_range] at hall
  have h1 := hall i hi
  have h2 := hall j hj
  simp [clauseHolds, List.range_succ, hx, hy] at h1 h2
  rw [h1] at h2
  cases h2

/-! ## C3: soundness of a successful search -/

/-- C3, as stated, fails: on the clause set `(A | B)`, `(-A | -B)` of width 2
the first pair is complementary at both positions, the resolvent is all
absent and `MethodResolution` returns `true`, yet `A = 1, B = 0` satisfies
both clauses. -/
theorem MethodResolution_true_on_satisfiable_set :
    ¬ ∀ (matr : Matrix) (n countVars : Nat) (a : List Int) (clock : List Int) (st : ResState),
        a.length = countVars → n ≤ matr.length → (∀ row ∈ matr, row.length = countVars) →
        (∀ r < n, ∀ z < countVars, cell matr r z = 0 ∨ cell matr r z = -1 ∨ cell matr r z = 1) →
        MethodResolution matr n countVars a clock = .ok (some true, st) →
        ∀ assign : List Bool, cnfHolds matr n countVars assign = false := by
  intro h
  have hc := h [[0, 0], [-1, -1]] 2 2 [0, 0] [0, 0]
    { matr := [[0, 0], [-1, -1]], tk := 2, a := [1, 1], pairs := [(0, 1)] }
    (by decide) (by decide) (by decide) (by decide) (by decide) [true, false]
  revert hc
  decide

/-- C3, amended: for every initial clause set of width at most 1, if
`MethodResolution` returns `true` then no assignment satisfies every initial
clause. (From width 2 on, two clauses that are complementary at two or more
positions combine to the all-absent resolvent although both can hold.) -/
theorem MethodResolution_sound_up_to_width_one (matr : Matrix) (n countVars : Nat)
    (a : List Int) (clock : List Int) (st : ResState)
    (hw : countVars ≤ 1) (ha : a.length = countVars)
    (h : MethodResolution matr n countVars a clock = .ok (some true, st)) :
    ∀ assign : List Bool, cnfHolds matr n countVars assign = false := by
  intro assign
  unfold MethodResolution at h
  cases clock with
  | nil => simp at h
  | cons start clock =>
    simp only at h
    rcases Nat.le_one_iff_eq_zero_or_eq_one.mp hw with h0 | h1
    · subst h0
      have hn : 2 ≤ n :=
        resolutionRounds_invariant (fun s => s.tk = n) (fun _ => 2 ≤ n)
          (fun _ hs => hs) (fun s i j b s1 hs => pairStep_width_zero s i j b s1 hs)
          clock _ st rfl h
      simp only [cnfHolds, clauseHolds, List.range_zero, List.any_nil]
      simp
      exact ⟨0, by omega⟩
    · subst h1
      by_cases hlit : ∀ r < n, cell matr r 0 = 0 ∨ cell matr r 0 = -1
      · obtain ⟨i, j, hi, hj, hx, hy⟩ :=
          resolutionRounds_invariant
            (fun s => s.matr = matr ∧ s.tk = n ∧ s.a.length = 1)
            (fun _ => ∃ i j, i < n ∧ j < n ∧ cell matr i 0 = 0 ∧ cell matr j 0 = -1)
            (fun _ hs => hs.2.1) (pairStep_width_one hlit) clock _ st ⟨rfl, rfl, ha⟩ h
        exact unit_clauses_contradict hi hj hx hy assign
      · -- some initial clause holds no literal: it is false under every assignment
        push_neg at hlit
        obtain ⟨r, hr, h0, h1⟩ := hlit
        by_contra hne
        have hall : cnfHolds matr n 1 assign = true := by simpa using hne
        simp only [cnfHolds, List.all_eq_true, List.mem_range] at hall
        have hc := hall r hr
        simp [clauseHolds, List.range_succ, h0, h1] at hc

/-- Witness of C3 (amended): the clause set `(A)`, `(-A)`. -/
theorem MethodResolution_sound_up_to_width_one_witness :
    MethodResolution [[0], [-1]] 2 1 [5] [0, 0]
      = .ok (some true, { matr := [[0], [-1]], tk := 2, a := [1], pairs := [(0, 1)] }) ∧
    cnfHolds [[0], [-1]] 2 1 [true] = false :=
  ⟨by decide,
    MethodResolution_sound_up_to_width_one [[0], [-1]] 2 1 [5] [0, 0]
      { matr := [[0], [-1]], tk := 2, a := [1], pairs := [(0, 1)] }
      (by decide) (by decide) (by decide) [true]⟩

/-! ## C4, C5: the proof pipeline of `main`

`main` opens one parenthesis with `"-("` and closes two, with `")>"` and with
the final `")"`, so every assembled formula has one `)` too many. -/

/-- C4, evaluation at the failing input: for the premises `A>B`, `A` and the
consequence `B`, `main` assembles `-((A>B)&(A))>(B))` and `infixToPostfix`
throws "Missing opening parenthesis!"; `SKNF` and `MethodResolution` are not
reached, whatever the memory and the clock hold. -/
theorem mainProve_modus_ponens_throws (fill : Nat → Nat → Int) (buffer : Nat → Int)
    (clock : List Int) :
    mainFormula ["A>B"] "A" "B" = "-((A>B)&(A))>(B))" ∧
    mainProve ["A>B"] "A" "B" fill buffer clock
      = .error (.thrown "Missing opening parenthesis!") := by
  exact ⟨by decide, rfl⟩

/-- C5, evaluation at the failing input: for the premises `A>B`, `B` and the
consequence `A`, `main` assembles `-((A>B)&(B))>(A))` and `infixToPostfix`
throws "Missing opening parenthesis!"; `MethodResolution` is not reached and
returns nothing. -/
theorem mainProve_affirming_consequent_throws (fill : Nat → Nat → Int) (buffer : Nat → Int)
    (clock : List Int) :
    mainFormula ["A>B"] "B" "A" = "-((A>B)&(B))>(A))" ∧
    mainProve ["A>B"] "B" "A" fill buffer clock
      = .error (.thrown "Missing opening parenthesis!") := by
  exact ⟨by decide, rfl⟩

/-- C6, evaluation at a failing input: for `A&B` (postfix `AB&`) the three
falsifying assignments `00`, `01`, `10` should give the rows `[0, 0]`,
`[0, -1]`, `[-1, 0]`; `SKNF` instead writes one cell into each of six rows and
leaves the other cell as the memory held it (`fill`). -/
theorem SKNF_row_holds_one_cell_of_clause (fill : Nat → Nat → Int) :
    SKNF ['A', 'B', '&'] (allocate 12 2 fill) ['A', 'B'] 2
      = .ok ([[0, fill 0 1], [fill 1 0, 0], [0, fill 2 1], [fill 3 0, -1], [-1, fill 4 1],
              [fill 5 0, 0]]
            ++ (List.range 6).map (fun r => [fill (r + 6) 0, fill (r + 6) 1]), 6) := by
  rfl

/-- C7, evaluation at a failing input: `A>B` (postfix `AB>`) is false under
exactly one assignment, and `SKNF` returns 2, the number of cells written. -/
theorem SKNF_returns_cells_written (fill : Nat → Nat → Int) :
    (SKNF ['A', 'B', '>'] (allocate 12 2 fill) ['A', 'B'] 2).map Prod.snd = .ok 2 ∧
    falsifyingCount ['A', 'B', '>'] ['A', 'B'] = 1 := by
  exact ⟨rfl, by decide⟩

/-! ## C8, C9, C10: the per-position combination rule -/

/-- C8: whenever `MethodResolution` combines rows `i` and `j` (one run of
`pairStep`, which leaves the resolvent in the buffer `a`), the resolvent is at
every position `z`: absent (`1`) if one row holds `0` and the other `-1`;
`0` if both hold `0`; `-1` if both hold `-1`; absent (`1`) if both are absent. -/
theorem pairStep_resolvent_rule (countVars : Nat) (st : ResState) (i j z : Nat) (b : Bool)
    (st1 : ResState) (h : pairStep countVars st i j = .ok (b, st1))
    (hz : z < countVars) (ha : st.a.length = countVars) :
    ((cell st.matr i z = 0 ∧ cell st.matr j z = -1) ∨
        (cell st.matr i z = -1 ∧ cell st.matr j z = 0) → st1.a.getD z 0 = 1) ∧
    (cell st.matr i z = 0 ∧ cell st.matr j z = 0 → st1.a.getD z 0 = 0) ∧
    (cell st.matr i z = -1 ∧ cell st.matr j z = -1 → st1.a.getD z 0 = -1) ∧
    (cell st.matr i z = 1 ∧ cell st.matr j z = 1 → st1.a.getD z 0 = 1) := by
  rw [pairStep_buffer h, combine_getD st.matr i j countVars st.a z (by omega), if_pos hz]
  refine ⟨?_, ?_, ?_, ?_⟩
  · intro h
    simp [resolveCell, h]
  · rintro ⟨h1, h2⟩
    simp [resolveCell, h1, h2]
  · rintro ⟨h1, h2⟩
    simp [resolveCell, h1, h2]
  · rintro ⟨h1, h2⟩
    simp [resolveCell, h1, h2]

/-- Witness of C8: rows `(A | -B | C)` and `(-A | -B | C)` with a third
position absent in both, combined at position 0. -/
theorem pairStep_resolvent_rule_witness :
    ((cell [[0, -1, 0, 1], [-1, -1, 0, 1], [5, 5, 5, 5], [5, 5, 5, 5]] 0 0 = 0 ∧
        cell [[0, -1, 0, 1], [-1, -1, 0, 1], [5, 5, 5, 5], [5, 5, 5, 5]] 1 0 = -1) ∨
      (cell [[0, -1, 0, 1], [-1, -1, 0, 1], [5, 5, 5, 5], [5, 5, 5, 5]] 0 0 = -1 ∧
        cell [[0, -1, 0, 1], [-1, -1, 0, 1], [5, 5, 5, 5], [5, 5, 5, 5]] 1 0 = 0) →
      ([1, -1, 0, 1] : List Int).getD 0 0 = 1) ∧
    (cell [[0, -1, 0, 1], [-1, -1, 0, 1], [5, 5, 5, 5], [5, 5, 5, 5]] 0 0 = 0 ∧
        cell [[0, -1, 0, 1], [-1, -1, 0, 1], [5, 5, 5, 5], [5, 5, 5, 5]] 1 0 = 0 →
      ([1, -1, 0, 1] : List Int).getD 0 0 = 0) ∧
    (cell [[0, -1, 0, 1], [-1, -1, 0, 1], [5, 5, 5, 5], [5, 5, 5, 5]] 0 0 = -1 ∧
        cell [[0, -1, 0, 1], [-1, -1, 0, 1], [5, 5, 5, 5], [5, 5, 5, 5]] 1 0 = -1 →
      ([1, -1, 0, 1] : List Int).getD 0 0 = -1) ∧
    (cell [[0, -1, 0, 1], [-1, -1, 0, 1], [5, 5, 5, 5], [5, 5, 5, 5]] 0 0 = 1 ∧
        cell [[0, -1, 0, 1], [-1, -1, 0, 1], [5, 5, 5, 5], [5, 5, 5, 5]] 1 0 = 1 →
      ([1, -1, 0, 1] : List Int).getD 0 0 = 1) :=
  pairStep_resolvent_rule 4
    { matr := [[0, -1, 0, 1], [-1, -1, 0, 1], [5, 5, 5, 5], [5, 5, 5, 5]], tk := 2, a := [7, 7, 7, 7],
      pairs := [] }
    0 1 0 false
    { matr := [[0, -1, 0, 1], [-1, -1, 0, 1], [1, -1, 0, 1], [5, 5, 5, 5]], tk := 3, a := [1, -1, 0, 1],
      pairs := [(0, 1)] }
    (by decide) (by decide) (by decide)

/-- C9, evaluation at a failing input: when one row holds `-1` and the other
is absent (`1`), no branch of the `if / else if` chain assigns, and the
resolvent cell keeps what the buffer held before (`x`), not `-1`. In the
clause set `[0, -1]`, `[0, 0]`, `[-1, 1]` the pair `(0, 2)` so inherits the `1`
that the pair `(0, 1)` left at position 1, the resolvent reads all absent and
`MethodResolution` returns `true`. -/
theorem absent_against_negative_keeps_old_cell (x y : Int) :
    combine [[-1], [1]] 0 1 1 [x] = [x] ∧
    combine [[1], [-1]] 0 1 1 [x] = [x] ∧
    (MethodResolution [[0, -1], [0, 0], [-1, 1], [0, 0], [0, 0]] 3 2 [x, y] [0, 0]).map
        (fun r => (r.1, r.2.a, r.2.pairs))
      = .ok (some true, [1, 1], [(0, 1), (0, 2)]) := by
  refine ⟨?_, ?_, rfl⟩
  · simp [combine, resolveCell, cell, List.range_succ]
  · simp [combine, resolveCell, cell, List.range_succ]

/-- C10: for every width `n` and every two rows `i`, `j` that hold a literal
at every position and are complementary there (`0` against `-1` or `-1`
against `0`), the combination is absent (`1`) at every position,
`EmptySequence` holds of the resolvent, and the pair step ends the search
with success. -/
theorem complementary_rows_give_empty_resolvent (n : Nat) (st : ResState) (i j : Nat)
    (ha : st.a.length = n)
    (hc : ∀ z < n, (cell st.matr i z = 0 ∧ cell st.matr j z = -1) ∨
      (cell st.matr i z = -1 ∧ cell st.matr j z = 0)) :
    (∀ z < n, (combine st.matr i j n st.a).getD z 0 = 1) ∧
      EmptySequence (combine st.matr i j n st.a) n = true ∧
      pairStep n st i j
        = .ok (true, { st with a := combine st.matr i j n st.a,
                               pairs := st.pairs ++ [(i, j)] }) := by
  have h : ∀ z < n, (combine st.matr i j n st.a).getD z 0 = 1 := by
    intro z hz
    rw [combine_getD st.matr i j n st.a z (by omega), if_pos hz]
    simp [resolveCell, hc z hz]
  have he : EmptySequence (combine st.matr i j n st.a) n = true := by
    simp only [EmptySequence, List.all_eq_true, List.mem_range, beq_iff_eq]
    exact h
  exact ⟨h, he, pairStep_solved he⟩

/-- Witness of C10: the all-positive row against the all-negative row of width 3. -/
theorem complementary_rows_give_empty_resolvent_witness :
    (∀ z < 3, (combine [[0, 0, 0], [-1, -1, -1]] 0 1 3 [4, 5, 6]).getD z 0 = 1) ∧
      EmptySequence (combine [[0, 0, 0], [-1, -1, -1]] 0 1 3 [4, 5, 6]) 3 = true ∧
      pairStep 3 { matr := [[0, 0, 0], [-1, -1, -1]], tk := 2, a := [4, 5, 6], pairs := [] } 0 1
        = .ok (true, { matr := [[0, 0, 0], [-1, -1, -1]], tk := 2,
                       a := combine [[0, 0, 0], [-1, -1, -1]] 0 1 3 [4, 5, 6],
                       pairs := [] ++ [(0, 1)] }) :=
  complementary_rows_give_empty_resolvent 3
    { matr := [[0, 0, 0], [-1, -1, -1]], tk := 2, a := [4, 5, 6], pairs := [] } 0 1
    (by decide) (by decide)

/-! ## C11: the clause set `(A)`, `(-A)` -/

/-- C11: for the single variable `A` and the initial clause set `(A)`, `(-A)`
(row 0 holds `0`, row 1 holds `-1`, `n = 2`, width 1), whatever the buffer
holds, `MethodResolution` returns `true` after combining the first pair
`(0, 1)`; the matrix and the row count `tk = 2` are unchanged, so no clause is
appended. The run enters the loop: the first test of the loop condition reads
a clock value less than `TIMEOUT_LIMIT` after the start value. -/
theorem MethodResolution_unit_clauses_first_pair (matr : Matrix) (x : Int) (start now : Int)
    (clock : List Int) (h0 : cell matr 0 0 = 0) (h1 : cell matr 1 0 = -1)
    (ht : now - start < TIMEOUT_LIMIT) :
    MethodResolution matr 2 1 [x] (start :: now :: clock)
      = .ok (some true, { matr := matr, tk := 2, a := [1], pairs := [(0, 1)] }) := by
  have hc : combine matr 0 1 1 [x] = [1] := by
    simp [combine, List.range_succ, h0, h1, resolveCell]
  have hp : pairStep 1 { matr := matr, tk := 2, a := [x], pairs := [] } 0 1
      = .ok (true, { matr := matr, tk := 2, a := [1], pairs := [(0, 1)] }) := by
    have he : EmptySequence (combine matr 0 1 1 [x]) 1 = true := by rw [hc]; decide
    rw [pairStep_solved he]
    simp [hc]
  simp [MethodResolution, resolutionRounds, ht, loopI, loopJ, hp]

/-- Witness of C11: the rows `[0]`, `[-1]`, buffer content 7, clock readings 0 and 0. -/
theorem MethodResolution_unit_clauses_first_pair_witness :
    MethodResolution [[0], [-1]] 2 1 [7] [0, 0]
      = .ok (some true, { matr := [[0], [-1]], tk := 2, a := [1], pairs := [(0, 1)] }) :=
  MethodResolution_unit_clauses_first_pair [[0], [-1]] 7 0 0 [] rfl rfl (by decide)

/-! ## C12: stored rows stay pairwise distinct -/

theorem writeCell_ok {m m1 : Matrix} {n i : Nat} {v : Int} (h : writeCell m n i v = .ok m1) :
    (∀ r, r ≠ n → m1.getD r [] = m.getD r []) ∧
    (m1.getD n []).getD i 0 = v ∧
    (∀ z, z ≠ i → (m1.getD n []).getD z 0 = (m.getD n []).getD z 0) := by
  unfold writeCell at h
  split at h
  · rename_i hb
    cases h
    have hrow : (m.set n ((m.getD n []).set i v)).getD n [] = (m.getD n []).set i v := by
      rw [List.getD_eq_getElem?_getD, List.getElem?_set_self hb.1]
      rfl
    refine ⟨?_, ?_, ?_⟩
    · intro r hr
      rw [List.getD_eq_getElem?_getD, List.getElem?_set_ne (Ne.symm hr),
        ← List.getD_eq_getElem?_getD]
    · rw [hrow, List.getD_eq_getElem?_getD, List.getElem?_set_self hb.2]
      rfl
    · intro z hz
      rw [hrow, List.getD_eq_getElem?_getD, List.getElem?_set_ne (Ne.symm hz),
        ← List.getD_eq_getElem?_getD]
  · cases h

theorem writeArrLoop_ok (n : Nat) (a : List Int) : ∀ (steps i : Nat) (m m1 : Matrix),
    writeArrLoop n a steps i m = .ok m1 →
    (∀ r, r ≠ n → m1.getD r [] = m.getD r []) ∧
    (∀ z, i ≤ z → z < i + steps → (m1.getD n []).getD z 0 = a.getD z 0) ∧
    (∀ z, z < i → (m1.getD n []).getD z 0 = (m.getD n []).getD z 0) := by
  intro steps
  induction steps with
  | zero =>
    intro i m m1 h
    simp only [writeArrLoop, Except.ok.injEq] at h
    subst h
    exact ⟨fun _ _ => rfl, fun z h1 h2 => by omega, fun _ _ => rfl⟩
  | succ steps ih =>
    intro i m m1 h
    unfold writeArrLoop at h
    cases hw : writeCell m n i (a.getD i 0) with
    | error e => rw [hw] at h; cases h
    | ok m' =>
      rw [hw] at h
      simp only at h
      obtain ⟨w1, w2, w3⟩ := writeCell_ok hw
      obtain ⟨i1, i2, i3⟩ := ih (i + 1) m' m1 h
      refine ⟨fun r hr => (i1 r hr).trans (w1 r hr), ?_, ?_⟩
      · intro z hz1 hz2
        by_cases hzi : z = i
        · subst hzi
          rw [i3 z (by omega), w2]
        · exact i2 z (by omega) (by omega)
      · intro z hz
        rw [i3 z (by omega), w3 z (by omega)]

theorem EqvivArr_congr_right (x y y1 : List Int) (countVars : Nat)
    (h : ∀ z, z < countVars → y1.getD z 0 = y.getD z 0) :
    EqvivArr x y1 countVars = EqvivArr x y countVars := by
  rw [Bool.eq_iff_iff]
  simp only [EqvivArr, List.all_eq_true, List.mem_range, beq_iff_eq]
  constructor
  · intro hx z hz
    rw [hx z hz, h z hz]
  · intro hx z hz
    rw [hx z hz, h z hz]

theorem SearchArr_false {matr : Matrix} {countVars : Nat} {a : List Int} :
    ∀ n, SearchArr matr n countVars a = false →
      ∀ r, r < n → EqvivArr (matr.getD r []) a countVars = false := by
  intro n
  induction n with
  | zero => intro _ r hr; omega
  | succ n ih =>
    intro h r hr
    unfold SearchArr at h
    split at h
    · cases h
    · rename_i hne
      by_cases hrn : r = n
      · subst hrn
        simpa using hne
      · exact ih h r (by omega)

theorem pairStep_rowsDistinct {countVars : Nat} {st st1 : ResState} {i j : Nat} {b : Bool}
    (hd : RowsDistinct st.matr st.tk countVars)
    (h : pairStep countVars st i j = .ok (b, st1)) :
    RowsDistinct st1.matr st1.tk countVars := by
  unfold pairStep at h
  split at h
  · cases h; exact hd
  · split at h
    · rename_i hsearch
      cases hw : WriteArr st.matr st.tk countVars (combine st.matr i j countVars st.a) with
      | error e => rw [hw] at h; cases h
      | ok r =>
        obtain ⟨m1, tk1⟩ := r
        rw [hw] at h
        simp only at h
        split at h
        swap
        · cases h
        cases h
        unfold WriteArr at hw
        cases hl : writeArrLoop st.tk (combine st.matr i j countVars st.a) countVars 0 st.matr with
        | error e => rw [hl] at hw; cases hw
        | ok m2 =>
          rw [hl] at hw
          cases hw
          obtain ⟨l1, l2, _⟩ := writeArrLoop_ok _ _ _ _ _ _ hl
          have hs : SearchArr st.matr st.tk countVars (combine st.matr i j countVars st.a)
              = false := by simpa using hsearch
          intro r1 r2 h12 h2
          have h2' : r2 < st.tk + 1 := h2
          show EqvivArr (m1.getD r1 []) (m1.getD r2 []) countVars = false
          rw [l1 r1 (by omega)]
          by_cases hr2 : r2 = st.tk
          · subst hr2
            rw [EqvivArr_congr_right _ (combine st.matr i j countVars st.a) _ countVars
              (fun z hz => l2 z (by omega) (by omega))]
            exact SearchArr_false _ hs r1 h12
          · rw [l1 r2 hr2]
            exact hd r1 r2 h12 (by omega)
    · cases h; exact hd

theorem PairSteps.trans {countVars : Nat} {st st1 st2 : ResState}
    (h1 : PairSteps countVars st st1) (h2 : PairSteps countVars st1 st2) :
    PairSteps countVars st st2 := by
  induction h2 with
  | refl => exact h1
  | step _ hp ih => exact .step ih hp

theorem PairSteps.rowsDistinct {countVars : Nat} {st st1 : ResState}
    (h : PairSteps countVars st st1) (hd : RowsDistinct st.matr st.tk countVars) :
    RowsDistinct st1.matr st1.tk countVars := by
  induction h with
  | refl => exact hd
  | step _ hp ih => exact pairStep_rowsDistinct ih hp

theorem loopJ_pairSteps {countVars i : Nat} (st0 : ResState) :
    ∀ (steps j : Nat) (st : ResState) (b : Bool) (st1 : ResState),
      PairSteps countVars st0 st → loopJ countVars i steps j st = .ok (b, st1) →
      PairSteps countVars st0 st1 := by
  intro steps
  induction steps with
  | zero =>
    intro j st b st1 h0 h
    simp only [loopJ, Except.ok.injEq, Prod.mk.injEq] at h
    rw [← h.2]
    exact h0
  | succ steps ih =>
    intro j st b st1 h0 h
    unfold loopJ at h
    cases hp : pairStep countVars st i j with
    | error e => rw [hp] at h; cases h
    | ok r =>
      obtain ⟨b', s'⟩ := r
      rw [hp] at h
      have hs' : PairSteps countVars st0 s' := .step h0 hp
      cases b' with
      | true =>
        simp only [Except.ok.injEq, Prod.mk.injEq] at h
        rw [← h.2]
        exact hs'
      | false =>
        simp only at h
        exact ih (j + 1) s' b st1 hs' h

theorem loopI_pairSteps {countVars k : Nat} (st0 : ResState) :
    ∀ (steps i : Nat) (st : ResState) (b : Bool) (st1 : ResState),
      PairSteps countVars st0 st → loopI countVars k steps i st = .ok (b, st1) →
      PairSteps countVars st0 st1 := by
  intro steps
  induction steps with
  | zero =>
    intro i st b st1 h0 h
    simp only [loopI, Except.ok.injEq, Prod.mk.injEq] at h
    rw [← h.2]
    exact h0
  | succ steps ih =>
    intro i st b st1 h0 h
    unfold loopI at h
    cases hp : loopJ countVars i (k - (i + 1)) (i + 1) st with
    | error e => rw [hp] at h; cases h
    | ok r =>
      obtain ⟨b', s'⟩ := r
      rw [hp] at h
      have hs' := loopJ_pairSteps st0 _ _ _ _ _ h0 hp
      cases b' with
      | true =>
        simp only [Except.ok.injEq, Prod.mk.injEq] at h
        rw [← h.2]
        exact hs'
      | false =>
        simp only at h
        exact ih (i + 1) s' b st1 hs' h

theorem resolutionRounds_pairSteps {countVars : Nat} {start : Int} (st0 : ResState) :
    ∀ (clock : List Int) (k : Nat) (st : ResState) (r : Option Bool) (st1 : ResState),
      PairSteps countVars st0 st →
      resolutionRounds countVars start clock k st = .ok (r, st1) →
      PairSteps countVars st0 st1 := by
  intro clock
  induction clock with
  | nil =>
    intro k st r st1 h0 h
    simp only [resolutionRounds, Except.ok.injEq, Prod.mk.injEq] at h
    rw [← h.2]
    exact h0
  | cons now clock ih =>
    intro k st r st1 h0 h
    unfold resolutionRounds at h
    split at h
    · cases hp : loopI countVars k (k - 1) 0 st with
      | error e => rw [hp] at h; cases h
      | ok res =>
        obtain ⟨b', s'⟩ := res
        rw [hp] at h
        have hs' := loopI_pairSteps st0 _ _ _ _ _ h0 hp
        cases b' with
        | true =>
          simp only [Except.ok.injEq, Prod.mk.injEq] at h
          rw [← h.2]
          exact hs'
        | false =>
          simp only at h
          exact ih _ s' r st1 hs' h
    · simp only [Except.ok.injEq, Prod.mk.injEq] at h
      rw [← h.2]
      exact h0

theorem MethodResolution_pairSteps {matr : Matrix} {n countVars : Nat} {a : List Int}
    {clock : List Int} {r : Option Bool} {st : ResState}
    (h : MethodResolution matr n countVars a clock = .ok (r, st)) :
    PairSteps countVars { matr := matr, tk := n, a := a, pairs := [] } st := by
  unfold MethodResolution at h
  cases clock with
  | nil =>
    simp only [Except.ok.injEq, Prod.mk.injEq] at h
    rw [← h.2]
    exact .refl _
  | cons start clock =>
    exact resolutionRounds_pairSteps _ clock n _ r st (.refl _) h

/-- C12: for every initial clause set whose rows `0 .. n - 1` are pairwise
distinct, the rows `0 .. tk - 1` are pairwise distinct in every state reached
by any number of pair combinations, and so in the state in which
`MethodResolution` ends for any readings of the clock; a pair combination
that does not end the search either leaves the row count or appends one row,
and it appends only when `SearchArr` finds no equal row among rows
`0 .. tk - 1`. -/
theorem stored_rows_stay_distinct (matr : Matrix) (n countVars : Nat) (a : List Int)
    (hd : RowsDistinct matr n countVars) :
    (∀ st, PairSteps countVars { matr := matr, tk := n, a := a, pairs := [] } st →
      RowsDistinct st.matr st.tk countVars) ∧
    (∀ clock r st, MethodResolution matr n countVars a clock = .ok (r, st) →
      RowsDistinct st.matr st.tk countVars) ∧
    (∀ (st st1 : ResState) (i j : Nat), pairStep countVars st i j = .ok (false, st1) →
      st1.tk = st.tk ∨
        (st1.tk = st.tk + 1 ∧
          SearchArr st.matr st.tk countVars (combine st.matr i j countVars st.a) = false)) := by
  refine ⟨fun st h => h.rowsDistinct hd, fun clock r st h =>
    (MethodResolution_pairSteps h).rowsDistinct hd, ?_⟩
  intro st st1 i j h
  unfold pairStep at h
  split at h
  · cases h
  · split at h
    · rename_i hsearch
      cases hw : WriteArr st.matr st.tk countVars (combine st.matr i j countVars st.a) with
      | error e => rw [hw] at h; cases h
      | ok r =>
        obtain ⟨m1, tk1⟩ := r
        rw [hw] at h
        simp only at h
        split at h
        swap
        · cases h
        cases h
        unfold WriteArr at hw
        split at hw
        · cases hw
        · cases hw
          exact Or.inr ⟨rfl, by simpa using hsearch⟩
    · cases h
      exact Or.inl rfl

/-- Witness of C12: the clause set `(A | B)`, `(-A | B)` and a run that appends
the resolvent `(B)` and then saturates until the time limit. -/
theorem stored_rows_stay_distinct_witness :
    RowsDistinct [[0, 0], [-1, 0], [9, 9], [9, 9]] 2 2 ∧
    MethodResolution [[0, 0], [-1, 0], [9, 9], [9, 9]] 2 2 [5, 5] [0, 0, 1, 100]
      = .ok (some false, { matr := [[0, 0], [-1, 0], [1, 0], [9, 9]], tk := 3, a := [0, 0],
                           pairs := [(0, 1), (0, 1), (0, 2), (1, 2)] }) ∧
    RowsDistinct [[0, 0], [-1, 0], [1, 0], [9, 9]] 3 2 := by
  have hd : RowsDistinct [[0, 0], [-1, 0], [9, 9], [9, 9]] 2 2 := by
    intro r1 r2 h1 h2
    have e2 : r2 = 1 := by omega
    have e1 : r1 = 0 := by omega
    subst e1 e2
    decide
  have hrun : MethodResolution [[0, 0], [-1, 0], [9, 9], [9, 9]] 2 2 [5, 5] [0, 0, 1, 100]
      = .ok (some false, { matr := [[0, 0], [-1, 0], [1, 0], [9, 9]], tk := 3, a := [0, 0],
                           pairs := [(0, 1), (0, 1), (0, 2), (1, 2)] }) := by decide
  exact ⟨hd, hrun,
    (stored_rows_stay_distinct [[0, 0], [-1, 0], [9, 9], [9, 9]] 2 2 [5, 5] hd).2.1
      [0, 0, 1, 100] (some false) _ hrun⟩

/-! ## C13, C14: parenthesis errors and unknown symbols of `infixToPostfix` -/

theorem operand_facts {t : Token} (h : (isNumber t || isVariable t) = true) :
    isOperation t = false ∧ isOpeningPar t = false ∧ isClosingPar t = false := by
  by_contra hc
  have : isOperation t = true ∨ isOpeningPar t = true ∨ isClosingPar t = true := by
    by_contra hn
    push_neg at hn
    simp only [Bool.not_eq_true] at hn
    exact hc hn
  simp only [isOperation, isOpeningPar, isClosingPar, Bool.or_eq_true, beq_iff_eq] at this
  rcases this with ((((h1 | h1) | h1) | h1) | h1) | h1 | h1 <;> subst h1 <;> revert h <;> decide

theorem parDepth_none_iff : ∀ (ts : Queue) (d : Nat),
    parDepth ts d = none ↔ ∃ p, p <+: ts ∧ d + p.count '(' < p.count ')' := by
  intro ts
  induction ts with
  | nil =>
    intro d
    simp [parDepth]
  | cons t ts ih =>
    intro d
    unfold parDepth
    by_cases h1 : t = '('
    · subst h1
      rw [if_pos rfl, ih]
      constructor
      · rintro ⟨p, hp, hlt⟩
        refine ⟨'(' :: p, (List.prefix_cons_inj _).2 hp, ?_⟩
        simp
        omega
      · rintro ⟨q, hq, hlt⟩
        rcases List.prefix_cons_iff.1 hq with rfl | ⟨p, rfl, hp⟩
        · simp at hlt
        · refine ⟨p, hp, ?_⟩
          simp at hlt
          omega
    · rw [if_neg h1]
      by_cases h2 : t = ')'
      · subst h2
        rw [if_pos rfl]
        by_cases hd : d = 0
        · subst hd
          simp only [if_true, true_iff]
          exact ⟨[')'], by simp, by decide⟩
        · rw [if_neg hd, ih]
          constructor
          · rintro ⟨p, hp, hlt⟩
            refine ⟨')' :: p, (List.prefix_cons_inj _).2 hp, ?_⟩
            simp
            omega
          · rintro ⟨q, hq, hlt⟩
            rcases List.prefix_cons_iff.1 hq with rfl | ⟨p, rfl, hp⟩
            · simp at hlt
            · refine ⟨p, hp, ?_⟩
              simp at hlt
              omega
      · rw [if_neg h2, ih]
        constructor
        · rintro ⟨p, hp, hlt⟩
          refine ⟨t :: p, (List.prefix_cons_inj _).2 hp, ?_⟩
          rw [List.count_cons_of_ne (Ne.symm h1), List.count_cons_of_ne (Ne.symm h2)]
          exact hlt
        · rintro ⟨q, hq, hlt⟩
          rcases List.prefix_cons_iff.1 hq with rfl | ⟨p, rfl, hp⟩
          · simp at hlt
          · refine ⟨p, hp, ?_⟩
            rw [List.count_cons_of_ne (Ne.symm h1), List.count_cons_of_ne (Ne.symm h2)] at hlt
            exact hlt

theorem parDepth_some : ∀ (ts : Queue) (d e : Nat),
    parDepth ts d = some e → e + ts.count ')' = d + ts.count '(' := by
  intro ts
  induction ts with
  | nil =>
    intro d e h
    simp [parDepth] at h
    simp [h]
  | cons t ts ih =>
    intro d e h
    unfold parDepth at h
    by_cases h1 : t = '('
    · subst h1
      rw [if_pos rfl] at h
      have := ih _ _ h
      simp
      omega
    · rw [if_neg h1] at h
      by_cases h2 : t = ')'
      · subst h2
        rw [if_pos rfl] at h
        by_cases hd : d = 0
        · rw [if_pos hd] at h
          cases h
        · rw [if_neg hd] at h
          have := ih _ _ h
          simp
          omega
      · rw [if_neg h2] at h
        have := ih _ _ h
        rw [List.count_cons_of_ne (Ne.symm h1), List.count_cons_of_ne (Ne.symm h2)]
        exact this

theorem isOperation_ne_par {t : Token} (h : isOperation t = true) : t ≠ '(' := by
  intro he
  subst he
  exact absurd h (by decide)

theorem StackOK.tail {t : Token} {s : Stack} (h : StackOK (t :: s)) : StackOK s :=
  fun x hx => h x (List.mem_cons_of_mem _ hx)

theorem popOperations_stackOK (t : Token) : ∀ (s : Stack) (out : Queue), StackOK s →
    StackOK (popOperations t out s).2 ∧ (popOperations t out s).2.count '(' = s.count '(' := by
  intro s
  induction s with
  | nil => intro out h; simp [popOperations, StackOK]
  | cons top s ih =>
    intro out h
    unfold popOperations
    split
    · rename_i hc
      simp only [Bool.and_eq_true] at hc
      obtain ⟨h1, h2⟩ := ih (out ++ [top]) h.tail
      refine ⟨h1, ?_⟩
      rw [h2, List.count_cons_of_ne (Ne.symm (isOperation_ne_par hc.1))]
    · exact ⟨h, rfl⟩

theorem popToOpeningPar_stackOK : ∀ (s : Stack) (out : Queue), StackOK s →
    ∃ out1, (s.count '(' = 0 ∧ popToOpeningPar out s = .ok (out1, [])) ∨
      ∃ s1, popToOpeningPar out s = .ok (out1, '(' :: s1) ∧ StackOK s1 ∧
        s1.count '(' + 1 = s.count '(' := by
  intro s
  induction s with
  | nil => intro out _; exact ⟨out, Or.inl ⟨rfl, rfl⟩⟩
  | cons top s ih =>
    intro out h
    rcases h top (List.mem_cons_self _ _) with hop | hpar
    · obtain ⟨out1, hres⟩ := ih (out ++ [top]) h.tail
      refine ⟨out1, ?_⟩
      have hne := isOperation_ne_par hop
      have e : popToOpeningPar out (top :: s) = popToOpeningPar (out ++ [top]) s := by
        simp [popToOpeningPar, isOperation_not_par hop, hop]
      rw [e, List.count_cons_of_ne (Ne.symm hne)]
      exact hres
    · subst hpar
      refine ⟨out, Or.inr ⟨s, ?_, h.tail, ?_⟩⟩
      · simp [popToOpeningPar, isOpeningPar]
      · simp

theorem drainStack_stackOK : ∀ (s : Stack) (out : Queue), StackOK s →
    (s.count '(' = 0 → ∃ post, drainStack out s = .ok post) ∧
    (0 < s.count '(' → drainStack out s = .error (.thrown "Unclosed parenthesis!")) := by
  intro s
  induction s with
  | nil => intro out _; simp [drainStack]
  | cons top s ih =>
    intro out h
    rcases h top (List.mem_cons_self _ _) with hop | hpar
    · have hne := isOperation_ne_par hop
      have e : drainStack out (top :: s) = drainStack (out ++ [top]) s := by
        simp [drainStack, isOperation_not_par hop, hop]
      rw [e, List.count_cons_of_ne (Ne.symm hne)]
      exact ih (out ++ [top]) h.tail
    · subst hpar
      simp [drainStack, isOpeningPar]

/-- Reading recognised tokens: either a `)` arrives while no `(` is on the
stack and the parser throws, or the loop goes on with a stack of operations
and as many `(` as `parDepth` counts. -/
theorem loop_recognised : ∀ (pre : Queue) (out : Queue) (s : Stack),
    (∀ t ∈ pre, isRecognised t = true) → StackOK s →
    (parDepth pre (s.count '(') = none →
      ∀ rest, infixToPostfixLoop (pre ++ rest) out s
        = .error (.thrown "Missing opening parenthesis!")) ∧
    (∀ d, parDepth pre (s.count '(') = some d →
      ∃ out1 s1, StackOK s1 ∧ s1.count '(' = d ∧
        ∀ rest, infixToPostfixLoop (pre ++ rest) out s = infixToPostfixLoop rest out1 s1) := by
  intro pre
  induction pre with
  | nil =>
    intro out s _ hs
    refine ⟨by simp [parDepth], ?_⟩
    intro d hd
    simp only [parDepth, Option.some.injEq] at hd
    exact ⟨out, s, hs, hd, fun rest => rfl⟩
  | cons t pre ih =>
    intro out s hrec hs
    have hrec' : ∀ x ∈ pre, isRecognised x = true := fun x hx => hrec x (List.mem_cons_of_mem _ hx)
    have ht := hrec t (List.mem_cons_self _ _)
    by_cases hnv : (isNumber t || isVariable t) = true
    · -- constant or variable
      obtain ⟨hop, hopen, hclose⟩ := operand_facts hnv
      have h1 : t ≠ '(' := by intro he; subst he; exact absurd hopen (by decide)
      have h2 : t ≠ ')' := by intro he; subst he; exact absurd hclose (by decide)
      have e : ∀ rest, infixToPostfixLoop (t :: pre ++ rest) out s
          = infixToPostfixLoop (pre ++ rest) (out ++ [t]) s := by
        intro rest
        simp only [List.cons_append, infixToPostfixLoop, hnv, if_true]
        rfl
      have hp : parDepth (t :: pre) (s.count '(') = parDepth pre (s.count '(') := by
        simp [parDepth, h1, h2]
      obtain ⟨ihn, ihs⟩ := ih (out ++ [t]) s hrec' hs
      rw [hp]
      refine ⟨fun hn rest => by rw [e, ihn hn], fun d hd => ?_⟩
      obtain ⟨out1, s1, hs1, hc1, hrun⟩ := ihs d hd
      exact ⟨out1, s1, hs1, hc1, fun rest => by rw [e, hrun]⟩
    · by_cases hop : isOperation t = true
      · -- operation
        have h1 : t ≠ '(' := isOperation_ne_par hop
        have h2 : t ≠ ')' := by intro he; subst he; exact absurd hop (by decide)
        have e : ∀ rest, infixToPostfixLoop (t :: pre ++ rest) out s
            = infixToPostfixLoop (pre ++ rest) (popOperations t out s).1
                (t :: (popOperations t out s).2) := by
          intro rest
          simp only [List.cons_append, infixToPostfixLoop, hnv, hop, if_true]
          simp
        have hp : parDepth (t :: pre) (s.count '(') = parDepth pre (s.count '(') := by
          simp [parDepth, h1, h2]
        obtain ⟨hs', hc'⟩ := popOperations_stackOK t s out hs
        have hs2 : StackOK (t :: (popOperations t out s).2) := by
          intro x hx
          rcases List.mem_cons.1 hx with rfl | hx
          · exact Or.inl hop
          · exact hs' x hx
        have hc2 : (t :: (popOperations t out s).2).count '(' = s.count '(' := by
          rw [List.count_cons_of_ne (Ne.symm h1), hc']
        obtain ⟨ihn, ihs⟩ := ih (popOperations t out s).1 _ hrec' hs2
        rw [hc2] at ihn ihs
        rw [hp]
        refine ⟨fun hn rest => by rw [e, ihn hn], fun d hd => ?_⟩
        obtain ⟨out1, s1, hs1, hc1, hrun⟩ := ihs d hd
        exact ⟨out1, s1, hs1, hc1, fun rest => by rw [e, hrun]⟩
      · by_cases hopen : isOpeningPar t = true
        · -- opening parenthesis
          have h1 : t = '(' := by simpa [isOpeningPar] using hopen
          subst h1
          have e : ∀ rest, infixToPostfixLoop ('(' :: pre ++ rest) out s
              = infixToPostfixLoop (pre ++ rest) out ('(' :: s) := by
            intro rest
            simp [infixToPostfixLoop, isNumber, isVariable, isOperation, isOpeningPar]
          have hp : parDepth ('(' :: pre) (s.count '(') = parDepth pre (s.count '(' + 1) := by
            simp [parDepth]
          have hs2 : StackOK ('(' :: s) := by
            intro x hx
            rcases List.mem_cons.1 hx with rfl | hx
            · exact Or.inr rfl
            · exact hs x hx
          obtain ⟨ihn, ihs⟩ := ih out ('(' :: s) hrec' hs2
          rw [List.count_cons_self] at ihn ihs
          rw [hp]
          refine ⟨fun hn rest => by rw [e, ihn hn], fun d hd => ?_⟩
          obtain ⟨out1, s1, hs1, hc1, hrun⟩ := ihs d hd
          exact ⟨out1, s1, hs1, hc1, fun rest => by rw [e, hrun]⟩
        · -- closing parenthesis
          have hclose : isClosingPar t = true := by
            simp only [isRecognised, Bool.or_eq_true] at ht
            rcases ht with (((h | h) | h) | h) | h
            · exact absurd (by simp [h]) hnv
            · exact absurd (by simp [h]) hnv
            · exact absurd h hop
            · exact absurd h hopen
            · exact h
          have h1 : t = ')' := by simpa [isClosingPar] using hclose
          subst h1
          obtain ⟨out1, hres⟩ := popToOpeningPar_stackOK s out hs
          rcases hres with ⟨hzero, hres⟩ | ⟨s1, hres, hs1, hcount⟩
          · have e : ∀ rest, infixToPostfixLoop (')' :: pre ++ rest) out s
                = .error (.thrown "Missing opening parenthesis!") := by
              intro rest
              simp [infixToPostfixLoop, isNumber, isVariable, isOperation, isOpeningPar,
                isClosingPar, hres]
            have hp : parDepth (')' :: pre) (s.count '(') = none := by
              simp [parDepth, hzero]
            rw [hp]
            exact ⟨fun _ rest => e rest, fun d hd => by cases hd⟩
          · have e : ∀ rest, infixToPostfixLoop (')' :: pre ++ rest) out s
                = infixToPostfixLoop (pre ++ rest) out1 s1 := by
              intro rest
              simp [infixToPostfixLoop, isNumber, isVariable, isOperation, isOpeningPar,
                isClosingPar, hres]
            have hp : parDepth (')' :: pre) (s.count '(') = parDepth pre (s1.count '(') := by
              have : s.count '(' ≠ 0 := by omega
              have h' : s.count '(' - 1 = s1.count '(' := by omega
              simp [parDepth, this, h']
            obtain ⟨ihn, ihs⟩ := ih out1 s1 hrec' hs1
            rw [hp]
            refine ⟨fun hn rest => by rw [e, ihn hn], fun d hd => ?_⟩
            obtain ⟨out2, s2, hs2, hc2, hrun⟩ := ihs d hd
            exact ⟨out2, s2, hs2, hc2, fun rest => by rw [e, hrun]⟩

theorem unknown_symbol_step (c : Token) (hc : isRecognised c = false) (rest out : Queue)
    (s : Stack) :
    infixToPostfixLoop (c :: rest) out s
      = .error (.thrown ("Unknown symbol \x27" ++ (String.singleton c ++ "\x27!"))) := by
  simp only [isRecognised, Bool.or_eq_false_iff] at hc
  obtain ⟨⟨⟨⟨h1, h2⟩, h3⟩, h4⟩, h5⟩ := hc
  simp [infixToPostfixLoop, h1, h2, h3, h4, h5]

/-- After recognised tokens that close no unopened parenthesis, the first
unrecognised token stops the parser with the message that names it. -/
theorem infixToPostfix_stops_at_unknown (pre : Queue) (c : Token) (rest : Queue)
    (hrec : ∀ t ∈ pre, isRecognised t = true) (hc : isRecognised c = false)
    (hpar : parDepth pre 0 ≠ none) :
    infixToPostfix (pre ++ c :: rest)
      = .error (.thrown ("Unknown symbol \x27" ++ (String.singleton c ++ "\x27!"))) := by
  obtain ⟨_, hsome⟩ := loop_recognised pre [] [] hrec (fun t ht => by cases ht)
  simp only [List.count_nil] at hsome
  cases hd : parDepth pre 0 with
  | none => exact absurd hd hpar
  | some d =>
    obtain ⟨out1, s1, _, _, hrun⟩ := hsome d hd
    unfold infixToPostfix
    rw [hrun (c :: rest)]
    exact unknown_symbol_step c hc rest out1 s1

/-- C13: for every token sequence of recognised tokens, `infixToPostfix` throws
"Missing opening parenthesis!" exactly when some prefix contains more `)`
than `(`; it throws "Unclosed parenthesis!" exactly when no prefix does and
the whole sequence contains more `(` than `)`; otherwise it returns a
sequence. -/
theorem infixToPostfix_parenthesis_errors (ts : Queue)
    (hrec : ∀ t ∈ ts, isRecognised t = true) :
    (infixToPostfix ts = .error (.thrown "Missing opening parenthesis!") ↔ ClosesUnopened ts) ∧
    (infixToPostfix ts = .error (.thrown "Unclosed parenthesis!")
      ↔ ¬ ClosesUnopened ts ∧ ts.count ')' < ts.count '(') ∧
    (¬ ClosesUnopened ts → ts.count '(' ≤ ts.count ')' →
      ∃ post, infixToPostfix ts = .ok post) := by
  obtain ⟨hnone, hsome⟩ := loop_recognised ts [] [] hrec (fun t ht => by cases ht)
  have hiff : parDepth ts 0 = none ↔ ClosesUnopened ts := by
    rw [parDepth_none_iff]
    simp [ClosesUnopened]
  simp only [List.count_nil] at hnone hsome
  have hne : (Except.error (Failure.thrown "Missing opening parenthesis!") : Except Failure Queue)
      ≠ .error (.thrown "Unclosed parenthesis!") := by decide
  cases hd : parDepth ts 0 with
  | none =>
    have hres : infixToPostfix ts = .error (.thrown "Missing opening parenthesis!") := by
      have := hnone hd []
      simpa [infixToPostfix] using this
    have hcl : ClosesUnopened ts := hiff.1 hd
    rw [hres]
    exact ⟨Iff.intro (fun _ => hcl) (fun _ => rfl),
      Iff.intro (fun h => absurd h hne) (fun h => absurd hcl h.1), fun h => absurd hcl h⟩
  | some d =>
    have hncl : ¬ ClosesUnopened ts := fun h => by
      rw [hiff.2 h] at hd
      cases hd
    obtain ⟨out1, s1, hs1, hc1, hrun⟩ := hsome d hd
    have hres : infixToPostfix ts = drainStack out1 s1 := by
      have := hrun []
      simpa [infixToPostfix, infixToPostfixLoop] using this
    have hcount := parDepth_some ts 0 d hd
    obtain ⟨hok, herr⟩ := drainStack_stackOK s1 out1 hs1
    by_cases hz : d = 0
    · obtain ⟨post, hpost⟩ := hok (by omega)
      rw [hres, hpost]
      exact ⟨Iff.intro (fun h => by cases h) (fun h => absurd h hncl),
        Iff.intro (fun h => by cases h) (fun h => by omega), fun _ _ => ⟨post, rfl⟩⟩
    · have hu := herr (by omega)
      rw [hres, hu]
      exact ⟨Iff.intro (fun h => absurd h.symm hne) (fun h => absurd h hncl),
        Iff.intro (fun _ => ⟨hncl, by omega⟩) (fun _ => rfl), fun _ h => by omega⟩

/-- Witness of C13 at `(A&B`: an unclosed parenthesis. -/
theorem infixToPostfix_parenthesis_errors_witness :
    (infixToPostfix ['(', 'A', '&', 'B'] = .error (.thrown "Missing opening parenthesis!")
      ↔ ClosesUnopened ['(', 'A', '&', 'B']) ∧
    (infixToPostfix ['(', 'A', '&', 'B'] = .error (.thrown "Unclosed parenthesis!")
      ↔ ¬ ClosesUnopened ['(', 'A', '&', 'B'] ∧
        ['(', 'A', '&', 'B'].count ')' < ['(', 'A', '&', 'B'].count '(') ∧
    (¬ ClosesUnopened ['(', 'A', '&', 'B'] →
      ['(', 'A', '&', 'B'].count '(' ≤ ['(', 'A', '&', 'B'].count ')' →
      ∃ post, infixToPostfix ['(', 'A', '&', 'B'] = .ok post) :=
  infixToPostfix_parenthesis_errors ['(', 'A', '&', 'B'] (by decide)

/-- C14: when every token before `c` is recognised and no prefix of them
contains more `)` than `(`, and `c` is neither a constant, a variable, an
operation nor a parenthesis, `infixToPostfix` throws the message
"Unknown symbol 'c'!" with exactly that token. -/
theorem infixToPostfix_unknown_symbol (pre : Queue) (c : Token) (rest : Queue)
    (hrec : ∀ t ∈ pre, isRecognised t = true) (hc : isRecognised c = false)
    (hpar : ¬ ClosesUnopened pre) :
    infixToPostfix (pre ++ c :: rest)
      = .error (.thrown ("Unknown symbol \x27" ++ (String.singleton c ++ "\x27!"))) :=
  infixToPostfix_stops_at_unknown pre c rest hrec hc
    (fun hn => hpar (by simpa [ClosesUnopened] using (parDepth_none_iff pre 0).1 hn))

/-- Witness of C14 at `(A&$B`. -/
theorem infixToPostfix_unknown_symbol_witness :
    infixToPostfix (['(', 'A', '&'] ++ '$' :: ['B']) = .error (.thrown "Unknown symbol \x27$\x27!") :=
  infixToPostfix_unknown_symbol ['(', 'A', '&'] '$' ['B'] (by decide) (by decide)
    (fun h => by
      have hn := (parDepth_none_iff ['(', 'A', '&'] 0).2 (by simpa [ClosesUnopened] using h)
      revert hn
      decide)

/-! ## C15, C16: the evaluator -/

theorem evalOpUsingStack_bin_numbers {op a b : Token} (hop : isBinOp op = true)
    (ha : isNumber a = true) (hb : isNumber b = true) (s : Stack) :
    ∃ r, isNumber r = true ∧ evalOpUsingStack op (b :: a :: s) = .ok (r :: s) := by
  refine ⟨boolToToken (binSem op (logicVal a) (logicVal b)), boolToToken_isNumber _, ?_⟩
  have h := evalOpUsingStack_bin hop (logicVal a) (logicVal b) s
  rwa [boolToToken_logicVal ha, boolToToken_logicVal hb] at h

theorem evalOpUsingStack_neg_number {a : Token} (ha : isNumber a = true) (s : Stack) :
    ∃ r, isNumber r = true ∧ evalOpUsingStack '-' (a :: s) = .ok (r :: s) := by
  refine ⟨boolToToken (!logicVal a), boolToToken_isNumber _, ?_⟩
  have h := evalOpUsingStack_neg (logicVal a) s
  rwa [boolToToken_logicVal ha] at h

theorem evalOpUsingStack_short {op : Token} (hop : isOperation op = true) (s : Stack)
    (h : if isBinOp op = true then s.length < 2 else s.length < 1) :
    evalOpUsingStack op s = .error (.thrown "Invalid expression!") := by
  unfold evalOpUsingStack
  by_cases hb : isBinOp op = true
  · rw [if_pos hb] at h
    match s, h with
    | [], _ => simp [hop, hb]
    | [x], _ => simp [hop, hb]
  · rw [if_neg hb] at h
    match s, h with
    | [], _ => simp [hop, hb]

/-- The evaluator on a stack of constants: it returns a constant exactly when
the scan ends with one value, and throws otherwise. -/
theorem evaluateLoop_depth : ∀ (ts : Queue) (s : Stack),
    (∀ t ∈ ts, isNumber t = true ∨ isOperation t = true) → (∀ x ∈ s, isNumber x = true) →
    (stackDepth ts s.length = some 1 → ∃ v, isNumber v = true ∧ evaluateLoop ts s = .ok v) ∧
    (stackDepth ts s.length ≠ some 1 →
      evaluateLoop ts s = .error (.thrown "Invalid expression!")) := by
  intro ts
  induction ts with
  | nil =>
    intro s _ hs
    simp only [stackDepth, Option.some.injEq]
    match s, hs with
    | [], _ => simp [evaluateLoop]
    | [r], hs => simp [evaluateLoop, hs r (by simp)]
    | _ :: _ :: _, _ => simp [evaluateLoop]
  | cons t ts ih =>
    intro s htok hs
    have htok' : ∀ x ∈ ts, isNumber x = true ∨ isOperation x = true :=
      fun x hx => htok x (List.mem_cons_of_mem _ hx)
    by_cases hn : isNumber t = true
    · have e : evaluateLoop (t :: ts) s = evaluateLoop ts (t :: s) := evaluateLoop_number hn ts s
      have hd : stackDepth (t :: ts) s.length = stackDepth ts (t :: s).length := by
        simp [stackDepth, hn]
      rw [e, hd]
      exact ih (t :: s) htok' (by
        intro x hx
        rcases List.mem_cons.1 hx with rfl | hx
        · exact hn
        · exact hs x hx)
    · have hop : isOperation t = true := by
        rcases htok t (List.mem_cons_self _ _) with h | h
        · exact absurd h hn
        · exact h
      have e : evaluateLoop (t :: ts) s
          = match evalOpUsingStack t s with
            | .ok s1 => evaluateLoop ts s1
            | .error e => .error e := by
        simp [evaluateLoop, hn, hop]
      by_cases hb : isBinOp t = true
      · match s, hs with
        | b :: a :: rest, hs =>
          obtain ⟨r, hr, hres⟩ := evalOpUsingStack_bin_numbers hb (hs a (by simp)) (hs b (by simp)) rest
          have hd : stackDepth (t :: ts) (b :: a :: rest).length
              = stackDepth ts (r :: rest).length := by
            simp [stackDepth, hn, hb]
          rw [e, hres, hd]
          exact ih (r :: rest) htok' (by
            intro x hx
            rcases List.mem_cons.1 hx with rfl | hx
            · exact hr
            · exact hs x (by simp [hx]))
        | [], _ =>
          have hres := evalOpUsingStack_short hop [] (by simp [hb])
          rw [e, hres]
          simp [stackDepth, hn, hb]
        | [x], _ =>
          have hres := evalOpUsingStack_short hop [x] (by simp [hb])
          rw [e, hres]
          simp [stackDepth, hn, hb]
      · have hneg : t = '-' := by
          simp only [isOperation, Bool.or_eq_true, beq_iff_eq] at hop
          rcases hop with (((h | h) | h) | h) | h
          · subst h; exact absurd (by decide) hb
          · subst h; exact absurd (by decide) hb
          · exact h
          · subst h; exact absurd (by decide) hb
          · subst h; exact absurd (by decide) hb
        subst hneg
        match s, hs with
        | a :: rest, hs =>
          obtain ⟨r, hr, hres⟩ := evalOpUsingStack_neg_number (hs a (by simp)) rest
          have hd : stackDepth ('-' :: ts) (a :: rest).length
              = stackDepth ts (r :: rest).length := by
            simp [stackDepth, hn, hb]
          rw [e, hres, hd]
          exact ih (r :: rest) htok' (by
            intro x hx
            rcases List.mem_cons.1 hx with rfl | hx
            · exact hr
            · exact hs x (by simp [hx]))
        | [], _ =>
          have hres := evalOpUsingStack_short hop [] (by simp [hb])
          rw [e, hres]
          simp [stackDepth, hn, hb]

/-- C15: for every token sequence over the constants and the five operations,
`evaluate` returns a value exactly when the sequence is a valid postfix
expression (every binary operation finds two values on the stack, every
negation one, and exactly one value remains); in every other case it throws
"Invalid expression!". -/
theorem evaluate_ok_iff_valid (ts : Queue)
    (htok : ∀ t ∈ ts, isNumber t = true ∨ isOperation t = true) :
    ((∃ v, evaluate ts = .ok v) ↔ ValidPostfix ts) ∧
    (¬ ValidPostfix ts → evaluate ts = .error (.thrown "Invalid expression!")) := by
  obtain ⟨hok, herr⟩ := evaluateLoop_depth ts [] htok (fun x hx => by cases hx)
  simp only [List.length_nil] at hok herr
  refine ⟨Iff.intro (fun h => ?_) (fun h => ?_), fun h => herr h⟩
  · by_contra hv
    obtain ⟨v, hv'⟩ := h
    have := herr hv
    unfold evaluate at hv'
    rw [hv'] at this
    cases this
  · obtain ⟨v, _, hv⟩ := hok h
    exact ⟨v, hv⟩

/-- Witness of C15 at `10&-`, a valid postfix expression. -/
theorem evaluate_ok_iff_valid_witness :
    ((∃ v, evaluate ['1', '0', '&', '-'] = .ok v) ↔ ValidPostfix ['1', '0', '&', '-']) ∧
    (¬ ValidPostfix ['1', '0', '&', '-'] →
      evaluate ['1', '0', '&', '-'] = .error (.thrown "Invalid expression!")) :=
  evaluate_ok_iff_valid ['1', '0', '&', '-'] (by decide)

/-- C16: on constants `a`, `b`: `evalBinOp a '&' b` is `1` exactly when both
are `1`; `evalBinOp a '|' b` is `1` exactly when one of them is `1`;
`evalBinOp a '>' b` is `0` exactly when `a` is `1` and `b` is `0`;
`evalBinOp a '~' b` is `1` exactly when `a = b`; `evalUnarOp '-' a` is the
complement of `a`. Every result is `0` or `1`. -/
theorem evalBinOp_truth_tables (a b : Token) (ha : isNumber a = true) (hb : isNumber b = true) :
    evalBinOp a '&' b = .ok (if a = '1' ∧ b = '1' then '1' else '0') ∧
    evalBinOp a '|' b = .ok (if a = '1' ∨ b = '1' then '1' else '0') ∧
    evalBinOp a '>' b = .ok (if a = '1' ∧ b = '0' then '0' else '1') ∧
    evalBinOp a '~' b = .ok (if a = b then '1' else '0') ∧
    evalUnarOp '-' a = .ok (if a = '1' then '0' else '1') := by
  rcases isNumber_cases ha with h | h <;> rcases isNumber_cases hb with h' | h' <;>
    subst h <;> subst h' <;> decide

/-- Witness of C16 at `a = 1`, `b = 0`. -/
theorem evalBinOp_truth_tables_witness :
    evalBinOp '1' '&' '0' = .ok (if '1' = '1' ∧ '0' = '1' then '1' else '0') ∧
    evalBinOp '1' '|' '0' = .ok (if '1' = '1' ∨ '0' = '1' then '1' else '0') ∧
    evalBinOp '1' '>' '0' = .ok (if '1' = '1' ∧ '0' = '0' then '0' else '1') ∧
    evalBinOp '1' '~' '0' = .ok (if '1' = '0' then '1' else '0') ∧
    evalUnarOp '-' '1' = .ok (if '1' = '1' then '0' else '1') :=
  evalBinOp_truth_tables '1' '0' (by decide) (by decide)

/-! ## C17, C18: associativity and priority -/

/-- C17: for every binary operation `op` and operand tokens `X`, `Y`, `Z`
(constants or variables), `infixToPostfix` of `X op Y op Z` is `X Y op Z op`;
`A>B>C` becomes `AB>C>`, which evaluates as `(A>B)>C` under every assignment. -/
theorem infixToPostfix_left_assoc (op X Y Z : Token) (hop : isBinOp op = true)
    (hX : (isNumber X || isVariable X) = true) (hY : (isNumber Y || isVariable Y) = true)
    (hZ : (isNumber Z || isVariable Z) = true) :
    infixToPostfix [X, op, Y, op, Z] = .ok [X, Y, op, Z, op] ∧
    infixToPostfix ['A', '>', 'B', '>', 'C'] = .ok ['A', 'B', '>', 'C', '>'] ∧
    ∀ a b c : Bool,
      evaluate (substValues ['A', 'B', '>', 'C', '>'] (assignMap ['A', 'B', 'C'] [a, b, c]))
        = .ok (boolToToken (!(!a || b) || c)) := by
  obtain ⟨hnum, hvar, hisop, _, _⟩ := isBinOp_facts hop
  have hnv : (isNumber op || isVariable op) = false := by simp [hnum, hvar]
  refine ⟨?_, by decide, ?_⟩
  · simp [infixToPostfix, infixToPostfixLoop, popOperations, drainStack, hX, hY, hZ, hnv, hisop,
      isOperation_not_par hisop]
  · intro a b c
    cases a <;> cases b <;> cases c <;> decide

/-- Witness of C17 at `A&1&b`. -/
theorem infixToPostfix_left_assoc_witness :
    infixToPostfix ['A', '&', '1', '&', 'b'] = .ok ['A', '1', '&', 'b', '&'] :=
  (infixToPostfix_left_assoc '&' 'A' '1' 'b' (by decide) (by decide) (by decide) (by decide)).1

/-- C18: `priority` falls strictly along `-`, `&`, `|`, `>`, `~`; and for two
binary operations of different priority and operand tokens `X`, `Y`, `Z` the
operation of higher priority binds tighter, whichever comes first:
`X op1 Y op2 Z` becomes `X Y Z op2 op1` and `X op2 Y op1 Z` becomes
`X Y op2 Z op1` when `priority op1 < priority op2`. In particular `A|B&C`
becomes `ABC&|` and `A&B|C` becomes `AB&C|`. -/
theorem infixToPostfix_priority_binds (op1 op2 X Y Z : Token) (h1 : isBinOp op1 = true)
    (h2 : isBinOp op2 = true) (hlt : priority op1 < priority op2)
    (hX : (isNumber X || isVariable X) = true) (hY : (isNumber Y || isVariable Y) = true)
    (hZ : (isNumber Z || isVariable Z) = true) :
    (priority '~' < priority '>' ∧ priority '>' < priority '|' ∧ priority '|' < priority '&' ∧
      priority '&' < priority '-') ∧
    infixToPostfix [X, op1, Y, op2, Z] = .ok [X, Y, Z, op2, op1] ∧
    infixToPostfix [X, op2, Y, op1, Z] = .ok [X, Y, op2, Z, op1] ∧
    infixToPostfix ['A', '|', 'B', '&', 'C'] = .ok ['A', 'B', 'C', '&', '|'] ∧
    infixToPostfix ['A', '&', 'B', '|', 'C'] = .ok ['A', 'B', '&', 'C', '|'] := by
  obtain ⟨hnum1, hvar1, hisop1, _, _⟩ := isBinOp_facts h1
  obtain ⟨hnum2, hvar2, hisop2, _, _⟩ := isBinOp_facts h2
  have hnv1 : (isNumber op1 || isVariable op1) = false := by simp [hnum1, hvar1]
  have hnv2 : (isNumber op2 || isVariable op2) = false := by simp [hnum2, hvar2]
  have hnle : ¬ priority op2 ≤ priority op1 := by omega
  refine ⟨by decide, ?_, ?_, by decide, by decide⟩
  · simp [infixToPostfix, infixToPostfixLoop, popOperations, drainStack, hX, hY, hZ, hnv1, hnv2,
      hisop1, hisop2, isOperation_not_par hisop1, isOperation_not_par hisop2, hnle]
  · simp [infixToPostfix, infixToPostfixLoop, popOperations, drainStack, hX, hY, hZ, hnv1, hnv2,
      hisop1, hisop2, isOperation_not_par hisop1, isOperation_not_par hisop2, le_of_lt hlt]

/-- Witness of C18 at `A>B&C` and `A&B>C`. -/
theorem infixToPostfix_priority_binds_witness :
    infixToPostfix ['A', '>', 'B', '&', 'C'] = .ok ['A', 'B', 'C', '&', '>'] ∧
    infixToPostfix ['A', '&', 'B', '>', 'C'] = .ok ['A', 'B', '&', 'C', '>'] :=
  ⟨(infixToPostfix_priority_binds '>' '&' 'A' 'B' 'C' (by decide) (by decide) (by decide)
      (by decide) (by decide) (by decide)).2.1,
    (infixToPostfix_priority_binds '>' '&' 'A' 'B' 'C' (by decide) (by decide) (by decide)
      (by decide) (by decide) (by decide)).2.2.1⟩

/-! ## C19, C20: the lexer -/

theorem char_le_iff_toNat (a b : Char) : a ≤ b ↔ a.toNat ≤ b.toNat := by
  rw [Char.le_def]
  exact UInt32.le_def

theorem toUpperCase_eq_toUpper (c : Char) : toUpperCase c = c.toUpper := by
  unfold toUpperCase Char.toUpper
  simp only [char_le_iff_toNat]
  by_cases h : 'a'.toNat ≤ c.toNat ∧ c.toNat ≤ 'z'.toNat
  · have h' : c.toNat ≥ 97 ∧ c.toNat ≤ 122 := h
    rw [if_pos h, if_pos h']
    congr 1
    have : 'a'.toNat = 97 := rfl
    have : 'A'.toNat = 65 := rfl
    omega
  · have h' : ¬ (c.toNat ≥ 97 ∧ c.toNat ≤ 122) := h
    rw [if_neg h, if_neg h']

theorem isSpace_eq (c : Char) :
    (!isSpace c) = (decide (' ' < c) && decide (c.toNat ≤ 127)) := by
  unfold isSpace
  by_cases h : c ≤ ' '
  · simp [h, not_lt.2 h]
  · by_cases h1 : 127 < c.toNat
    · simp [h, not_le.1 h, h1]
    · simp [h, not_le.1 h, h1, not_lt.1 h1]

theorem isVariable_toUpperCase (x : Char) (h : 'a' ≤ x ∧ x ≤ 'z') :
    isVariable (toUpperCase x) = true := by
  have h1 : 97 ≤ x.toNat := (char_le_iff_toNat 'a' x).1 h.1
  have h2 : x.toNat ≤ 122 := (char_le_iff_toNat x 'z').1 h.2
  have hx : x = Char.ofNat x.toNat := (Char.ofNat_toNat x).symm
  rw [hx]
  clear h hx
  generalize x.toNat = n at h1 h2
  interval_cases n <;> decide

theorem isRecognised_toUpperCase (x : Char) (h : isRecognised x = true) :
    isRecognised (toUpperCase x) = true := by
  by_cases hl : 'a' ≤ x ∧ x ≤ 'z'
  · simp [isRecognised, isVariable_toUpperCase x hl]
  · simp only [toUpperCase, if_neg hl]
    exact h

theorem toUpperCase_of_not_variable (c : Char) (h : isVariable c = false) : toUpperCase c = c := by
  unfold toUpperCase
  rw [if_neg]
  intro hl
  simp [isVariable, hl.1, hl.2] at h

theorem exists_first {α : Type} (P : α → Prop) : ∀ l : List α, (∃ c ∈ l, P c) →
    ∃ pre c post, l = pre ++ c :: post ∧ P c ∧ ∀ x ∈ pre, ¬ P x := by
  intro l
  induction l with
  | nil => rintro ⟨c, hc, _⟩; cases hc
  | cons a l ih =>
    rintro ⟨c, hc, hP⟩
    by_cases ha : P a
    · exact ⟨[], a, l, rfl, ha, by simp⟩
    · have : ∃ c ∈ l, P c := by
        rcases List.mem_cons.1 hc with rfl | hc
        · exact absurd hP ha
        · exact ⟨c, hc, hP⟩
      obtain ⟨pre, c', post, hl, hc', hpre⟩ := ih this
      refine ⟨a :: pre, c', post, by simp [hl], hc', ?_⟩
      intro x hx
      rcases List.mem_cons.1 hx with rfl | hx
      · exact ha
      · exact hpre x hx

theorem stringToSequence_append (pre post : List Char) :
    stringToSequence (String.mk (pre ++ post))
      = stringToSequence (String.mk pre) ++ stringToSequence (String.mk post) := by
  simp [stringToSequence]

/-- C19 (defect): `stringToSequence` keeps the characters greater than the
space character only when they are ASCII: every character above 0x7f is taken
for whitespace by `isSpace` and dropped. For `A&é` the result is `A&`, where
the contract asks for `A&é`. The kept characters stay in their order, each one
token, lowercase `a`-`z` folded to uppercase (`Char.toUpper`) and the others
unchanged; for a text of ASCII characters this is what the contract says. -/
theorem stringToSequence_drops_characters_above_7f :
    stringToSequence "A&é" = ['A', '&'] ∧
    ("A&é".toList.filter fun c => decide (' ' < c)).map Char.toUpper = ['A', '&', 'é'] ∧
    (∀ s : String, stringToSequence s
      = (s.toList.filter fun c => decide (' ' < c) && decide (c.toNat ≤ 127)).map
          Char.toUpper) ∧
    (∀ s : String, (∀ c ∈ s.toList, c.toNat ≤ 127) →
      stringToSequence s = (s.toList.filter fun c => decide (' ' < c)).map Char.toUpper) ∧
    "abcdefghijklmnopqrstuvwxyz".toList.map Char.toUpper = "ABCDEFGHIJKLMNOPQRSTUVWXYZ".toList ∧
    ∀ c : Char, ¬ ('a' ≤ c ∧ c ≤ 'z') → c.toUpper = c := by
  have h : ∀ s : String, stringToSequence s
      = (s.toList.filter fun c => decide (' ' < c) && decide (c.toNat ≤ 127)).map
          Char.toUpper := by
    intro s
    unfold stringToSequence
    have e1 : (fun c => !isSpace c)
        = fun c => decide (' ' < c) && decide (c.toNat ≤ 127) := funext isSpace_eq
    have e2 : toUpperCase = Char.toUpper := funext toUpperCase_eq_toUpper
    rw [e1, e2]
  refine ⟨by decide, by decide, h, ?_, by decide, ?_⟩
  · intro s hs
    rw [h s]
    congr 1
    apply List.filter_congr
    intro c hc
    simp [hs c hc]
  · intro c hc
    rw [← toUpperCase_eq_toUpper]
    unfold toUpperCase
    rw [if_neg hc]

/-- Every text that contains a character which is none of constant, variable,
operation, parenthesis or space in the sense of `isSpace` splits at the first
such character `c`; the lexer passes `c` through as a token, between the
tokens of the text before and after it, and when the tokens before it contain
no `)` without a matching `(`, `infixToPostfix` throws "Unknown symbol 'c'!". -/
theorem unknown_ascii_character_stops_parsing (s : String)
    (hex : ∃ c ∈ s.toList, isUnknownChar c = true) :
    ∃ pre c post, s.toList = pre ++ c :: post ∧ isUnknownChar c = true ∧
      (∀ x ∈ pre, isUnknownChar x = false) ∧
      stringToSequence s
        = stringToSequence (String.mk pre) ++ c :: stringToSequence (String.mk post) ∧
      (¬ ClosesUnopened (stringToSequence (String.mk pre)) →
        infixToPostfix (stringToSequence s)
          = .error (.thrown ("Unknown symbol \x27" ++ (String.singleton c ++ "\x27!")))) := by
  obtain ⟨pre, c, post, hs, hc, hpre⟩ := exists_first (fun c => isUnknownChar c = true) s.toList hex
  have hpre' : ∀ x ∈ pre, isUnknownChar x = false := fun x hx => by simpa using hpre x hx
  simp only [isUnknownChar, Bool.not_eq_true', Bool.or_eq_false_iff] at hc
  obtain ⟨hsp, hrc⟩ := hc
  have hvar : isVariable c = false := by
    simp only [isRecognised, Bool.or_eq_false_iff] at hrc
    exact hrc.1.1.1.2
  have hseq : stringToSequence s
      = stringToSequence (String.mk pre) ++ c :: stringToSequence (String.mk post) := by
    have e : s = String.mk (pre ++ ([c] ++ post)) := by
      cases s
      simp only [String.toList] at hs
      simp [hs]
    rw [e, stringToSequence_append, stringToSequence_append]
    simp [stringToSequence, hsp, toUpperCase_of_not_variable c hvar]
  refine ⟨pre, c, post, hs, by simp [isUnknownChar, hsp, hrc], hpre', hseq, ?_⟩
  intro hpar
  rw [hseq]
  apply infixToPostfix_stops_at_unknown _ _ _ _ hrc
    (fun hn => hpar (by simpa [ClosesUnopened] using (parDepth_none_iff _ 0).1 hn))
  intro t ht
  simp only [stringToSequence, List.mem_map, List.mem_filter] at ht
  obtain ⟨x, ⟨hx, hxs⟩, rfl⟩ := ht
  have hu := hpre' x hx
  simp only [isUnknownChar, Bool.not_eq_false', Bool.or_eq_true] at hu
  rcases hu with hu | hu
  · simp [hu] at hxs
  · exact isRecognised_toUpperCase x hu

/-- A character above 0x7f leaves no trace in the token sequence. -/
theorem stringToSequence_skips_above_7f (pre post : List Char) (c : Char) (hc : 127 < c.toNat) :
    stringToSequence (String.mk (pre ++ c :: post)) = stringToSequence (String.mk (pre ++ post)) := by
  have e : pre ++ c :: post = pre ++ ([c] ++ post) := rfl
  rw [e, stringToSequence_append, stringToSequence_append, stringToSequence_append]
  have h1 : stringToSequence (String.mk [c]) = [] := by
    simp [stringToSequence, isSpace, hc]
  rw [h1, List.nil_append]

/-- C20 (defect): a character above 0x7f is none of constant, variable,
operation, parenthesis or space, yet the lexer drops it silently: `isSpace`
compares a signed `char`, for which such a byte is below the space character.
The text `Aé` gives the token sequence `A`, which `infixToPostfix` accepts;
in any text such a character leaves no trace. An unknown character of the
ASCII range does reach the parser, which throws "Unknown symbol 'c'!" for the
first one (when no `)` before it lacks its `(`). -/
theorem character_above_7f_silently_dropped :
    (isRecognised 'é' = false ∧ ' ' < 'é') ∧
    stringToSequence "Aé" = ['A'] ∧
    infixToPostfix (stringToSequence "Aé") = .ok ['A'] ∧
    (∀ (pre post : List Char) (c : Char), 127 < c.toNat →
      stringToSequence (String.mk (pre ++ c :: post))
        = stringToSequence (String.mk (pre ++ post))) ∧
    (∀ s : String, (∃ c ∈ s.toList, isUnknownChar c = true) →
      ∃ pre c post, s.toList = pre ++ c :: post ∧ isUnknownChar c = true ∧ c.toNat ≤ 127 ∧
        (∀ x ∈ pre, isUnknownChar x = false) ∧
        stringToSequence s
          = stringToSequence (String.mk pre) ++ c :: stringToSequence (String.mk post) ∧
        (¬ ClosesUnopened (stringToSequence (String.mk pre)) →
          infixToPostfix (stringToSequence s)
            = .error (.thrown ("Unknown symbol \x27" ++ (String.singleton c ++ "\x27!"))))) := by
  refine ⟨⟨by decide, by decide⟩, by decide, by decide, stringToSequence_skips_above_7f, ?_⟩
  intro s hex
  obtain ⟨pre, c, post, h1, h2, h3, h4, h5⟩ := unknown_ascii_character_stops_parsing s hex
  refine ⟨pre, c, post, h1, h2, ?_, h3, h4, h5⟩
  by_contra hgt
  have hsp : isSpace c = true := by
    simp [isSpace, not_le.1 hgt]
  simp [isUnknownChar, hsp] at h2


/-! ## C21: the variables of a token sequence -/

theorem mem_setInsert (t x : Token) : ∀ res : TokenSet, x ∈ setInsert t res ↔ x = t ∨ x ∈ res := by
  intro res
  induction res with
  | nil => simp [setInsert]
  | cons y ys ih =>
    unfold setInsert
    split
    · simp
    · split
      · rename_i h
        subst h
        simp
      · simp [ih]
        tauto

theorem pairwise_setInsert (t : Token) : ∀ res : TokenSet, res.Pairwise (· < ·) →
    (setInsert t res).Pairwise (· < ·) := by
  intro res
  induction res with
  | nil => intro _; simp [setInsert]
  | cons y ys ih =>
    intro h
    unfold setInsert
    split
    · rename_i hlt
      refine List.Pairwise.cons ?_ h
      intro a ha
      rcases List.mem_cons.1 ha with rfl | ha
      · exact hlt
      · exact lt_trans hlt ((List.pairwise_cons.1 h).1 a ha)
    · split
      · exact h
      · rename_i h1 h2
        have hyt : y < t := lt_of_le_of_ne (not_lt.1 h1) (Ne.symm h2)
        refine List.Pairwise.cons ?_ (ih (List.pairwise_cons.1 h).2)
        intro a ha
        rcases (mem_setInsert t a ys).1 ha with rfl | ha
        · exact hyt
        · exact (List.pairwise_cons.1 h).1 a ha

theorem length_setInsert (t : Token) : ∀ res : TokenSet, t ∉ res →
    (setInsert t res).length = res.length + 1 := by
  intro res
  induction res with
  | nil => intro _; simp [setInsert]
  | cons y ys ih =>
    intro h
    have hne : t ≠ y := fun e => h (by simp [e])
    have hys : t ∉ ys := fun e => h (by simp [e])
    unfold setInsert
    split
    · simp
    · simp [ih hys]

theorem getVariablesLoop_spec : ∀ (s : Queue) (res : TokenSet) (c : Nat),
    res.Pairwise (· < ·) →
    (∀ x, x ∈ (getVariablesLoop s res c).2 ↔ x ∈ res ∨ (x ∈ s ∧ isVariable x = true)) ∧
    (getVariablesLoop s res c).2.Pairwise (· < ·) ∧
    res.length ≤ (getVariablesLoop s res c).2.length ∧
    (getVariablesLoop s res c).1 % 4294967296
      = (c + ((getVariablesLoop s res c).2.length - res.length)) % 4294967296 ∧
    (c < 4294967296 → (getVariablesLoop s res c).1 < 4294967296) ∧
    Lab1.getVariablesLoop s res = (getVariablesLoop s res c).2 := by
  intro s
  induction s with
  | nil =>
    intro res c h
    simp [getVariablesLoop, Lab1.getVariablesLoop, h]
  | cons t s ih =>
    intro res c h
    unfold getVariablesLoop Lab1.getVariablesLoop
    by_cases hc : (isVariable t && !res.contains t) = true
    · rw [if_pos hc, if_pos hc]
      simp only [Bool.and_eq_true, Bool.not_eq_true', List.contains_eq_any_beq,
        List.any_eq_false, beq_iff_eq] at hc
      have hnot : t ∉ res := fun hm => hc.2 t hm rfl
      obtain ⟨h1, h2, h3, h4, h5, h6⟩ :=
        ih (setInsert t res) ((c + 1) % 4294967296) (pairwise_setInsert t res h)
      have hl := length_setInsert t res hnot
      refine ⟨?_, h2, by omega, ?_, fun _ => h5 (Nat.mod_lt _ (by norm_num)), h6⟩
      · intro x
        rw [h1, mem_setInsert]
        constructor
        · rintro ((rfl | hx) | ⟨hx, hv⟩)
          · exact Or.inr ⟨by simp, hc.1⟩
          · exact Or.inl hx
          · exact Or.inr ⟨by simp [hx], hv⟩
        · rintro (hx | ⟨hx, hv⟩)
          · exact Or.inl (Or.inr hx)
          · rcases List.mem_cons.1 hx with rfl | hx
            · exact Or.inl (Or.inl rfl)
            · exact Or.inr ⟨hx, hv⟩
      · rw [h4, hl]
        omega
    · rw [if_neg hc, if_neg hc]
      obtain ⟨h1, h2, h3, h4, h5, h6⟩ := ih res c h
      refine ⟨?_, h2, h3, h4, h5, h6⟩
      intro x
      rw [h1]
      constructor
      · rintro (hx | ⟨hx, hv⟩)
        · exact Or.inl hx
        · exact Or.inr ⟨by simp [hx], hv⟩
      · rintro (hx | ⟨hx, hv⟩)
        · exact Or.inl hx
        · rcases List.mem_cons.1 hx with rfl | hx
          · left
            simp only [Bool.and_eq_true, Bool.not_eq_true', not_and, Bool.not_eq_false] at hc
            have := hc hv
            simpa using this
          · exact Or.inr ⟨hx, hv⟩

theorem isVariable_mem_letters (t : Token) (h : isVariable t = true) :
    t ∈ "ABCDEFGHIJKLMNOPQRSTUVWXYZabcdefghijklmnopqrstuvwxyz".toList := by
  have ht : t = Char.ofNat t.toNat := (Char.ofNat_toNat t).symm
  simp only [isVariable, Bool.or_eq_true, Bool.and_eq_true, decide_eq_true_eq,
    char_le_iff_toNat] at h
  have hA : 'A'.toNat = 65 := rfl
  have hZ : 'Z'.toNat = 90 := rfl
  have ha : 'a'.toNat = 97 := rfl
  have hz : 'z'.toNat = 122 := rfl
  rw [hA, hZ, ha, hz] at h
  rw [ht]
  generalize t.toNat = n at h
  rcases h with ⟨h1, h2⟩ | ⟨h1, h2⟩ <;> interval_cases n <;> decide

theorem variables_length_le (vars : TokenSet) (hp : vars.Pairwise (· < ·))
    (hv : ∀ x ∈ vars, isVariable x = true) : vars.length ≤ 52 := by
  have hnd : vars.Nodup := hp.imp (fun h => ne_of_lt h)
  have hsub : vars ⊆ "ABCDEFGHIJKLMNOPQRSTUVWXYZabcdefghijklmnopqrstuvwxyz".toList :=
    fun x hx => isVariable_mem_letters x (hv x hx)
  exact (hnd.subperm hsub).length_le

/-- C21: for every token sequence, `getVariables` called with an empty set
yields exactly the variable tokens that occur in the sequence, each once and
in ascending character order; the count returned by the lab 3 form is the
size of that set, and the lab 1 and lab 2 form returns the same set. -/
theorem getVariables_spec (s : Queue) :
    (∀ t, t ∈ (getVariables s []).2 ↔ t ∈ s ∧ isVariable t = true) ∧
    (getVariables s []).2.Pairwise (· < ·) ∧
    (getVariables s []).1 = (getVariables s []).2.length ∧
    Lab1.getVariables s = (getVariables s []).2 := by
  obtain ⟨h1, h2, _, h4, h5, h6⟩ := getVariablesLoop_spec s [] 0 List.Pairwise.nil
  have hmem : ∀ t, t ∈ (getVariables s []).2 ↔ t ∈ s ∧ isVariable t = true := by
    intro t
    have := h1 t
    simpa [getVariables] using this
  have hlen := variables_length_le (getVariables s []).2 h2 (fun x hx => ((hmem x).1 hx).2)
  refine ⟨hmem, h2, ?_, h6⟩
  have hlt := h5 (by norm_num)
  simp only [List.length_nil, Nat.sub_zero, Nat.zero_add] at h4
  unfold getVariables at hlen ⊢
  rw [Nat.mod_eq_of_lt hlt, Nat.mod_eq_of_lt (by omega)] at h4
  exact h4

/-! ## C22: the formula string built by `main` -/

theorem premisesConj_cons (p : String) (ps : List String) (hne : ps ≠ []) :
    premisesConj (p :: ps) = "(" ++ p ++ ")&" ++ premisesConj ps := by
  cases ps with
  | nil => exact absurd rfl hne
  | cons q qs => rfl

theorem foldl_premises (last : String) : ∀ (init : List String) (acc : String),
    init.foldl (fun expres exp => expres ++ ("(" ++ exp ++ ")&")) acc ++ ("(" ++ last ++ ")")
      = acc ++ premisesConj (init ++ [last]) := by
  intro init
  induction init with
  | nil => intro acc; rfl
  | cons p init ih =>
    intro acc
    rw [List.foldl_cons, ih, List.cons_append, premisesConj_cons p _ (by simp)]
    simp only [String.append_assoc]

/-- The string assembled by `main` is the shape of the specification followed
by one more closing parenthesis. -/
theorem mainFormula_eq (init : List String) (last consequence : String) :
    mainFormula init last consequence
      = shapeFormula (init ++ [last]) consequence ++ ")" := by
  unfold mainFormula shapeFormula
  have e : (")>(" : String) = ")>" ++ "(" := by decide
  rw [foldl_premises, e]
  simp only [String.append_assoc]

/-- C22 (defect): the string that `main` of lab work 3 builds from the premises
`init ++ [last]` and the conclusion is the shape `-((P1)&...&(Pn))>(C)`
followed by one more `)`, so it is never the shape itself; for the premises
`A>B`, `A` and the conclusion `B` it is `-((A>B)&(A))>(B))`. -/
theorem mainFormula_has_extra_parenthesis (init : List String) (last consequence : String) :
    mainFormula init last consequence = shapeFormula (init ++ [last]) consequence ++ ")" ∧
    mainFormula init last consequence ≠ shapeFormula (init ++ [last]) consequence ∧
    mainFormula ["A>B"] "A" "B" = "-((A>B)&(A))>(B))" ∧
    shapeFormula ["A>B", "A"] "B" = "-((A>B)&(A))>(B)" := by
  refine ⟨mainFormula_eq init last consequence, ?_, by decide, by decide⟩
  rw [mainFormula_eq]
  intro h
  have := congrArg String.length h
  rw [String.length_append] at this
  have h1 : ")".length = 1 := rfl
  omega

/-! ## C27: the parenthesis scan over the assembled string -/

theorem parDepth_append : ∀ (xs ys : Queue) (d : Nat),
    parDepth (xs ++ ys) d = (parDepth xs d).bind (fun e => parDepth ys e) := by
  intro xs
  induction xs with
  | nil => intro ys d; rfl
  | cons t xs ih =>
    intro ys d
    simp only [List.cons_append, parDepth]
    split
    · exact ih ys _
    · split
      · split
        · rfl
        · exact ih ys _
      · exact ih ys _

theorem parDepth_shift : ∀ (xs : Queue) (d e k : Nat),
    parDepth xs d = some e → parDepth xs (d + k) = some (e + k) := by
  intro xs
  induction xs with
  | nil =>
    intro d e k h
    simp only [parDepth, Option.some.injEq] at h ⊢
    omega
  | cons t xs ih =>
    intro d e k h
    unfold parDepth at h ⊢
    split
    · rename_i ht
      rw [if_pos ht] at h
      have := ih _ _ k h
      rwa [show d + 1 + k = d + k + 1 by omega] at this
    · rename_i ht
      rw [if_neg ht] at h
      split
      · rename_i ht2
        rw [if_pos ht2] at h
        by_cases hd : d = 0
        · rw [if_pos hd] at h
          cases h
        · rw [if_neg hd] at h
          rw [if_neg (by omega)]
          have := ih _ _ k h
          rwa [show d - 1 + k = d + k - 1 by omega] at this
      · rename_i ht2
        rw [if_neg ht2] at h
        exact ih _ _ k h

theorem parDepth_balanced (xs : Queue) (hcl : ¬ ClosesUnopened xs)
    (hcount : xs.count '(' = xs.count ')') (d : Nat) : parDepth xs d = some d := by
  cases h : parDepth xs 0 with
  | none =>
    exfalso
    apply hcl
    have := (parDepth_none_iff xs 0).1 h
    simpa [ClosesUnopened] using this
  | some e =>
    have h1 := parDepth_some xs 0 e h
    have he : e = 0 := by omega
    subst he
    have := parDepth_shift xs 0 0 d h
    simpa using this

theorem toUpperCase_eq_par (c : Char) :
    (toUpperCase c = '(' ↔ c = '(') ∧ (toUpperCase c = ')' ↔ c = ')') := by
  by_cases hl : 'a' ≤ c ∧ c ≤ 'z'
  · have hv := isVariable_toUpperCase c hl
    have h1 : c ≠ '(' := by rintro rfl; revert hl; decide
    have h2 : c ≠ ')' := by rintro rfl; revert hl; decide
    refine ⟨⟨fun h => ?_, fun h => absurd h h1⟩, ⟨fun h => ?_, fun h => absurd h h2⟩⟩
    · rw [h] at hv; exact absurd hv (by decide)
    · rw [h] at hv; exact absurd hv (by decide)
  · have e : toUpperCase c = c := by simp only [toUpperCase, if_neg hl]
    rw [e]
    exact ⟨Iff.rfl, Iff.rfl⟩

theorem isSpace_ne_par (c : Char) (h : isSpace c = true) : c ≠ '(' ∧ c ≠ ')' := by
  constructor <;> (rintro rfl; revert h; decide)

theorem parDepth_stringToSequence : ∀ (l : List Char) (d : Nat),
    parDepth (stringToSequence (String.mk l)) d = parDepth l d := by
  intro l
  induction l with
  | nil => intro d; rfl
  | cons c l ih =>
    intro d
    have e : String.mk (c :: l) = String.mk ([c] ++ l) := rfl
    rw [e, stringToSequence_append]
    by_cases hs : isSpace c = true
    · have h1 : stringToSequence (String.mk [c]) = [] := by simp [stringToSequence, hs]
      obtain ⟨n1, n2⟩ := isSpace_ne_par c hs
      rw [h1, List.nil_append, ih]
      simp [parDepth, n1, n2]
    · have h1 : stringToSequence (String.mk [c]) = [toUpperCase c] := by
        simp [stringToSequence, hs]
      obtain ⟨p1, p2⟩ := toUpperCase_eq_par c
      rw [h1]
      show parDepth (toUpperCase c :: stringToSequence (String.mk l)) d = parDepth (c :: l) d
      simp only [parDepth, p1, p2, ih]

theorem count_stringToSequence (l : List Char) :
    (stringToSequence (String.mk l)).count '(' = l.count '(' ∧
    (stringToSequence (String.mk l)).count ')' = l.count ')' := by
  induction l with
  | nil => exact ⟨rfl, rfl⟩
  | cons c l ih =>
    have e : String.mk (c :: l) = String.mk ([c] ++ l) := rfl
    rw [e, stringToSequence_append]
    by_cases hs : isSpace c = true
    · have h1 : stringToSequence (String.mk [c]) = [] := by simp [stringToSequence, hs]
      obtain ⟨n1, n2⟩ := isSpace_ne_par c hs
      rw [h1, List.nil_append, List.count_cons_of_ne (Ne.symm n1),
        List.count_cons_of_ne (Ne.symm n2)]
      exact ih
    · have h1 : stringToSequence (String.mk [c]) = [toUpperCase c] := by
        simp [stringToSequence, hs]
      obtain ⟨p1, p2⟩ := toUpperCase_eq_par c
      rw [h1]
      show (toUpperCase c :: stringToSequence (String.mk l)).count '(' = (c :: l).count '(' ∧
        (toUpperCase c :: stringToSequence (String.mk l)).count ')' = (c :: l).count ')'
      constructor
      · by_cases hc : c = '('
        · rw [p1.2 hc, hc, List.count_cons_self, List.count_cons_self, ih.1]
        · have hu : ¬ toUpperCase c = '(' := fun h => hc (p1.1 h)
          rw [List.count_cons_of_ne (Ne.symm hu), List.count_cons_of_ne (Ne.symm hc), ih.1]
      · by_cases hc : c = ')'
        · rw [p2.2 hc, hc, List.count_cons_self, List.count_cons_self, ih.2]
        · have hu : ¬ toUpperCase c = ')' := fun h => hc (p2.1 h)
          rw [List.count_cons_of_ne (Ne.symm hu), List.count_cons_of_ne (Ne.symm hc), ih.2]

theorem recognised_stringToSequence (l : List Char)
    (h : ∀ c ∈ l, isSpace c = true ∨ isRecognised c = true) :
    ∀ t ∈ stringToSequence (String.mk l), isRecognised t = true := by
  intro t ht
  simp only [stringToSequence, List.mem_map, List.mem_filter] at ht
  obtain ⟨x, ⟨hx, hxs⟩, rfl⟩ := ht
  rcases h x hx with hu | hu
  · simp [hu] at hxs
  · exact isRecognised_toUpperCase x hu

theorem stringToSequence_append_string (a b : String) :
    stringToSequence (a ++ b) = stringToSequence a ++ stringToSequence b := by
  obtain ⟨la⟩ := a
  obtain ⟨lb⟩ := b
  exact stringToSequence_append la lb

theorem toList_append_string (a b : String) : (a ++ b).toList = a.toList ++ b.toList := by
  obtain ⟨la⟩ := a
  obtain ⟨lb⟩ := b
  rfl

theorem BalancedText.neutral {p : String} (h : BalancedText p) : Neutral p := by
  obtain ⟨hrec, hcl, hcount⟩ := h
  obtain ⟨l⟩ := p
  refine ⟨hcount, recognised_stringToSequence l hrec, fun d => ?_⟩
  rw [parDepth_stringToSequence]
  exact parDepth_balanced l hcl hcount d

theorem Neutral.append {a b : String} (ha : Neutral a) (hb : Neutral b) : Neutral (a ++ b) := by
  obtain ⟨a1, a2, a3⟩ := ha
  obtain ⟨b1, b2, b3⟩ := hb
  refine ⟨?_, ?_, fun d => ?_⟩
  · rw [toList_append_string, List.count_append, List.count_append, a1, b1]
  · intro t ht
    rw [stringToSequence_append_string] at ht
    rcases List.mem_append.1 ht with h | h
    · exact a2 t h
    · exact b2 t h
  · rw [stringToSequence_append_string, parDepth_append, a3 d]
    exact b3 d

theorem Neutral.wrap {p : String} (hp : Neutral p) : Neutral ("(" ++ p ++ ")") := by
  obtain ⟨p1, p2, p3⟩ := hp
  have e1 : stringToSequence "(" = ['('] := by decide
  have e2 : stringToSequence ")" = [')'] := by decide
  refine ⟨?_, ?_, fun d => ?_⟩
  · rw [toList_append_string, toList_append_string, List.count_append, List.count_append,
      List.count_append, List.count_append, p1]
    have c1 : "(".toList.count '(' = 1 := by decide
    have c2 : "(".toList.count ')' = 0 := by decide
    have c3 : ")".toList.count '(' = 0 := by decide
    have c4 : ")".toList.count ')' = 1 := by decide
    omega
  · intro t ht
    rw [stringToSequence_append_string, stringToSequence_append_string, e1, e2] at ht
    simp only [List.mem_append, List.mem_singleton] at ht
    rcases ht with (h | h) | h
    · subst h; decide
    · exact p2 t h
    · subst h; decide
  · rw [stringToSequence_append_string, stringToSequence_append_string, e1, e2,
      parDepth_append, parDepth_append]
    have h1 : parDepth ['('] d = some (d + 1) := by simp [parDepth]
    rw [h1]
    simp only [Option.bind_eq_bind, Option.some_bind, p3]
    simp [parDepth]

theorem Neutral.amp : Neutral "&" :=
  ⟨by decide, by decide, fun d => by simp [stringToSequence, parDepth, isSpace, toUpperCase]⟩

theorem premisesConj_neutral : ∀ ps : List String, (∀ p ∈ ps, BalancedText p) →
    Neutral (premisesConj ps) := by
  intro ps
  induction ps with
  | nil =>
    intro _
    exact ⟨by decide, by decide, fun d => rfl⟩
  | cons p ps ih =>
    intro h
    have hp : Neutral p := (h p (List.mem_cons_self _ _)).neutral
    cases ps with
    | nil => exact hp.wrap
    | cons q qs =>
      have hrest := ih (fun x hx => h x (List.mem_cons_of_mem _ hx))
      have e : premisesConj (p :: q :: qs)
          = ("(" ++ p ++ ")") ++ ("&" ++ premisesConj (q :: qs)) := by
        show "(" ++ p ++ ")&" ++ premisesConj (q :: qs) = _
        have e2 : (")&" : String) = ")" ++ "&" := by decide
        rw [e2]
        simp only [String.append_assoc]
      rw [e]
      exact hp.wrap.append (Neutral.amp.append hrest)

theorem Neutral.minus : Neutral "-" :=
  ⟨by decide, by decide, fun d => by simp [stringToSequence, parDepth, isSpace, toUpperCase]⟩

theorem Neutral.arrow : Neutral ">" :=
  ⟨by decide, by decide, fun d => by simp [stringToSequence, parDepth, isSpace, toUpperCase]⟩

theorem mainFormula_split (init : List String) (last consequence : String) :
    mainFormula init last consequence
      = ("-" ++ ("(" ++ premisesConj (init ++ [last]) ++ ")") ++ ">"
          ++ ("(" ++ consequence ++ ")")) ++ ")" := by
  rw [mainFormula_eq]
  unfold shapeFormula
  have e1 : ("-(" : String) = "-" ++ "(" := by decide
  have e2 : (")>(" : String) = ")" ++ (">" ++ "(") := by decide
  rw [e1, e2]
  simp only [String.append_assoc]

/-- C27: when every premise and the conclusion have balanced parentheses and
only recognised symbols, the formula string assembled by `main` of lab work 3
holds one more `)` than `(`, `infixToPostfix` fails on its token sequence with
"Missing opening parenthesis!", and the whole run ends with that failure, so
neither `SKNF` nor `MethodResolution` is reached. -/
theorem main_always_misses_opening_parenthesis (init : List String) (last consequence : String)
    (fill : Nat → Nat → Int) (buffer : Nat → Int) (clock : List Int)
    (hp : ∀ p ∈ init ++ [last], BalancedText p) (hc : BalancedText consequence) :
    (mainFormula init last consequence).toList.count ')'
      = (mainFormula init last consequence).toList.count '(' + 1 ∧
    infixToPostfix (stringToSequence (mainFormula init last consequence))
      = .error (.thrown "Missing opening parenthesis!") ∧
    mainProve init last consequence fill buffer clock
      = .error (.thrown "Missing opening parenthesis!") := by
  have hW : Neutral ("-" ++ ("(" ++ premisesConj (init ++ [last]) ++ ")") ++ ">"
      ++ ("(" ++ consequence ++ ")")) :=
    ((Neutral.minus.append (premisesConj_neutral _ hp).wrap).append Neutral.arrow).append
      hc.neutral.wrap
  obtain ⟨w1, w2, w3⟩ := hW
  have e2 : stringToSequence ")" = [')'] := by decide
  have hres : infixToPostfix (stringToSequence (mainFormula init last consequence))
      = .error (.thrown "Missing opening parenthesis!") := by
    rw [mainFormula_split, stringToSequence_append_string, e2]
    have hrec : ∀ t ∈ stringToSequence ("-" ++ ("(" ++ premisesConj (init ++ [last]) ++ ")")
        ++ ">" ++ ("(" ++ consequence ++ ")")) ++ [')'], isRecognised t = true := by
      intro t ht
      rcases List.mem_append.1 ht with h | h
      · exact w2 t h
      · simp only [List.mem_singleton] at h
        subst h
        decide
    obtain ⟨hnone, _⟩ := loop_recognised _ [] [] hrec (fun t ht => by cases ht)
    have hd : parDepth (stringToSequence ("-" ++ ("(" ++ premisesConj (init ++ [last]) ++ ")")
        ++ ">" ++ ("(" ++ consequence ++ ")")) ++ [')']) (([] : Stack).count '(') = none := by
      rw [parDepth_append, List.count_nil, w3 0]
      rfl
    have := hnone hd []
    simpa [infixToPostfix] using this
  refine ⟨?_, hres, ?_⟩
  · rw [mainFormula_split, toList_append_string, List.count_append, List.count_append, w1]
    have c3 : ")".toList.count '(' = 0 := by decide
    have c4 : ")".toList.count ')' = 1 := by decide
    omega
  · unfold mainProve
    rw [hres]

/-- A text whose scan never closes an unopened parenthesis is balanced when its
symbols are recognised and its parentheses are equal in number. -/
theorem balancedText_of_scan (p : String)
    (h1 : ∀ c ∈ p.toList, isSpace c = true ∨ isRecognised c = true)
    (h2 : parDepth p.toList 0 ≠ none) (h3 : p.toList.count '(' = p.toList.count ')') :
    BalancedText p :=
  ⟨h1, fun h => h2 ((parDepth_none_iff p.toList 0).2 (by simpa [ClosesUnopened] using h)), h3⟩

/-- Witness of C27 for the premises `(A>B)`, `A` and the conclusion `B`. -/
theorem main_always_misses_opening_parenthesis_witness :
    mainProve ["(A>B)"] "A" "B" (fun _ _ => 0) (fun _ => 0) [0, 1]
      = .error (.thrown "Missing opening parenthesis!") :=
  (main_always_misses_opening_parenthesis ["(A>B)"] "A" "B" (fun _ _ => 0) (fun _ => 0) [0, 1]
    (by
      intro p hp
      have hp2 : p = "(A>B)" ∨ p = "A" := by simpa using hp
      rcases hp2 with rfl | rfl
      · exact balancedText_of_scan _ (by decide) (by decide) (by decide)
      · exact balancedText_of_scan _ (by decide) (by decide) (by decide))
    (balancedText_of_scan _ (by decide) (by decide) (by decide))).2.2

/-! ## C26, C28, C30: rounds, pairs of a round, append-only matrix -/

theorem pairStep_pairs {countVars : Nat} {st st1 : ResState} {i j : Nat} {b : Bool}
    (h : pairStep countVars st i j = .ok (b, st1)) : st1.pairs = st.pairs ++ [(i, j)] := by
  unfold pairStep at h
  split at h
  · cases h; rfl
  · split at h
    · split at h
      · cases h
      · split at h
        · cases h; rfl
        · cases h
    · cases h; rfl

theorem pairStep_frame {countVars : Nat} {st st1 : ResState} {i j : Nat} {b : Bool}
    (h : pairStep countVars st i j = .ok (b, st1)) :
    st.tk ≤ st1.tk ∧ ∀ r, r < st.tk → st1.matr.getD r [] = st.matr.getD r [] := by
  unfold pairStep at h
  split at h
  · cases h; exact ⟨le_refl _, fun _ _ => rfl⟩
  · split at h
    · cases hw : WriteArr st.matr st.tk countVars (combine st.matr i j countVars st.a) with
      | error e => rw [hw] at h; cases h
      | ok r =>
        obtain ⟨m1, tk1⟩ := r
        rw [hw] at h
        simp only at h
        split at h
        swap
        · cases h
        cases h
        unfold WriteArr at hw
        cases hl : writeArrLoop st.tk (combine st.matr i j countVars st.a) countVars 0 st.matr with
        | error e => rw [hl] at hw; cases hw
        | ok m2 =>
          rw [hl] at hw
          cases hw
          obtain ⟨l1, _, _⟩ := writeArrLoop_ok _ _ _ _ _ _ hl
          exact ⟨Nat.le_succ _, fun r hr => l1 r (by omega)⟩
    · cases h; exact ⟨le_refl _, fun _ _ => rfl⟩

theorem PairSteps.frame {countVars : Nat} {st st1 : ResState} (h : PairSteps countVars st st1) :
    st.tk ≤ st1.tk ∧ ∀ r, r < st.tk → st1.matr.getD r [] = st.matr.getD r [] := by
  induction h with
  | refl => exact ⟨le_refl _, fun _ _ => rfl⟩
  | step _ hp ih =>
    obtain ⟨f1, f2⟩ := pairStep_frame hp
    exact ⟨le_trans ih.1 f1, fun r hr => (f2 r (by omega)).trans (ih.2 r hr)⟩

theorem loopI_reaches {countVars k : Nat} {steps i : Nat} {st st1 : ResState} {b : Bool}
    (h : loopI countVars k steps i st = .ok (b, st1)) : PairSteps countVars st st1 :=
  loopI_pairSteps st steps i st b st1 (.refl st) h

theorem runRounds_reaches {countVars : Nat} : ∀ (r k : Nat) (st : ResState) (b : Bool)
    (k1 : Nat) (st1 : ResState), runRounds countVars r k st = .ok (b, k1, st1) →
    PairSteps countVars st st1 := by
  intro r
  induction r with
  | zero =>
    intro k st b k1 st1 h
    simp only [runRounds, Except.ok.injEq, Prod.mk.injEq] at h
    rw [← h.2.2]
    exact .refl st
  | succ r ih =>
    intro k st b k1 st1 h
    unfold runRounds at h
    cases hp : loopI countVars k (k - 1) 0 st with
    | error e => rw [hp] at h; cases h
    | ok res =>
      obtain ⟨b', s'⟩ := res
      rw [hp] at h
      cases b' with
      | true =>
        simp only [Except.ok.injEq, Prod.mk.injEq] at h
        rw [← h.2.2]
        exact loopI_reaches hp
      | false =>
        simp only at h
        exact (loopI_reaches hp).trans (ih _ _ _ _ _ h)

theorem runRounds_frontier {countVars : Nat} : ∀ (r k : Nat) (st : ResState) (b : Bool)
    (k1 : Nat) (st1 : ResState), k ≤ st.tk → runRounds countVars r k st = .ok (b, k1, st1) →
    k ≤ k1 ∧ k1 ≤ st1.tk := by
  intro r
  induction r with
  | zero =>
    intro k st b k1 st1 hk h
    simp only [runRounds, Except.ok.injEq, Prod.mk.injEq] at h
    obtain ⟨_, h2, h3⟩ := h
    subst h2 h3
    exact ⟨le_refl _, hk⟩
  | succ r ih =>
    intro k st b k1 st1 hk h
    unfold runRounds at h
    cases hp : loopI countVars k (k - 1) 0 st with
    | error e => rw [hp] at h; cases h
    | ok res =>
      obtain ⟨b', s'⟩ := res
      rw [hp] at h
      have hmono := (loopI_reaches hp).frame.1
      cases b' with
      | true =>
        simp only [Except.ok.injEq, Prod.mk.injEq] at h
        obtain ⟨_, h2, h3⟩ := h
        subst h2 h3
        exact ⟨le_refl _, le_trans hk hmono⟩
      | false =>
        simp only at h
        obtain ⟨i1, i2⟩ := ih _ _ _ _ _ (le_refl _) h
        exact ⟨le_trans (le_trans hk hmono) i1, i2⟩

/-- With readings inside the time limit followed by one outside, the rounds
run are those of `runRounds`, one per reading inside the limit. -/
theorem resolutionRounds_eq_runRounds {countVars : Nat} {start final : Int} {rest : List Int}
    (hfinal : TIMEOUT_LIMIT ≤ final - start) :
    ∀ (readings : List Int) (k : Nat) (st : ResState),
      (∀ now ∈ readings, now - start < TIMEOUT_LIMIT) →
      resolutionRounds countVars start (readings ++ final :: rest) k st
        = match runRounds countVars readings.length k st with
          | .error e => .error e
          | .ok (true, _, st1) => .ok (some true, st1)
          | .ok (false, _, st1) => .ok (some false, st1) := by
  intro readings
  induction readings with
  | nil =>
    intro k st _
    simp [resolutionRounds, runRounds, not_lt.2 hfinal]
  | cons now readings ih =>
    intro k st hr
    have hnow := hr now (List.mem_cons_self _ _)
    simp only [List.cons_append, resolutionRounds, if_pos hnow, List.length_cons, runRounds]
    cases hp : loopI countVars k (k - 1) 0 st with
    | error e => rfl
    | ok res =>
      obtain ⟨b', s'⟩ := res
      cases b' with
      | true => rfl
      | false =>
        simp only
        exact ih _ _ (fun x hx => hr x (List.mem_cons_of_mem _ hx))

/-- When the clock readings checked before the rounds stay within
`TIMEOUT_LIMIT` and the next reading reaches it, `MethodResolution` ends with a
verdict or a failure (the loop does not go on); if the rounds run so far have
neither failed nor produced the empty resolvent the verdict is `false`, with
the state those rounds left; and when the first reading already reaches the
limit the result is `false` with no pair combined and the clause set
unchanged. -/
theorem MethodResolution_stops_at_limit (matr : Matrix) (n countVars : Nat) (a : List Int)
    (start final : Int) (readings rest : List Int)
    (hin : ∀ now ∈ readings, now - start < TIMEOUT_LIMIT)
    (hfinal : TIMEOUT_LIMIT ≤ final - start) :
    (∀ st, MethodResolution matr n countVars a (start :: (readings ++ final :: rest))
      ≠ .ok (none, st)) ∧
    (∀ k st, runRounds countVars readings.length n
        { matr := matr, tk := n, a := a, pairs := [] } = .ok (false, k, st) →
      MethodResolution matr n countVars a (start :: (readings ++ final :: rest))
        = .ok (some false, st)) ∧
    MethodResolution matr n countVars a (start :: final :: rest)
      = .ok (some false, { matr := matr, tk := n, a := a, pairs := [] }) := by
  have key := @resolutionRounds_eq_runRounds countVars start final rest hfinal
    readings n { matr := matr, tk := n, a := a, pairs := [] } hin
  refine ⟨?_, ?_, ?_⟩
  · intro st h
    unfold MethodResolution at h
    simp only at h
    rw [key] at h
    split at h <;> cases h
  · intro k st hrun
    unfold MethodResolution
    simp only
    rw [key, hrun]
  · simp [MethodResolution, resolutionRounds, not_lt.2 hfinal]

theorem filter_lt_range (i k : Nat) :
    ((List.range k).filter fun j => decide (i < j)) = List.range' (i + 1) (k - (i + 1)) := by
  by_cases h : i + 1 ≤ k
  · have e : List.range k = List.range' 0 (i + 1) ++ List.range' (i + 1) (k - (i + 1)) := by
      have e0 := List.range'_append_1 0 (i + 1) (k - (i + 1))
      rw [Nat.zero_add] at e0
      rw [List.range_eq_range', e0]
      congr 1
      omega
    rw [e, List.filter_append]
    have h1 : (List.range' 0 (i + 1)).filter (fun j => decide (i < j)) = [] := by
      rw [List.filter_eq_nil_iff]
      intro a ha
      rw [List.mem_range'_1] at ha
      simp only [decide_eq_true_eq]
      omega
    have h2 : (List.range' (i + 1) (k - (i + 1))).filter (fun j => decide (i < j))
        = List.range' (i + 1) (k - (i + 1)) := by
      rw [List.filter_eq_self]
      intro a ha
      rw [List.mem_range'_1] at ha
      simp only [decide_eq_true_eq]
      omega
    rw [h1, h2, List.nil_append]
  · have e : k - (i + 1) = 0 := by omega
    rw [e, List.range'_zero, List.filter_eq_nil_iff]
    intro a ha
    rw [List.mem_range] at ha
    simp only [decide_eq_true_eq]
    omega

theorem allPairs_eq (k : Nat) :
    allPairs k = (List.range' 0 (k - 1)).flatMap fun i =>
      (List.range' (i + 1) (k - (i + 1))).map fun j => (i, j) := by
  unfold allPairs
  have e1 : ∀ i, (((List.range k).filter fun j => decide (i < j)).map fun j => (i, j))
      = (List.range' (i + 1) (k - (i + 1))).map fun j => (i, j) := by
    intro i
    rw [filter_lt_range]
  simp only [e1]
  cases k with
  | zero => rfl
  | succ k =>
    rw [List.range_succ, List.flatMap_append, List.range_eq_range']
    simp

theorem mem_allPairs (k : Nat) (p : Nat × Nat) : p ∈ allPairs k ↔ p.1 < p.2 ∧ p.2 < k := by
  obtain ⟨i, j⟩ := p
  unfold allPairs
  simp only [List.mem_flatMap, List.mem_map, List.mem_filter, List.mem_range, decide_eq_true_eq,
    Prod.mk.injEq]
  constructor
  · rintro ⟨a, _, b, ⟨hb, hab⟩, rfl, rfl⟩
    exact ⟨hab, hb⟩
  · rintro ⟨h1, h2⟩
    exact ⟨i, by omega, j, ⟨h2, h1⟩, rfl, rfl⟩

theorem allPairs_sorted (k : Nat) :
    (allPairs k).Pairwise fun p q => p.1 < q.1 ∨ (p.1 = q.1 ∧ p.2 < q.2) := by
  unfold allPairs
  rw [List.pairwise_flatMap]
  constructor
  · intro i _
    rw [List.pairwise_map]
    refine List.Pairwise.filter _ ?_
    exact (List.pairwise_lt_range k).imp fun h => Or.inr ⟨rfl, h⟩
  · refine (List.pairwise_lt_range k).imp ?_
    intro a b hab x hx y hy
    simp only [List.mem_map, List.mem_filter] at hx hy
    obtain ⟨_, _, rfl⟩ := hx
    obtain ⟨_, _, rfl⟩ := hy
    exact Or.inl hab

theorem loopJ_pairs {countVars i : Nat} : ∀ (steps j : Nat) (st : ResState) (b : Bool)
    (st1 : ResState), loopJ countVars i steps j st = .ok (b, st1) →
    ∃ done, done <+: ((List.range' j steps).map fun x => (i, x)) ∧
      st1.pairs = st.pairs ++ done ∧
      (b = false → done = (List.range' j steps).map fun x => (i, x)) ∧
      (b = true → done ≠ []) := by
  intro steps
  induction steps with
  | zero =>
    intro j st b st1 h
    simp only [loopJ, Except.ok.injEq, Prod.mk.injEq] at h
    obtain ⟨rfl, rfl⟩ := h
    exact ⟨[], List.nil_prefix, by simp, fun _ => rfl, fun h => by cases h⟩
  | succ steps ih =>
    intro j st b st1 h
    unfold loopJ at h
    cases hp : pairStep countVars st i j with
    | error e => rw [hp] at h; cases h
    | ok res =>
      obtain ⟨b', s'⟩ := res
      rw [hp] at h
      have hlog := pairStep_pairs hp
      cases b' with
      | true =>
        simp only [Except.ok.injEq, Prod.mk.injEq] at h
        obtain ⟨rfl, rfl⟩ := h
        refine ⟨[(i, j)], ?_, hlog, (fun h => by cases h), fun _ => by simp⟩
        rw [List.range'_succ, List.map_cons]
        exact List.prefix_append [(i, j)] _
      | false =>
        simp only at h
        obtain ⟨done, d1, d2, d3, d4⟩ := ih _ _ _ _ h
        refine ⟨(i, j) :: done, ?_, ?_, ?_, fun _ => by simp⟩
        · rw [List.range'_succ, List.map_cons]
          exact List.prefix_cons_inj (i, j) |>.2 d1
        · rw [d2, hlog, List.append_assoc]; rfl
        · intro hb
          rw [d3 hb, List.range'_succ, List.map_cons]

theorem loopI_pairs {countVars k : Nat} : ∀ (steps i : Nat) (st : ResState) (b : Bool)
    (st1 : ResState), loopI countVars k steps i st = .ok (b, st1) →
    ∃ done, done <+: ((List.range' i steps).flatMap fun x =>
        (List.range' (x + 1) (k - (x + 1))).map fun y => (x, y)) ∧
      st1.pairs = st.pairs ++ done ∧
      (b = false → done = (List.range' i steps).flatMap fun x =>
        (List.range' (x + 1) (k - (x + 1))).map fun y => (x, y)) ∧
      (b = true → done ≠ []) := by
  intro steps
  induction steps with
  | zero =>
    intro i st b st1 h
    simp only [loopI, Except.ok.injEq, Prod.mk.injEq] at h
    obtain ⟨rfl, rfl⟩ := h
    exact ⟨[], List.nil_prefix, by simp, fun _ => rfl, fun h => by cases h⟩
  | succ steps ih =>
    intro i st b st1 h
    unfold loopI at h
    cases hp : loopJ countVars i (k - (i + 1)) (i + 1) st with
    | error e => rw [hp] at h; cases h
    | ok res =>
      obtain ⟨b', s'⟩ := res
      rw [hp] at h
      obtain ⟨row, r1, r2, r3, r4⟩ := loopJ_pairs _ _ _ _ _ hp
      cases b' with
      | true =>
        simp only [Except.ok.injEq, Prod.mk.injEq] at h
        obtain ⟨rfl, rfl⟩ := h
        refine ⟨row, ?_, r2, (fun h => by cases h), fun _ => r4 rfl⟩
        rw [List.range'_succ, List.flatMap_cons]
        exact r1.trans (List.prefix_append _ _)
      | false =>
        simp only at h
        obtain ⟨done, d1, d2, d3, d4⟩ := ih _ _ _ _ h
        have hrow := r3 rfl
        refine ⟨row ++ done, ?_, ?_, ?_, ?_⟩
        · rw [List.range'_succ, List.flatMap_cons, hrow]
          exact (List.prefix_append_right_inj _).2 d1
        · rw [d2, r2, List.append_assoc]
        · intro hb
          rw [d3 hb, List.range'_succ, List.flatMap_cons, hrow]
        · intro hb hnil
          exact d4 hb (List.append_eq_nil.1 hnil).2

/-- The pairs combined by one round with frontier `k`. -/
theorem round_pairs {countVars k : Nat} {st st1 : ResState} {b : Bool}
    (h : loopI countVars k (k - 1) 0 st = .ok (b, st1)) :
    ∃ done, done <+: allPairs k ∧ st1.pairs = st.pairs ++ done ∧
      (b = false → done = allPairs k) ∧ (b = true → done ≠ []) := by
  rw [allPairs_eq]
  exact loopI_pairs _ _ _ _ _ h

/-- C28: a round of `MethodResolution` with frontier `k` combines the pairs
`(i, j)` with `i < j < k` in ascending lexicographic order: a complete round
logs exactly `allPairs k`, a round that finds the empty resolvent logs a
non-empty initial part of it. After a complete round the next round starts
with the frontier at the row count reached, and a resolvent is appended
exactly when `SearchArr` does not find it among the rows stored at that
moment, rows appended earlier in the same round included. -/
theorem round_combines_all_pairs_below_frontier (countVars k : Nat) (st st1 : ResState) (b : Bool)
    (h : loopI countVars k (k - 1) 0 st = .ok (b, st1)) :
    (∃ done, done <+: allPairs k ∧ st1.pairs = st.pairs ++ done ∧
      (b = false → done = allPairs k) ∧ (b = true → done ≠ [])) ∧
    (∀ p, p ∈ allPairs k ↔ p.1 < p.2 ∧ p.2 < k) ∧
    ((allPairs k).Pairwise fun p q => p.1 < q.1 ∨ (p.1 = q.1 ∧ p.2 < q.2)) ∧
    (∀ (start now : Int) (clock : List Int), now - start < TIMEOUT_LIMIT → b = false →
      resolutionRounds countVars start (now :: clock) k st
        = resolutionRounds countVars start clock st1.tk st1) ∧
    (∀ (s s1 : ResState) (i j : Nat), pairStep countVars s i j = .ok (false, s1) →
      (s1.tk = s.tk + 1 ∧
        SearchArr s.matr s.tk countVars (combine s.matr i j countVars s.a) = false) ∨
      (s1.tk = s.tk ∧ s1.matr = s.matr ∧
        SearchArr s.matr s.tk countVars (combine s.matr i j countVars s.a) = true)) := by
  refine ⟨round_pairs h, mem_allPairs k, allPairs_sorted k, ?_, ?_⟩
  · intro start now clock hnow hb
    subst hb
    simp only [resolutionRounds, if_pos hnow, h]
  · intro s s1 i j hp
    unfold pairStep at hp
    split at hp
    · cases hp
    · split at hp
      · rename_i hs
        cases hw : WriteArr s.matr s.tk countVars (combine s.matr i j countVars s.a) with
        | error e => rw [hw] at hp; cases hp
        | ok r =>
          obtain ⟨m1, tk1⟩ := r
          rw [hw] at hp
          simp only at hp
          split at hp
          swap
          · cases hp
          cases hp
          unfold WriteArr at hw
          split at hw
          · cases hw
          · cases hw
            exact Or.inl ⟨rfl, by simpa using hs⟩
      · rename_i hs
        cases hp
        exact Or.inr ⟨rfl, rfl, by simpa using hs⟩

/-- Witness of C28: one round over the two clauses `A`, `A`. -/
theorem round_combines_all_pairs_below_frontier_witness :
    loopI 1 2 (2 - 1) 0 { matr := [[0], [0], [5], [5]], tk := 2, a := [7], pairs := [] }
        = .ok (false, { matr := [[0], [0], [5], [5]], tk := 2, a := [0], pairs := [(0, 1)] }) ∧
      allPairs 2 = [(0, 1)] ∧ allPairs 3 = [(0, 1), (0, 2), (1, 2)] ∧
      ∃ done, done <+: allPairs 2 ∧ [(0, 1)] = ([] : List (Nat × Nat)) ++ done ∧
        (false = false → done = allPairs 2) ∧ (false = true → done ≠ []) :=
  ⟨by decide, by decide, by decide,
    (round_combines_all_pairs_below_frontier 1 2
      { matr := [[0], [0], [5], [5]], tk := 2, a := [7], pairs := [] }
      { matr := [[0], [0], [5], [5]], tk := 2, a := [0], pairs := [(0, 1)] } false
      (by decide)).1⟩

/-- C30: `MethodResolution` only appends. Along any sequence of pair
combinations the row count does not decrease and every row below the earlier
count keeps its content; over any number of rounds the frontier does not
decrease and stays at most the row count; and a finished run leaves the `n`
initial rows as they were. -/
theorem rows_append_only_frontier_monotone (countVars : Nat) (st st1 : ResState)
    (h : PairSteps countVars st st1) :
    (st.tk ≤ st1.tk ∧ ∀ r, r < st.tk → st1.matr.getD r [] = st.matr.getD r []) ∧
    (∀ (r k : Nat) (b : Bool) (k1 : Nat) (s1 : ResState), k ≤ st.tk →
      runRounds countVars r k st = .ok (b, k1, s1) →
      k ≤ k1 ∧ k1 ≤ s1.tk ∧ st.tk ≤ s1.tk ∧
        ∀ x, x < st.tk → s1.matr.getD x [] = st.matr.getD x []) ∧
    (∀ (matr : Matrix) (n : Nat) (a clock : List Int) (res : Option Bool) (s1 : ResState),
      MethodResolution matr n countVars a clock = .ok (res, s1) →
      n ≤ s1.tk ∧ ∀ x, x < n → s1.matr.getD x [] = matr.getD x []) := by
  refine ⟨h.frame, ?_, ?_⟩
  · intro r k b k1 s1 hk hrun
    obtain ⟨f1, f2⟩ := runRounds_frontier r k st b k1 s1 hk hrun
    obtain ⟨g1, g2⟩ := (runRounds_reaches r k st b k1 s1 hrun).frame
    exact ⟨f1, f2, g1, g2⟩
  · intro matr n a clock res s1 hm
    exact (MethodResolution_pairSteps hm).frame

/-- Witness of C30: combining the clauses `A` and `B` appends row 2. -/
theorem rows_append_only_frontier_monotone_witness :
    (2 ≤ 3 ∧ ∀ r, r < 2 →
      ([[0, 1], [1, 0], [0, 0], [9, 9]] : Matrix).getD r []
        = ([[0, 1], [1, 0], [9, 9], [9, 9]] : Matrix).getD r []) :=
  (rows_append_only_frontier_monotone 2
    { matr := [[0, 1], [1, 0], [9, 9], [9, 9]], tk := 2, a := [7, 7], pairs := [] }
    { matr := [[0, 1], [1, 0], [0, 0], [9, 9]], tk := 3, a := [0, 0], pairs := [(0, 1)] }
    (@PairSteps.step 2 _ _ _ 0 1 false (PairSteps.refl _) (by decide))).1


/-! ## C25: `PrintfArr` -/

/-- C25 (defect): `PrintfArr` names position `i` by the character whose code is
that of the first variable plus `i`, not by the `i`-th variable of the set.
For the variables `A`, `C` and the row `0, -1` it prints `(A | -B | ` (and the
closing backspaces and parenthesis) where the contract asks for `(A | -C | `;
the text printed depends on the variable set only through its first element. -/
theorem PrintfArr_names_positions_by_character_code :
    PrintfArr [[0, -1]] 0 2 ['A', 'C'] = .ok "(A | -B | \x08\x08\x08)" ∧
    "(" ++ renderClause [0, -1] ['A', 'C'] 0 ++ "\x08\x08\x08)" = "(A | -C | \x08\x08\x08)" ∧
    (∀ (matr : Matrix) (n countVars : Nat) (v : Token) (vars vars1 : TokenSet),
      PrintfArr matr n countVars (v :: vars) = PrintfArr matr n countVars (v :: vars1)) := by
  refine ⟨by decide, by decide, ?_⟩
  intros
  rfl

/-! ## C23: `isValid` -/

theorem isValidInner_no_variables (output : Queue) :
    ∀ (room i : Nat) (st : ValidStatics),
      Lab1.isValidInner output [] 0 room i st = .error .outOfBounds := by
  intro room
  induction room with
  | zero => intros; rfl
  | succ room ih =>
    intro i st
    unfold Lab1.isValidInner
    have h : ¬ (i + 1 = 0) := by omega
    simp only [if_neg h, ih]

theorem varValOf_congr (D D1 : List Token) : ∀ (vars : TokenSet) (k : Nat) (m : Map),
    (∀ j, j < vars.length → D.getD (k + j) '0' = D1.getD (k + j) '0') →
    Lab1.varValOf D vars k m = Lab1.varValOf D1 vars k m := by
  intro vars
  induction vars with
  | nil => intros; rfl
  | cons v vars ih =>
    intro k m h
    unfold Lab1.varValOf
    have h0 := h 0 (by simp)
    rw [Nat.add_zero] at h0
    rw [h0]
    apply ih
    intro j hj
    have := h (j + 1) (by simpa using hj)
    rwa [show k + (j + 1) = k + 1 + j by omega] at this

theorem leaf_spec {output : Queue} {vars : TokenSet} {D : List Token} {c : Nat}
    {st1 : ValidStatics} (hc : c + 1 < 4294967296)
    (h : Lab1.leaf output vars D c = .ok st1) :
    st1.D = D ∧ ∃ res, evaluate (substValues output (Lab1.varValOf D vars 0 [])) = .ok res ∧
      st1.n_truth = c + (if res = '1' then 1 else 0) := by
  unfold Lab1.leaf at h
  cases he : evaluate (substValues output (Lab1.varValOf D vars 0 [])) with
  | error e => rw [he] at h; cases h
  | ok res =>
    rw [he] at h
    simp only [Except.ok.injEq] at h
    subst h
    refine ⟨rfl, res, rfl, ?_⟩
    by_cases hr : res = '1'
    · simp only [if_pos hr]
      exact Nat.mod_eq_of_lt hc
    · simp only [if_neg hr, Nat.add_zero]

theorem isValidInner_spec (output : Queue) (vars : TokenSet) :
    ∀ (room i : Nat) (st st1 : ValidStatics) (b : Bool), i < vars.length →
    vars.length ≤ st.D.length → st.n_truth + 2 ^ (vars.length - i) < 4294967296 →
    Lab1.isValidInner output vars vars.length room i st = .ok (b, st1) →
    st1.D.length = st.D.length ∧
    (∀ k, k < i → st1.D.getD k '0' = st.D.getD k '0') ∧
    (b = (st1.n_truth == (1 <<< vars.length) % 4294967296)) ∧
    ∃ c, st1.n_truth = st.n_truth + c ∧ c ≤ 2 ^ (vars.length - i) ∧
      (c = 2 ^ (vars.length - i) ↔
        ∀ D : List Token, (∀ k, k < i → D.getD k '0' = st.D.getD k '0') →
          (∀ k, i ≤ k → k < vars.length → D.getD k '0' = '0' ∨ D.getD k '0' = '1') →
          evaluate (substValues output (Lab1.varValOf D vars 0 [])) = .ok '1') := by
  intro room
  induction room with
  | zero => intro i st st1 b _ _ _ h; cases h
  | succ room ih =>
    intro i st st1 b hin hDl hcnt h
    unfold Lab1.isValidInner at h
    have hkeep : ∀ (D : List Token) (x : Token) (k : Nat), k < i →
        (D.set i x).getD k '0' = D.getD k '0' := by
      intro D x k hk
      rw [List.getD_eq_getElem?_getD, List.getElem?_set_ne (by omega),
        ← List.getD_eq_getElem?_getD]
    have hat : ∀ (D : List Token) (x : Token), D.length = st.D.length →
        (D.set i x).getD i '0' = x := by
      intro D x hl
      rw [List.getD_eq_getElem?_getD, List.getElem?_set_self (by omega)]
      rfl
    by_cases hi : i + 1 = vars.length
    · simp only [if_pos hi] at h
      have hpow : 2 ^ (vars.length - i) = 2 := by
        have : vars.length - i = 1 := by omega
        rw [this, pow_one]
      rw [hpow] at hcnt
      cases h0 : Lab1.leaf output vars (st.D.set i '0') st.n_truth with
      | error e => rw [h0] at h; cases h
      | ok s0 =>
        rw [h0] at h
        simp only at h
        obtain ⟨a1, r0, a2, a3⟩ := leaf_spec (by omega) h0
        cases h1 : Lab1.leaf output vars (s0.D.set i '1') s0.n_truth with
        | error e => rw [h1] at h; cases h
        | ok s1 =>
          rw [h1] at h
          simp only [Except.ok.injEq, Prod.mk.injEq] at h
          obtain ⟨hb, hs⟩ := h
          subst hs
          obtain ⟨b1, r1, b2, b3⟩ := leaf_spec
            (by rw [a3]; split <;> omega) h1
          have hs0l : s0.D.length = st.D.length := by rw [a1]; simp
          refine ⟨by rw [b1]; simp [hs0l], ?_, hb.symm, ?_⟩
          · intro k hk
            rw [b1, hkeep _ _ k hk, a1, hkeep _ _ k hk]
          · refine ⟨(if r0 = '1' then 1 else 0) + (if r1 = '1' then 1 else 0), ?_, ?_, ?_⟩
            · rw [b3, a3]; omega
            · rw [hpow]; split <;> split <;> omega
            · rw [hpow]
              constructor
              · intro hc D hpre hbits
                have hr0 : r0 = '1' := by
                  by_contra hne
                  rw [if_neg hne] at hc
                  split at hc <;> omega
                have hr1 : r1 = '1' := by
                  by_contra hne
                  rw [if_neg hne] at hc
                  split at hc <;> omega
                rcases hbits i (le_refl _) hin with hbit | hbit
                · rw [← hr0, ← a2]
                  congr 2
                  apply varValOf_congr
                  intro j hj
                  rw [Nat.zero_add]
                  by_cases hji : j = i
                  · subst hji
                    rw [hbit, hat st.D '0' rfl]
                  · rw [hkeep _ _ j (by omega)]
                    exact hpre j (by omega)
                · rw [← hr1, ← b2]
                  congr 2
                  apply varValOf_congr
                  intro j hj
                  rw [Nat.zero_add]
                  by_cases hji : j = i
                  · subst hji
                    rw [hbit, hat s0.D '1' hs0l]
                  · rw [hkeep _ _ j (by omega), a1, hkeep _ _ j (by omega)]
                    exact hpre j (by omega)
              · intro hall
                have e0 := hall (st.D.set i '0') (fun k hk => hkeep _ _ k hk)
                  (fun k hk1 hk2 => by
                    have : k = i := by omega
                    subst this
                    exact Or.inl (hat st.D '0' rfl))
                have e1 := hall (s0.D.set i '1')
                  (fun k hk => by rw [hkeep _ _ k hk, a1, hkeep _ _ k hk])
                  (fun k hk1 hk2 => by
                    have : k = i := by omega
                    subst this
                    exact Or.inr (hat s0.D '1' hs0l))
                rw [a2] at e0
                rw [b2] at e1
                have hr0 : r0 = '1' := by simpa using e0
                have hr1 : r1 = '1' := by simpa using e1
                rw [if_pos hr0, if_pos hr1]
    · simp only [if_neg hi] at h
      have hpos : 0 < 2 ^ (vars.length - (i + 1)) := Nat.two_pow_pos _
      have hpow : 2 ^ (vars.length - i) = 2 ^ (vars.length - (i + 1))
          + 2 ^ (vars.length - (i + 1)) := by
        have : vars.length - i = (vars.length - (i + 1)) + 1 := by omega
        rw [this, pow_succ]
        omega
      cases h0 : Lab1.isValidInner output vars vars.length room (i + 1)
          { st with D := st.D.set i '0' } with
      | error e => rw [h0] at h; cases h
      | ok r0 =>
        obtain ⟨x0, s0⟩ := r0
        rw [h0] at h
        simp only at h
        obtain ⟨a1, a2, _, c0, a3, a4, a5⟩ := ih (i + 1) { st with D := st.D.set i '0' } s0 x0
          (by omega) (by simpa using hDl) (by simp only; omega) h0
        simp only at a1 a2 a3 a5
        have hs0l : s0.D.length = st.D.length := by rw [a1]; simp
        cases h1 : Lab1.isValidInner output vars vars.length room (i + 1)
            { s0 with D := s0.D.set i '1' } with
        | error e => rw [h1] at h; cases h
        | ok r1 =>
          obtain ⟨x1, s1⟩ := r1
          rw [h1] at h
          simp only [Except.ok.injEq, Prod.mk.injEq] at h
          obtain ⟨hb, hs⟩ := h
          subst hs
          obtain ⟨b1, b2, _, c1, b3, b4, b5⟩ := ih (i + 1) { s0 with D := s0.D.set i '1' } s1 x1
            (by omega) (by simp only [List.length_set]; omega) (by simp only; omega) h1
          simp only at b1 b2 b3 b5
          refine ⟨by rw [b1]; simp [hs0l], ?_, hb.symm, c0 + c1, by rw [b3, a3]; omega,
            by omega, ?_⟩
          · intro k hk
            rw [b2 k (by omega), hkeep _ _ k hk, a2 k (by omega), hkeep _ _ k hk]
          · constructor
            · intro hc D hpre hbits
              have hc0 : c0 = 2 ^ (vars.length - (i + 1)) := by omega
              have hc1 : c1 = 2 ^ (vars.length - (i + 1)) := by omega
              rcases hbits i (le_refl _) hin with hbit | hbit
              · apply a5.1 hc0 D
                · intro k hk
                  by_cases hki : k = i
                  · subst hki
                    rw [hbit, hat st.D '0' rfl]
                  · rw [hkeep _ _ k (by omega)]
                    exact hpre k (by omega)
                · exact fun k hk1 hk2 => hbits k (by omega) hk2
              · apply b5.1 hc1 D
                · intro k hk
                  by_cases hki : k = i
                  · subst hki
                    rw [hbit, hat s0.D '1' hs0l]
                  · rw [hkeep _ _ k (by omega), a2 k (by omega), hkeep _ _ k (by omega)]
                    exact hpre k (by omega)
                · exact fun k hk1 hk2 => hbits k (by omega) hk2
            · intro hall
              have hc0 : c0 = 2 ^ (vars.length - (i + 1)) := by
                apply a5.2
                intro D hpre hbits
                apply hall D
                · exact fun k hk => by rw [hpre k (by omega), hkeep _ _ k hk]
                · intro k hk1 hk2
                  by_cases hki : k = i
                  · subst hki
                    rw [hpre k (by omega), hat st.D '0' rfl]
                    exact Or.inl rfl
                  · exact hbits k (by omega) hk2
              have hc1 : c1 = 2 ^ (vars.length - (i + 1)) := by
                apply b5.2
                intro D hpre hbits
                apply hall D
                · intro k hk
                  rw [hpre k (by omega), hkeep _ _ k hk, a2 k (by omega), hkeep _ _ k hk]
                · intro k hk1 hk2
                  by_cases hki : k = i
                  · subst hki
                    rw [hpre k (by omega), hat s0.D '1' hs0l]
                    exact Or.inr rfl
                  · exact hbits k (by omega) hk2
              omega

/-- On a first call with at least one and fewer than 32 variables, `isValid`
returns `true` exactly when the formula evaluates to `'1'` under every
assignment of `'0'`/`'1'` to its variables. -/
theorem isValid_first_call {output : Queue} {b : Bool} {st : ValidStatics}
    (hne : Lab1.getVariables output ≠ []) (hlt : (Lab1.getVariables output).length < 32)
    (h : Lab1.isValid output ValidStatics.initial = .ok (b, st)) :
    b = true ↔ ∀ D : List Token,
      (∀ k, k < (Lab1.getVariables output).length → D.getD k '0' = '0' ∨ D.getD k '0' = '1') →
      evaluate (substValues output (Lab1.varValOf D (Lab1.getVariables output) 0 [])) = .ok '1' := by
  unfold Lab1.isValid at h
  have hpos : 0 < (Lab1.getVariables output).length := List.length_pos.2 hne
  have hpw : 2 ^ (Lab1.getVariables output).length < 4294967296 := by
    calc 2 ^ (Lab1.getVariables output).length < 2 ^ 32 := Nat.pow_lt_pow_right (by norm_num) hlt
      _ = 4294967296 := by norm_num
  obtain ⟨_, _, hb, c, h1, h2, h3⟩ := isValidInner_spec output _ 100 0 _ st b hpos
    (by simp [ValidStatics.initial]; omega) (by simpa [ValidStatics.initial] using hpw) h
  have hn0 : st.n_truth = c := by simpa [ValidStatics.initial] using h1
  have hsh : (1 <<< (Lab1.getVariables output).length) % 4294967296
      = 2 ^ (Lab1.getVariables output).length := by
    rw [Nat.shiftLeft_eq, Nat.one_mul, Nat.mod_eq_of_lt hpw]
  rw [hb, hn0, hsh, beq_iff_eq]
  simp only [Nat.sub_zero] at h3
  rw [h3]
  constructor
  · intro hall D hbits
    exact hall D (fun k hk => by omega) (fun k _ hk => hbits k hk)
  · intro hall D _ hbits
    exact hall D (fun k hk => hbits k (Nat.zero_le _) hk)

/-- C23 (defect): for a formula without variables `n` is `0`, the test
`i == n - 1` never holds, and `isValidInner` recurses until it writes outside
`D`: `isValid` returns no verdict, also for the constant `1`, which is
identically true. With at least one variable (and fewer than 32) the first
call answers as the contract says: `true` exactly when the formula evaluates
to `'1'` under every assignment. But `n_truth` is a static that is never
reset, so a second call on the valid formula `A|-A` returns `false`. -/
theorem isValid_without_variables_overruns (output : Queue) (st : ValidStatics)
    (h : Lab1.getVariables output = []) :
    Lab1.isValid output st = .error .outOfBounds ∧
    evaluate ['1'] = .ok '1' ∧
    Lab1.isValid ['1'] ValidStatics.initial = .error .outOfBounds ∧
    (∀ (o : Queue) (b : Bool) (s : ValidStatics), Lab1.getVariables o ≠ [] →
      (Lab1.getVariables o).length < 32 → Lab1.isValid o ValidStatics.initial = .ok (b, s) →
      (b = true ↔ ∀ D : List Token,
        (∀ k, k < (Lab1.getVariables o).length → D.getD k '0' = '0' ∨ D.getD k '0' = '1') →
        evaluate (substValues o (Lab1.varValOf D (Lab1.getVariables o) 0 [])) = .ok '1')) ∧
    (Lab1.isValid ['A', 'A', '-', '|'] ValidStatics.initial).map Prod.fst = .ok true ∧
    (Lab1.isValid ['A'] ValidStatics.initial).map Prod.fst = .ok false ∧
    ((Lab1.isValid ['A', 'A', '-', '|'] ValidStatics.initial).bind fun r =>
      (Lab1.isValid ['A', 'A', '-', '|'] r.2).map Prod.fst) = .ok false := by
  have hgen : ∀ (o : Queue) (s : ValidStatics), Lab1.getVariables o = [] →
      Lab1.isValid o s = .error .outOfBounds := by
    intro o s ho
    unfold Lab1.isValid
    rw [ho]
    exact isValidInner_no_variables o 100 0 s
  exact ⟨hgen output st h, by decide, hgen _ _ (by decide),
    fun _ _ _ hne hlt hok => isValid_first_call hne hlt hok, by decide, by decide, by decide⟩

/-- Witness of C23 at the constant formula `1`. -/
theorem isValid_without_variables_overruns_witness :
    Lab1.isValid ['1'] ValidStatics.initial = .error .outOfBounds :=
  (isValid_without_variables_overruns ['1'] ValidStatics.initial (by decide)).1

/-! ## C29: the rows allocated by `main` -/

theorem writeCell_shape {m m1 : Matrix} (h : m.map List.length = m1.map List.length)
    (r j : Nat) (v : Int) :
    (writeCell m r j v = .error .outOfBounds ∧ writeCell m1 r j v = .error .outOfBounds) ∨
    ∃ w w1, writeCell m r j v = .ok w ∧ writeCell m1 r j v = .ok w1 ∧
      w.map List.length = w1.map List.length := by
  have hlen : m.length = m1.length := by
    have := congrArg List.length h
    simpa using this
  have hrow : (m.getD r []).length = (m1.getD r []).length := by
    have := congrArg (fun l => l.getD r 0) h
    simp only [List.getD_eq_getElem?_getD, List.getElem?_map] at this ⊢
    cases h1 : m[r]? <;> cases h2 : m1[r]? <;> simp_all
  have hset : ∀ (x : Matrix), (x.set r ((x.getD r []).set j v)).map List.length
      = x.map List.length := by
    intro x
    apply List.ext_getElem
    · simp
    · intro n h1 h2
      simp only [List.getElem_map, List.getElem_set]
      split
      · rename_i hrn
        subst hrn
        simp only [List.length_set]
        rw [List.getD_eq_getElem?_getD, List.getElem?_eq_getElem (by simpa using h1)]
        rfl
      · rfl
  unfold writeCell
  by_cases hc : r < m.length ∧ j < (m.getD r []).length
  · have hc1 : r < m1.length ∧ j < (m1.getD r []).length := by rw [← hlen, ← hrow]; exact hc
    rw [if_pos hc, if_pos hc1]
    exact Or.inr ⟨_, _, rfl, rfl, by rw [hset, hset, h]⟩
  · have hc1 : ¬ (r < m1.length ∧ j < (m1.getD r []).length) := by rw [← hlen, ← hrow]; exact hc
    rw [if_neg hc, if_neg hc1]
    exact Or.inl ⟨rfl, rfl⟩

theorem writeClause_shape (i : Nat) : ∀ (steps j mask : Nat) (m m1 : Matrix) (p c : Nat),
    m.map List.length = m1.map List.length →
    ShapeRel (writeClause i steps j mask m p c) (writeClause i steps j mask m1 p c) := by
  intro steps
  induction steps with
  | zero =>
    intro j mask m m1 p c h
    exact ⟨h, rfl⟩
  | succ steps ih =>
    intro j mask m m1 p c h
    unfold writeClause
    rcases writeCell_shape h p j (if (i &&& (mask / 2)) != 0 then -1 else 0) with
      ⟨e1, e2⟩ | ⟨w, w1, e1, e2, hw⟩
    · rw [e1, e2]; exact rfl
    · rw [e1, e2]; exact ih _ _ _ _ _ _ hw

theorem sknfLoop_shape (expr : Queue) (vars : TokenSet) (countVars lim : Nat) :
    ∀ (steps i : Nat) (m m1 : Matrix) (p c : Nat),
    m.map List.length = m1.map List.length →
    ShapeRel (sknfLoop expr vars countVars lim steps i m p c)
      (sknfLoop expr vars countVars lim steps i m1 p c) := by
  intro steps
  induction steps with
  | zero =>
    intro i m m1 p c h
    exact ⟨h, rfl⟩
  | succ steps ih =>
    intro i m m1 p c h
    unfold sknfLoop
    cases buildVarVals i vars countVars 0 lim [] with
    | error e => exact rfl
    | ok varVals =>
      simp only
      cases evaluate (substValues expr varVals) with
      | error e => exact rfl
      | ok res =>
        simp only
        by_cases hr : res = '0'
        · simp only [if_pos hr]
          have hw := writeClause_shape i countVars 0 lim m m1 p c h
          cases e1 : writeClause i countVars 0 lim m p c with
          | error x =>
            cases e2 : writeClause i countVars 0 lim m1 p c with
            | error y =>
              rw [e1, e2] at hw
              exact hw
            | ok y => rw [e1, e2] at hw; exact hw.elim
          | ok x =>
            obtain ⟨x1, x2, x3⟩ := x
            cases e2 : writeClause i countVars 0 lim m1 p c with
            | error y => rw [e1, e2] at hw; exact hw.elim
            | ok y =>
              obtain ⟨y1, y2, y3⟩ := y
              rw [e1, e2] at hw
              obtain ⟨s1, s2⟩ := hw
              cases s2
              exact ih _ _ _ _ _ s1
        · simp only [if_neg hr]
          exact ih _ _ _ _ _ h

/-- Whether `SKNF` stays inside the matrix does not depend on what the cells
held. -/
theorem SKNF_error_of_shape {expr : Queue} {vars : TokenSet} {countVars : Nat} {m m1 : Matrix}
    {e : Failure} (h : m.map List.length = m1.map List.length)
    (h1 : SKNF expr m1 vars countVars = .error e) : SKNF expr m vars countVars = .error e := by
  unfold SKNF at h1 ⊢
  have hs := sknfLoop_shape expr vars countVars ((1 <<< countVars) % 4294967296)
    ((1 <<< countVars) % 4294967296) 0 m m1 0 0 h
  rw [h1] at hs
  cases e2 : sknfLoop expr vars countVars ((1 <<< countVars) % 4294967296)
      ((1 <<< countVars) % 4294967296) 0 m 0 0 with
  | error y => rw [e2] at hs; exact congrArg _ hs
  | ok y => rw [e2] at hs; exact hs.elim

theorem allocate_shape (rows countVars : Nat) (fill fill1 : Nat → Nat → Int) :
    (allocate rows countVars fill).map List.length
      = (allocate rows countVars fill1).map List.length := by
  simp [allocate]

/-- C29 (defect): the `3 * 2^n` rows that `main` allocates do not bound the
rows written. For the four-variable contradiction `A&-A&B&C&D` (postfix
`AA-&B&C&D&`) `SKNF` writes outside the 48 rows, whatever the memory held;
for the three-variable contradiction `A&-A&B&C` `SKNF` fills all 24 rows and
the first resolvent that `MethodResolution` appends is written outside. -/
theorem allocation_does_not_bound_rows (fill : Nat → Nat → Int) :
    (getVariables ['A', 'A', '-', '&', 'B', '&', 'C', '&', 'D', '&'] [])
      = (4, ['A', 'B', 'C', 'D']) ∧
    SKNF ['A', 'A', '-', '&', 'B', '&', 'C', '&', 'D', '&']
      (allocate (3 * 2 ^ 4) 4 fill) ['A', 'B', 'C', 'D'] 4 = .error .outOfBounds ∧
    (SKNF ['A', 'A', '-', '&', 'B', '&', 'C', '&']
      (allocate (3 * 2 ^ 3) 3 fun _ _ => 0) ['A', 'B', 'C'] 3).map Prod.snd = .ok 24 ∧
    ((SKNF ['A', 'A', '-', '&', 'B', '&', 'C', '&']
      (allocate (3 * 2 ^ 3) 3 fun _ _ => 0) ['A', 'B', 'C'] 3).bind fun r =>
        MethodResolution r.1 r.2 3 [0, 0, 0] [0, 0]) = .error .outOfBounds := by
  refine ⟨by decide, ?_, by decide, by decide⟩
  exact SKNF_error_of_shape (allocate_shape _ _ fill fun _ _ => 0) (by decide)

/-! ## C24: the lines printed by `OutputConsequences` -/

theorem lineLoop_spec (D : List Int) : ∀ (d : List String) (v : Nat) (text : String) (e : Bool),
    (lineLoop D d v text e).2 = (e && (selected D d v).isEmpty) ∧
    (lineLoop D d v text e).1.toList
      = text.toList ++ (if e then joinTokens ((selected D d v).map String.toList)
          else ((selected D d v).map String.toList).flatMap fun y => '&' :: y) := by
  intro d
  induction d with
  | nil =>
    intro v text e
    cases e <;> simp [lineLoop, selected, joinTokens]
  | cons x d ih =>
    intro v text e
    unfold lineLoop selected
    by_cases hD : D.getD v 0 ≠ 0
    · rw [if_pos hD, if_pos hD]
      cases e with
      | true =>
        obtain ⟨h1, h2⟩ := ih (v + 1) (text ++ x) false
        simp only [Bool.not_true, Bool.false_eq_true, if_false, h1, h2, toList_append_string,
          joinTokens, if_true, List.append_assoc]
        simp
      | false =>
        obtain ⟨h1, h2⟩ := ih (v + 1) (text ++ "&" ++ x) false
        simp only [Bool.not_false, if_true, h1, h2, toList_append_string, Bool.false_eq_true,
          if_false, List.flatMap_cons, List.append_assoc]
        simp
    · rw [if_neg hD, if_neg hD]
      exact ih (v + 1) text e

theorem writeCell_lengths {m m1 : Matrix} {r j : Nat} {v : Int}
    (h : writeCell m r j v = .ok m1) : m1.map List.length = m.map List.length ∧ r < m.length := by
  unfold writeCell at h
  split at h
  · rename_i hc
    cases h
    refine ⟨?_, hc.1⟩
    apply List.ext_getElem
    · simp
    · intro n h1 h2
      simp only [List.getElem_map, List.getElem_set]
      split
      · rename_i hrn
        subst hrn
        simp only [List.length_set]
        rw [List.getD_eq_getElem?_getD, List.getElem?_eq_getElem (by simpa using h1)]
        rfl
      · rfl
  · cases h

theorem writeArrLoop_lengths (n : Nat) (a : List Int) : ∀ (steps i : Nat) (m m1 : Matrix),
    writeArrLoop n a steps i m = .ok m1 → m1.map List.length = m.map List.length := by
  intro steps
  induction steps with
  | zero =>
    intro i m m1 h
    simp only [writeArrLoop, Except.ok.injEq] at h
    rw [h]
  | succ steps ih =>
    intro i m m1 h
    unfold writeArrLoop at h
    cases hw : writeCell m n i (a.getD i 0) with
    | error e => rw [hw] at h; cases h
    | ok w =>
      rw [hw] at h
      exact (ih _ _ _ h).trans (writeCell_lengths hw).1

theorem selected_congr (D D1 : List Int) : ∀ (d : List String) (v : Nat),
    (∀ k, k < d.length → D.getD (v + k) 0 = D1.getD (v + k) 0) →
    selected D d v = selected D1 d v := by
  intro d
  induction d with
  | nil => intros; rfl
  | cons x d ih =>
    intro v h
    unfold selected
    have h0 := h 0 (by simp)
    rw [Nat.add_zero] at h0
    rw [h0, ih (v + 1) (fun k hk => by
      have := h (k + 1) (by simpa using hk)
      rwa [show v + (k + 1) = v + 1 + k by omega] at this)]

theorem selected_append (D : List Int) : ∀ (a b : List String) (v : Nat),
    selected D (a ++ b) v = selected D a v ++ selected D b (v + a.length) := by
  intro a
  induction a with
  | nil => intro b v; simp [selected]
  | cons x a ih =>
    intro b v
    have e1 : selected D (x :: (a ++ b)) v
        = if D.getD v 0 ≠ 0 then x :: selected D (a ++ b) (v + 1)
          else selected D (a ++ b) (v + 1) := rfl
    have e2 : selected D (x :: a) v
        = if D.getD v 0 ≠ 0 then x :: selected D a (v + 1) else selected D a (v + 1) := rfl
    rw [List.cons_append, e1, e2, ih b (v + 1),
      show v + 1 + a.length = v + (x :: a).length by simp; omega]
    split <;> simp

theorem lineLoop_text (D : List Int) : ∀ (d : List String) (v : Nat) (text : String),
    (lineLoop D d v text false).1 = String.intercalate.go text "&" (selected D d v) := by
  intro d
  induction d with
  | nil => intro v text; rfl
  | cons x d ih =>
    intro v text
    unfold lineLoop selected
    by_cases hD : D.getD v 0 ≠ 0
    · rw [if_pos hD, if_pos hD]
      simp only [Bool.not_false, if_true]
      rw [ih]
      rfl
    · rw [if_neg hD, if_neg hD]
      exact ih _ _

theorem lineLoop_first (D : List Int) : ∀ (d : List String) (v : Nat),
    (lineLoop D d v "" true).1 = "&".intercalate (selected D d v) := by
  intro d
  induction d with
  | nil => intro v; rfl
  | cons x d ih =>
    intro v
    unfold lineLoop selected
    by_cases hD : D.getD v 0 ≠ 0
    · rw [if_pos hD, if_pos hD]
      simp only [Bool.not_true, Bool.false_eq_true, if_false]
      rw [lineLoop_text]
      have e : ("" : String) ++ x = x := by
        apply String.ext
        simp
      rw [e]
      rfl
    · rw [if_neg hD, if_neg hD]
      exact ih _

theorem writeExprLeaf_eq (d : List String) (st : ExprState) :
    writeExprLeaf d st = { st with out := st.out ++
      ([selected st.D d 0].filter fun s => !s.isEmpty).map fun s => "&".intercalate s } := by
  unfold writeExprLeaf
  have h1 := (lineLoop_spec st.D d 0 "" true).1
  rw [h1, lineLoop_first]
  cases hsel : selected st.D d 0 with
  | nil => simp
  | cons x r => simp

theorem writeExpr_overrun (d : List String) : ∀ (room i : Nat) (st : ExprState),
    i + room < d.length → writeExpr d room i st = .error .outOfBounds := by
  intro room
  induction room with
  | zero => intros; rfl
  | succ room ih =>
    intro i st h
    unfold writeExpr
    have hi : ¬ (i + 1 = d.length) := by omega
    simp only [if_neg hi]
    rw [ih (i + 1) _ (by omega)]

/-- The lines that `writeExpr` appends from position `a.length` on, when the
disjuncts before it are selected as `D` says: one line for every sub-list of
the remaining disjuncts `b`, in the order of `List.sublists'`, except an
empty selection. -/
theorem writeExpr_spec (d : List String) : ∀ (room : Nat) (a b : List String) (st : ExprState),
    d = a ++ b → b ≠ [] → b.length ≤ room → d.length ≤ st.D.length →
    ∃ st1, writeExpr d room a.length st = .ok st1 ∧ st1.D.length = st.D.length ∧
      (∀ k, k < a.length → st1.D.getD k 0 = st.D.getD k 0) ∧
      st1.out = st.out ++ ((b.sublists'.map fun s => selected st.D a 0 ++ s).filter
        fun s => !s.isEmpty).map fun s => "&".intercalate s := by
  intro room
  induction room with
  | zero =>
    intro a b st _ hb hroom _
    cases b with
    | nil => exact absurd rfl hb
    | cons x b => simp at hroom
  | succ room ih =>
    intro a b st hd hb hroom hD
    have hlen : d.length = a.length + b.length := by rw [hd, List.length_append]
    have hkeep : ∀ (D : List Int) (x : Int) (k : Nat), k < a.length →
        (D.set a.length x).getD k 0 = D.getD k 0 := by
      intro D x k hk
      rw [List.getD_eq_getElem?_getD, List.getElem?_set_ne (by omega),
        ← List.getD_eq_getElem?_getD]
    have hat : ∀ (D : List Int) (x : Int), D.length = st.D.length →
        (D.set a.length x).getD a.length 0 = x := by
      intro D x hl
      have hb0 : 0 < b.length := List.length_pos.2 hb
      rw [List.getD_eq_getElem?_getD, List.getElem?_set_self (by omega)]
      rfl
    have hpre : ∀ (D : List Int), (∀ k, k < a.length → D.getD k 0 = st.D.getD k 0) →
        selected D a 0 = selected st.D a 0 := by
      intro D h
      apply selected_congr
      intro k hk
      rw [Nat.zero_add]
      exact h k hk
    have hsingle : ∀ (D : List Int) (x : String) (v : Nat),
        selected D [x] v = if D.getD v 0 ≠ 0 then [x] else [] := fun _ _ _ => rfl
    cases b with
    | nil => exact absurd rfl hb
    | cons x b =>
      unfold writeExpr
      cases b with
      | nil =>
        have hi : a.length + 1 = d.length := by rw [hlen]; rfl
        simp only [if_pos hi]
        refine ⟨_, rfl, ?_, ?_, ?_⟩
        · rw [writeExprLeaf_eq, writeExprLeaf_eq]
          simp
        · intro k hk
          rw [writeExprLeaf_eq, writeExprLeaf_eq]
          simp only
          rw [hkeep _ _ k hk, hkeep _ _ k hk]
        · rw [writeExprLeaf_eq, writeExprLeaf_eq]
          simp only
          have s0 : selected (st.D.set a.length 0) d 0 = selected st.D a 0 ++ [] := by
            rw [hd, selected_append, hpre _ (fun k hk => hkeep _ _ k hk), Nat.zero_add,
              hsingle, hat st.D 0 rfl]
            rfl
          have s1 : selected ((st.D.set a.length 0).set a.length 1) d 0
              = selected st.D a 0 ++ [x] := by
            rw [hd, selected_append, hpre _ (fun k hk => by
              rw [hkeep _ _ k hk, hkeep _ _ k hk]), Nat.zero_add, hsingle,
              hat (st.D.set a.length 0) 1 (by simp)]
            rfl
          rw [s0, s1]
          simp [List.sublists'_cons, List.filter_cons]
          split <;> simp
      | cons y b =>
        have hi : ¬ (a.length + 1 = d.length) := by
          rw [hlen]; simp
        simp only [if_neg hi]
        have hd1 : d = (a ++ [x]) ++ (y :: b) := by rw [hd]; simp
        have hal : (a ++ [x]).length = a.length + 1 := by simp
        obtain ⟨s0, r1, r2, r3, r4⟩ := ih (a ++ [x]) (y :: b)
          { st with D := st.D.set a.length 0 } hd1 (by simp)
          (by simp only [List.length_cons] at hroom ⊢; omega) (by simpa using hD)
        rw [hal] at r1 r3
        simp only at r2 r3 r4
        rw [r1]
        simp only
        have hs0l : s0.D.length = st.D.length := by rw [r2]; simp
        obtain ⟨s1, t1, t2, t3, t4⟩ := ih (a ++ [x]) (y :: b)
          { s0 with D := s0.D.set a.length 1 } hd1 (by simp)
          (by simp only [List.length_cons] at hroom ⊢; omega)
          (by simp only [List.length_set]; omega)
        rw [hal] at t1 t3
        simp only at t2 t3 t4
        refine ⟨s1, t1, by rw [t2]; simp [hs0l], ?_, ?_⟩
        · intro k hk
          rw [t3 k (by omega), hkeep _ _ k hk, r3 k (by omega), hkeep _ _ k hk]
        · have p0 : selected (st.D.set a.length 0) (a ++ [x]) 0 = selected st.D a 0 := by
            rw [selected_append, hpre _ (fun k hk => hkeep _ _ k hk), Nat.zero_add,
              hsingle, hat st.D 0 rfl]
            simp
          have p1 : selected (s0.D.set a.length 1) (a ++ [x]) 0
              = selected st.D a 0 ++ [x] := by
            rw [selected_append, hpre _ (fun k hk => by
              rw [hkeep _ _ k hk, r3 k (by omega), hkeep _ _ k hk]), Nat.zero_add,
              hsingle, hat s0.D 1 hs0l]
            rfl
          rw [t4, r4, p0, p1, List.sublists'_cons x (y :: b)]
          simp only [List.map_append, List.filter_append, List.map_map, List.append_assoc]
          congr 3

theorem sublists'_ne_nil {α : Type} (l : List α) : l.sublists' ≠ [] := by
  intro h
  have := List.length_sublists' l
  rw [h] at this
  have hp : 0 < 2 ^ l.length := Nat.two_pow_pos _
  simp at this
  omega

theorem sublists'_filter_nonempty {α : Type} : ∀ l : List α,
    (l.sublists'.filter fun s => !s.isEmpty) = l.sublists'.tail := by
  intro l
  induction l with
  | nil => simp
  | cons a l ih =>
    rw [List.sublists'_cons, List.filter_append, ih]
    have h1 : ((l.sublists'.map (List.cons a)).filter fun s => !s.isEmpty)
        = l.sublists'.map (List.cons a) := by
      rw [List.filter_eq_self]
      intro s hs
      obtain ⟨t, _, rfl⟩ := List.mem_map.1 hs
      rfl
    rw [h1]
    cases hl : l.sublists' with
    | nil => exact absurd hl (sublists'_ne_nil l)
    | cons s ss => rfl

theorem counterSelection_add : ∀ (r : List String) (c k : Nat), r.length ≤ k →
    counterSelection r (c + 2 ^ k) = counterSelection r c := by
  intro r
  induction r with
  | nil => intros; rfl
  | cons x r ih =>
    intro c k hk
    have hk1 : r.length < k := by simpa using hk
    have hbit : (c + 2 ^ k) / 2 ^ r.length % 2 = c / 2 ^ r.length % 2 := by
      have e : 2 ^ k = 2 ^ r.length * (2 * 2 ^ (k - r.length - 1)) := by
        rw [← pow_succ', ← pow_add]
        congr 1
        omega
      rw [e, Nat.add_mul_div_left _ _ (Nat.two_pow_pos _), Nat.add_mul_mod_self_left]
    unfold counterSelection
    rw [hbit, ih c k (by omega)]

theorem counterSelection_sublists : ∀ d : List String,
    (List.range (2 ^ d.length)).map (counterSelection d) = d.sublists' := by
  intro d
  induction d with
  | nil => rfl
  | cons x r ih =>
    have hp : 0 < 2 ^ r.length := Nat.two_pow_pos _
    have e : 2 ^ (x :: r).length = 2 ^ r.length + 2 ^ r.length := by
      rw [List.length_cons, pow_succ]
      omega
    rw [e, List.range_add, List.map_append, List.map_map, List.sublists'_cons, ← ih]
    congr 1
    · apply List.map_congr_left
      intro c hc
      have hc1 : c < 2 ^ r.length := List.mem_range.1 hc
      have ecs : counterSelection (x :: r) c
          = if (c / 2 ^ r.length) % 2 = 1 then x :: counterSelection r c
            else counterSelection r c := rfl
      rw [ecs, Nat.div_eq_of_lt hc1]
      simp
    · rw [List.map_map]
      apply List.map_congr_left
      intro c hc
      have hc1 : c < 2 ^ r.length := List.mem_range.1 hc
      have hdiv : (2 ^ r.length + c) / 2 ^ r.length = 1 := by
        have := Nat.add_mul_div_left c 1 hp
        rw [Nat.mul_one, Nat.div_eq_of_lt hc1, Nat.zero_add, Nat.add_comm] at this
        exact this
      show counterSelection (x :: r) (2 ^ r.length + c) = x :: counterSelection r c
      have ecs : counterSelection (x :: r) (2 ^ r.length + c)
          = if ((2 ^ r.length + c) / 2 ^ r.length) % 2 = 1
            then x :: counterSelection r (2 ^ r.length + c)
            else counterSelection r (2 ^ r.length + c) := rfl
      rw [ecs, hdiv, Nat.add_comm, counterSelection_add r c _ (le_refl _)]
      simp

theorem counterSelection_ne_nil : ∀ (d : List String) (c : Nat), 0 < c → c < 2 ^ d.length →
    counterSelection d c ≠ [] := by
  intro d
  induction d with
  | nil =>
    intro c h0 h1
    simp at h1
    omega
  | cons x r ih =>
    intro c h0 h1
    have hp : 0 < 2 ^ r.length := Nat.two_pow_pos _
    rw [List.length_cons, pow_succ] at h1
    have ecs : counterSelection (x :: r) c
        = if (c / 2 ^ r.length) % 2 = 1 then x :: counterSelection r c
          else counterSelection r c := rfl
    rw [ecs]
    split
    · exact List.cons_ne_nil _ _
    · rename_i hbit
      apply ih c h0
      have h2 : c / 2 ^ r.length < 2 := by
        rw [Nat.div_lt_iff_lt_mul hp]
        omega
      have h3 : c / 2 ^ r.length = 0 := by
        generalize c / 2 ^ r.length = q at h2 hbit
        omega
      by_contra hge
      have h4 : 2 ^ r.length ≤ c := by omega
      have h5 := Nat.div_pos h4 hp
      rw [h3] at h5
      exact absurd h5 (lt_irrefl _)

theorem range_tail (n : Nat) : (List.range n).tail = List.range' 1 (n - 1) := by
  cases n with
  | zero => rfl
  | succ n =>
    rw [List.range_eq_range', List.range'_succ]
    rfl

/-- The claim of C31 fails for a list of 101 disjuncts: the recursion writes
`D[100]`, outside the static array of 100 cells, before any line is printed. -/
theorem writeExpr_overruns_static_array :
    writeExpr (List.replicate 101 "(A)") 100 0 { D := List.replicate 100 0, out := [] }
      = .error .outOfBounds :=
  writeExpr_overrun _ 100 0 _ (by simp)

/-- C31, amended: for every list `d` of `m` disjuncts with `1 ≤ m ≤ 100` (the
size of the static array `D`), `writeExpr` returns after printing exactly the
lines of the counter values `c = 1, ..., 2^m - 1` in ascending order, the line
of `c` being the disjuncts whose bit in `c` is set (`d[0]` the most
significant bit), in index order, joined by `&`. These `2^m - 1` selections
are the non-empty sub-lists of `d`: every counter value from `1` on selects
a non-empty sub-list, and together with the empty selection of `c = 0` they
are `d.sublists'`. -/
theorem writeExpr_prints_counter_lines (d : List String) (st : ExprState)
    (hne : d ≠ []) (hlen : d.length ≤ 100) (hD : st.D.length = 100) :
    ∃ st1, writeExpr d 100 0 st = .ok st1 ∧
      st1.out = st.out ++ (List.range' 1 (2 ^ d.length - 1)).map
        (fun c => "&".intercalate (counterSelection d c)) ∧
      st1.out.length = st.out.length + (2 ^ d.length - 1) ∧
      (List.range (2 ^ d.length)).map (counterSelection d) = d.sublists' ∧
      (∀ s, s ∈ (List.range (2 ^ d.length)).map (counterSelection d) ↔ s.Sublist d) ∧
      counterSelection d 0 = [] ∧
      (∀ c, 0 < c → c < 2 ^ d.length → counterSelection d c ≠ []) := by
  obtain ⟨st1, h1, _, _, h4⟩ := writeExpr_spec d 100 [] d st rfl hne hlen (by omega)
  have hout : st1.out = st.out ++ (List.range' 1 (2 ^ d.length - 1)).map
      (fun c => "&".intercalate (counterSelection d c)) := by
    rw [h4]
    have e : (d.sublists'.map fun s => selected st.D [] 0 ++ s) = d.sublists' := by
      have : (fun s : List String => selected st.D [] 0 ++ s) = id := by
        funext s
        rfl
      rw [this, List.map_id]
    rw [e, sublists'_filter_nonempty, ← counterSelection_sublists, ← List.map_tail, range_tail,
      List.map_map]
    rfl
  refine ⟨st1, h1, hout, ?_, counterSelection_sublists d, ?_, ?_, counterSelection_ne_nil d⟩
  · rw [hout]
    simp
  · intro s
    rw [counterSelection_sublists, List.mem_sublists']
  · have hz : counterSelection d 0 ∈ d.sublists' := by
      rw [← counterSelection_sublists]
      exact List.mem_map.2 ⟨0, List.mem_range.2 (Nat.two_pow_pos _), rfl⟩
    have hhead : ∀ l : List String, l.sublists'.head? = some [] := by
      intro l
      induction l with
      | nil => rfl
      | cons a l ih =>
        rw [List.sublists'_cons]
        cases hl : l.sublists' with
        | nil => exact absurd hl (sublists'_ne_nil l)
        | cons t ts =>
          rw [hl] at ih
          simpa using ih
    have h0 : ((List.range (2 ^ d.length)).map (counterSelection d)).head?
        = some (counterSelection d 0) := by
      have : List.range (2 ^ d.length) = 0 :: List.range' 1 (2 ^ d.length - 1) := by
        have hp : 0 < 2 ^ d.length := Nat.two_pow_pos _
        rw [List.range_eq_range']
        obtain ⟨k, hk⟩ : ∃ k, 2 ^ d.length = k + 1 := ⟨2 ^ d.length - 1, by omega⟩
        rw [hk, List.range'_succ]
        rfl
      rw [this]
      rfl
    rw [counterSelection_sublists, hhead d] at h0
    exact (Option.some.inj h0).symm

/-- Witness of C31 (amended) for three disjuncts. -/
theorem writeExpr_prints_counter_lines_witness :
    ∃ st1, writeExpr ["(A|B)", "(A|-B)", "(-A|B)"] 100 0 { D := List.replicate 100 0, out := [] }
        = .ok st1 ∧
      st1.out = ([] : List String) ++ (List.range' 1 (2 ^ 3 - 1)).map
        (fun c => "&".intercalate (counterSelection ["(A|B)", "(A|-B)", "(-A|B)"] c)) :=
  match writeExpr_prints_counter_lines ["(A|B)", "(A|-B)", "(-A|B)"]
      { D := List.replicate 100 0, out := [] } (by decide) (by decide) (by decide) with
  | ⟨st1, h1, h2, _⟩ => ⟨st1, h1, h2⟩

/-! ## C32: the working stack of `evaluate` holds constants only -/

theorem isOperation_cases {op : Token} (h : isOperation op = true) :
    isBinOp op = true ∨ op = '-' := by
  simp only [isOperation, Bool.or_eq_true, beq_iff_eq] at h
  rcases h with (((h | h) | h) | h) | h
  · exact Or.inl (by rw [h]; decide)
  · exact Or.inl (by rw [h]; decide)
  · exact Or.inr h
  · exact Or.inl (by rw [h]; decide)
  · exact Or.inl (by rw [h]; decide)

/-- On a stack of constants an operation that finds its operands succeeds and
leaves a stack of constants. -/
theorem evalOpUsingStack_constants {op : Token} (hop : isOperation op = true) (s : Stack)
    (hs : ∀ x ∈ s, isNumber x = true)
    (hlen : if isBinOp op = true then 2 ≤ s.length else 1 ≤ s.length) :
    ∃ s1, evalOpUsingStack op s = .ok s1 ∧ (∀ x ∈ s1, isNumber x = true) := by
  by_cases hb : isBinOp op = true
  · rw [if_pos hb] at hlen
    match s, hs, hlen with
    | b :: a :: rest, hs, _ =>
      obtain ⟨r, hr, he⟩ := evalOpUsingStack_bin_numbers hb
        (hs a (by simp)) (hs b (by simp)) rest
      refine ⟨r :: rest, he, ?_⟩
      intro x hx
      rcases List.mem_cons.1 hx with h | h
      · exact h ▸ hr
      · exact hs x (by simp [h])
  · rw [if_neg hb] at hlen
    have hneg : op = '-' := (isOperation_cases hop).resolve_left hb
    subst hneg
    match s, hs, hlen with
    | a :: rest, hs, _ =>
      obtain ⟨r, hr, he⟩ := evalOpUsingStack_neg_number (hs a (by simp)) rest
      refine ⟨r :: rest, he, ?_⟩
      intro x hx
      rcases List.mem_cons.1 hx with h | h
      · exact h ▸ hr
      · exact hs x (by simp [h])

/-- After any initial part of a sequence of constants and operations the
evaluator has thrown "Invalid expression!" or holds a stack of constants. -/
theorem evaluateLoop_stack_constants : ∀ (pre : Queue) (s : Stack),
    (∀ t ∈ pre, isNumber t = true ∨ isOperation t = true) → (∀ x ∈ s, isNumber x = true) →
    (∀ rest, evaluateLoop (pre ++ rest) s = .error (.thrown "Invalid expression!")) ∨
    ∃ s1, (∀ x ∈ s1, isNumber x = true) ∧
      ∀ rest, evaluateLoop (pre ++ rest) s = evaluateLoop rest s1 := by
  intro pre
  induction pre with
  | nil =>
    intro s _ hs
    exact Or.inr ⟨s, hs, fun _ => rfl⟩
  | cons t pre ih =>
    intro s htok hs
    have htok1 : ∀ x ∈ pre, isNumber x = true ∨ isOperation x = true :=
      fun x hx => htok x (List.mem_cons_of_mem _ hx)
    by_cases hn : isNumber t = true
    · have hs1 : ∀ x ∈ t :: s, isNumber x = true := by
        intro x hx
        rcases List.mem_cons.1 hx with h | h
        · exact h ▸ hn
        · exact hs x h
      rcases ih (t :: s) htok1 hs1 with h | ⟨s1, h1, h2⟩
      · left
        intro rest
        rw [List.cons_append, evaluateLoop_number hn]
        exact h rest
      · right
        refine ⟨s1, h1, fun rest => ?_⟩
        rw [List.cons_append, evaluateLoop_number hn]
        exact h2 rest
    · have hop : isOperation t = true :=
        (htok t (List.mem_cons_self _ _)).resolve_left hn
      have hok : ∀ rest s0, evalOpUsingStack t s = .ok s0 →
          evaluateLoop (t :: pre ++ rest) s = evaluateLoop (pre ++ rest) s0 := by
        intro rest s0 h0
        rw [List.cons_append, evaluateLoop]
        simp [hn, hop, h0]
      have herr : ∀ rest e, evalOpUsingStack t s = .error e →
          evaluateLoop (t :: pre ++ rest) s = .error e := by
        intro rest e h0
        rw [List.cons_append, evaluateLoop]
        simp [hn, hop, h0]
      by_cases hlen : if isBinOp t = true then 2 ≤ s.length else 1 ≤ s.length
      · obtain ⟨s0, he, hs0⟩ := evalOpUsingStack_constants hop s hs hlen
        rcases ih s0 htok1 hs0 with h | ⟨s1, h1, h2⟩
        · left
          intro rest
          rw [hok rest s0 he]
          exact h rest
        · right
          refine ⟨s1, h1, fun rest => ?_⟩
          rw [hok rest s0 he]
          exact h2 rest
      · left
        intro rest
        have hshort := evalOpUsingStack_short hop s (by
          by_cases hb : isBinOp t = true
          · rw [if_pos hb] at hlen ⊢; omega
          · rw [if_neg hb] at hlen ⊢; omega)
        exact herr rest _ hshort

/-- C32: for a token sequence of constants and operations, the stack that
`evaluate` holds after any initial part of the sequence consists of constants
(unless "Invalid expression!" was thrown before); on such a stack
`evalOpUsingStack` fails only when the operands are too few, never at a test
that an operand is a constant, and pushes a constant otherwise; and a
successful `evaluate` returns `0` or `1`. -/
theorem evaluate_stack_holds_constants (expr : Queue)
    (htok : ∀ t ∈ expr, isNumber t = true ∨ isOperation t = true) :
    (∀ pre rest, expr = pre ++ rest →
      evaluate expr = .error (.thrown "Invalid expression!") ∨
      ∃ s1, (∀ x ∈ s1, x = '0' ∨ x = '1') ∧ evaluate expr = evaluateLoop rest s1) ∧
    (∀ (op : Token) (s : Stack), isOperation op = true → (∀ x ∈ s, isNumber x = true) →
      ((if isBinOp op = true then 2 ≤ s.length else 1 ≤ s.length) →
        ∃ s1, evalOpUsingStack op s = .ok s1 ∧ ∀ x ∈ s1, x = '0' ∨ x = '1') ∧
      (¬ (if isBinOp op = true then 2 ≤ s.length else 1 ≤ s.length) →
        evalOpUsingStack op s = .error (.thrown "Invalid expression!"))) ∧
    (∀ r, evaluate expr = .ok r → r = '0' ∨ r = '1') := by
  refine ⟨?_, ?_, ?_⟩
  · intro pre rest he
    have hpre : ∀ t ∈ pre, isNumber t = true ∨ isOperation t = true :=
      fun t ht => htok t (by rw [he]; exact List.mem_append_left _ ht)
    rcases evaluateLoop_stack_constants pre [] hpre (fun _ h => by cases h) with h | ⟨s1, h1, h2⟩
    · left
      rw [he]
      exact h rest
    · right
      refine ⟨s1, fun x hx => isNumber_cases (h1 x hx), ?_⟩
      rw [he]
      exact h2 rest
  · intro op s hop hs
    constructor
    · intro hlen
      obtain ⟨s1, h1, h2⟩ := evalOpUsingStack_constants hop s hs hlen
      exact ⟨s1, h1, fun x hx => isNumber_cases (h2 x hx)⟩
    · intro hlen
      apply evalOpUsingStack_short hop s
      by_cases hb : isBinOp op = true
      · rw [if_pos hb] at hlen ⊢; omega
      · rw [if_neg hb] at hlen ⊢; omega
  · intro r hr
    rcases evaluateLoop_stack_constants expr [] htok (fun _ h => by cases h) with h | ⟨s1, h1, h2⟩
    · have := h []
      rw [List.append_nil] at this
      unfold evaluate at hr
      rw [this] at hr
      cases hr
    · have := h2 []
      rw [List.append_nil] at this
      unfold evaluate at hr
      rw [this] at hr
      match s1, h1, hr with
      | [x], h1, hr =>
        simp only [evaluateLoop, Except.ok.injEq] at hr
        rw [← hr]
        exact isNumber_cases (h1 x (by simp))
      | [], _, hr => simp [evaluateLoop] at hr
      | _ :: _ :: _, _, hr => simp [evaluateLoop] at hr

/-- Witness of C32 at `10&-`. -/
theorem evaluate_stack_holds_constants_witness :
    evaluate ['1', '0', '&', '-'] = .ok '1' ∧ (('1' : Token) = '0' ∨ ('1' : Token) = '1') :=
  ⟨by decide,
    (evaluate_stack_holds_constants ['1', '0', '&', '-'] (by decide)).2.2 '1' (by decide)⟩

/-! ## C33: what the shunting yard keeps of its input -/

theorem isFormulaToken_not_par {t : Token} (h : isFormulaToken t = true) :
    isOpeningPar t = false ∧ isClosingPar t = false := by
  constructor
  · by_contra hp
    have ht : t = '(' := by simpa [isOpeningPar] using hp
    subst ht
    exact absurd h (by decide)
  · by_contra hp
    have ht : t = ')' := by simpa [isClosingPar] using hp
    subst ht
    exact absurd h (by decide)

theorem isOperation_formulaToken {t : Token} (h : isOperation t = true) :
    isFormulaToken t = true ∧ isOperand t = false := by
  simp only [isOperation, Bool.or_eq_true, beq_iff_eq] at h
  rcases h with (((h | h) | h) | h) | h <;> subst h <;> decide

theorem filter_operations {l : List Token} (h : ∀ x ∈ l, isOperation x = true) :
    l.filter isFormulaToken = l ∧ l.filter isOperand = [] := by
  constructor
  · rw [List.filter_eq_self]
    exact fun x hx => (isOperation_formulaToken (h x hx)).1
  · rw [List.filter_eq_nil_iff]
    intro x hx
    rw [(isOperation_formulaToken (h x hx)).2]
    simp

theorem popOperations_split (t : Token) : ∀ (s : Stack) (out : Queue),
    ∃ pre rest, s = pre ++ rest ∧ (∀ x ∈ pre, isOperation x = true) ∧
      popOperations t out s = (out ++ pre, rest) := by
  intro s
  induction s with
  | nil => intro out; exact ⟨[], [], rfl, (fun _ h => by cases h), by simp [popOperations]⟩
  | cons top s ih =>
    intro out
    unfold popOperations
    split
    · rename_i hc
      simp only [Bool.and_eq_true] at hc
      obtain ⟨pre, rest, h1, h2, h3⟩ := ih (out ++ [top])
      refine ⟨top :: pre, rest, by rw [h1]; rfl, ?_, by rw [h3]; simp⟩
      intro x hx
      rcases List.mem_cons.1 hx with h | h
      · exact h ▸ hc.1
      · exact h2 x h
    · exact ⟨[], top :: s, rfl, (fun _ h => by cases h), by simp⟩

theorem popToOpeningPar_split : ∀ (s : Stack) (out o1 : Queue) (s1 : Stack),
    popToOpeningPar out s = .ok (o1, s1) →
    ∃ pre, s = pre ++ s1 ∧ (∀ x ∈ pre, isOperation x = true) ∧ o1 = out ++ pre ∧
      (s1 = [] ∨ ∃ s2, s1 = '(' :: s2) := by
  intro s
  induction s with
  | nil =>
    intro out o1 s1 h
    simp only [popToOpeningPar, Except.ok.injEq, Prod.mk.injEq] at h
    obtain ⟨rfl, rfl⟩ := h
    exact ⟨[], rfl, (fun _ h => by cases h), by simp, Or.inl rfl⟩
  | cons top s ih =>
    intro out o1 s1 h
    unfold popToOpeningPar at h
    split at h
    · split at h
      · rename_i hop
        obtain ⟨pre, h1, h2, h3, h4⟩ := ih _ _ _ h
        refine ⟨top :: pre, by rw [h1]; rfl, ?_, by rw [h3]; simp, h4⟩
        intro x hx
        rcases List.mem_cons.1 hx with h5 | h5
        · exact h5 ▸ hop
        · exact h2 x h5
      · cases h
    · rename_i hpar
      simp only [Except.ok.injEq, Prod.mk.injEq] at h
      obtain ⟨rfl, rfl⟩ := h
      have ht : top = '(' := by simpa [isOpeningPar] using hpar
      exact ⟨[], rfl, (fun _ h => by cases h), by simp, Or.inr ⟨s, by rw [ht]⟩⟩

theorem drainStack_split : ∀ (s : Stack) (out post : Queue), drainStack out s = .ok post →
    post = out ++ s ∧ ∀ x ∈ s, isOperation x = true := by
  intro s
  induction s with
  | nil =>
    intro out post h
    simp only [drainStack, Except.ok.injEq] at h
    exact ⟨by rw [← h]; simp, fun _ h => by cases h⟩
  | cons top s ih =>
    intro out post h
    unfold drainStack at h
    split at h
    · cases h
    · split at h
      · rename_i hop
        obtain ⟨h1, h2⟩ := ih _ _ h
        refine ⟨by rw [h1]; simp, ?_⟩
        intro x hx
        rcases List.mem_cons.1 hx with h5 | h5
        · exact h5 ▸ hop
        · exact h2 x h5
      · cases h

/-- Inventory of the shunting yard: on success every input token is
recognised, and the output holds the tokens of the output queue, the formula
tokens of the stack and the formula tokens of the remaining input, the
operands in their order. -/
theorem infixToPostfixLoop_inventory : ∀ (input out : Queue) (s : Stack) (post : Queue),
    StackOK s → infixToPostfixLoop input out s = .ok post →
    (∀ t ∈ input, isRecognised t = true) ∧
    (∀ a, post.count a = out.count a + (s.filter isFormulaToken).count a
      + (input.filter isFormulaToken).count a) ∧
    post.filter isOperand = out.filter isOperand ++ input.filter isOperand := by
  intro input
  induction input with
  | nil =>
    intro out s post _ h
    obtain ⟨h1, h2⟩ := drainStack_split s out post h
    obtain ⟨f1, f2⟩ := filter_operations h2
    refine ⟨(fun _ h => by cases h), ?_, ?_⟩
    · intro a
      rw [h1, f1, List.count_append]
      simp
    · rw [h1, List.filter_append, f2]
      simp
  | cons t input ih =>
    intro out s post hs h
    unfold infixToPostfixLoop at h
    split at h
    · rename_i hopnd
      have hk : isFormulaToken t = true := by
        simp only [isFormulaToken, hopnd, Bool.true_or]
      have ho : isOperand t = true := hopnd
      obtain ⟨i1, i2, i3⟩ := ih _ _ _ hs h
      refine ⟨?_, ?_, ?_⟩
      · intro x hx
        rcases List.mem_cons.1 hx with h5 | h5
        · rw [h5]
          simp only [Bool.or_eq_true] at hopnd
          rcases hopnd with h6 | h6 <;> simp [isRecognised, h6]
        · exact i1 x h5
      · intro a
        rw [i2 a, List.filter_cons_of_pos hk, List.count_append, List.count_cons,
          List.count_cons, List.count_nil]
        omega
      · rw [i3, List.filter_append, List.filter_cons_of_pos ho]
        simp [List.filter, ho]
    · split at h
      · rename_i hnot hop
        obtain ⟨pre, rest, h1, h2, h3⟩ := popOperations_split t s out
        rw [h3] at h
        simp only at h
        obtain ⟨k1, k2⟩ := isOperation_formulaToken hop
        obtain ⟨f1, f2⟩ := filter_operations h2
        have hs1 : StackOK (t :: rest) := by
          intro x hx
          rcases List.mem_cons.1 hx with h5 | h5
          · exact Or.inl (h5 ▸ hop)
          · exact hs x (by rw [h1]; exact List.mem_append_right _ h5)
        obtain ⟨i1, i2, i3⟩ := ih _ _ _ hs1 h
        refine ⟨?_, ?_, ?_⟩
        · intro x hx
          rcases List.mem_cons.1 hx with h5 | h5
          · rw [h5]
            simp [isRecognised, hop]
          · exact i1 x h5
        · intro a
          rw [i2 a, h1, List.filter_append, f1, List.filter_cons_of_pos k1,
            List.filter_cons_of_pos k1, List.count_append, List.count_append,
            List.count_cons, List.count_cons]
          omega
        · have k2' : ¬ isOperand t = true := by rw [k2]; simp
          rw [i3, List.filter_append, f2, List.filter_cons_of_neg k2']
          simp
      · split at h
        · rename_i hnot hnop hpar
          have ht : t = '(' := by simpa [isOpeningPar] using hpar
          subst ht
          have hs1 : StackOK ('(' :: s) := by
            intro x hx
            rcases List.mem_cons.1 hx with h5 | h5
            · exact Or.inr h5
            · exact hs x h5
          obtain ⟨i1, i2, i3⟩ := ih _ _ _ hs1 h
          have e1 : ∀ l : List Token, ('(' :: l).filter isFormulaToken
              = l.filter isFormulaToken := fun l => List.filter_cons_of_neg (by decide)
          have e2 : ∀ l : List Token, ('(' :: l).filter isOperand
              = l.filter isOperand := fun l => List.filter_cons_of_neg (by decide)
          refine ⟨?_, ?_, ?_⟩
          · intro x hx
            rcases List.mem_cons.1 hx with h5 | h5
            · rw [h5]; decide
            · exact i1 x h5
          · intro a
            rw [i2 a, e1, e1]
          · rw [i3, e2]
        · split at h
          · rename_i hnot hnop hnpar hclose
            have ht : t = ')' := by simpa [isClosingPar] using hclose
            subst ht
            cases hp : popToOpeningPar out s with
            | error e => rw [hp] at h; cases h
            | ok r =>
              obtain ⟨o1, s1⟩ := r
              rw [hp] at h
              obtain ⟨pre, h1, h2, h3, h4⟩ := popToOpeningPar_split s out o1 s1 hp
              obtain ⟨f1, f2⟩ := filter_operations h2
              cases s1 with
              | nil => cases h
              | cons y s1 =>
                simp only at h
                have hy : y = '(' := by
                  rcases h4 with h5 | ⟨s2, h5⟩
                  · cases h5
                  · exact (List.cons.inj h5).1
                subst hy
                have hs1 : StackOK s1 := by
                  intro x hx
                  exact hs x (by rw [h1]; simp [hx])
                obtain ⟨i1, i2, i3⟩ := ih _ _ _ hs1 h
                have e1 : ∀ (c : Token) (l : List Token), (c = '(' ∨ c = ')') →
                    (c :: l).filter isFormulaToken = l.filter isFormulaToken := by
                  intro c l hc
                  rcases hc with rfl | rfl <;> exact List.filter_cons_of_neg (by decide)
                have e2 : ∀ l : List Token, (')' :: l).filter isOperand
                    = l.filter isOperand := fun l => List.filter_cons_of_neg (by decide)
                refine ⟨?_, ?_, ?_⟩
                · intro x hx
                  rcases List.mem_cons.1 hx with h5 | h5
                  · rw [h5]; decide
                  · exact i1 x h5
                · intro a
                  rw [i2 a, h3, h1, List.filter_append, f1, e1 _ _ (Or.inl rfl),
                    e1 _ _ (Or.inr rfl), List.count_append, List.count_append]
                  omega
                · rw [i3, h3, List.filter_append, f2, e2]
                  simp
          · cases h

/-- C33: when `infixToPostfix` succeeds, its output contains no parenthesis,
has as many tokens as the input has tokens that are not parentheses, is a
permutation of those tokens (the constants, variables and operations of the
input, with their multiplicities), and lists the constants and variables in
the order they have in the input. -/
theorem infixToPostfix_keeps_formula_tokens (input post : Queue)
    (h : infixToPostfix input = .ok post) :
    (∀ t ∈ post, t ≠ '(' ∧ t ≠ ')') ∧
    post.length = (input.filter fun t => !(isOpeningPar t || isClosingPar t)).length ∧
    post.Perm (input.filter fun t => !(isOpeningPar t || isClosingPar t)) ∧
    post.Perm (input.filter isFormulaToken) ∧
    post.filter isOperand = input.filter isOperand := by
  obtain ⟨h1, h2, h3⟩ := infixToPostfixLoop_inventory input [] [] post
    (fun _ hx => by cases hx) h
  have hperm : post.Perm (input.filter isFormulaToken) := by
    rw [List.perm_iff_count]
    intro a
    rw [h2 a]
    simp
  have hfilter : (input.filter fun t => !(isOpeningPar t || isClosingPar t))
      = input.filter isFormulaToken := by
    apply List.filter_congr
    intro t ht
    have hr := h1 t ht
    by_cases hk : isFormulaToken t = true
    · obtain ⟨p1, p2⟩ := isFormulaToken_not_par hk
      rw [hk, p1, p2]
      rfl
    · have hk' : isFormulaToken t = false := by simpa using hk
      have hp : (isOpeningPar t || isClosingPar t) = true := by
        simp only [isRecognised, Bool.or_eq_true] at hr
        simp only [isFormulaToken, Bool.or_eq_false_iff] at hk'
        rcases hr with (((h5 | h5) | h5) | h5) | h5
        · rw [hk'.1.1] at h5; cases h5
        · rw [hk'.1.2] at h5; cases h5
        · rw [hk'.2] at h5; cases h5
        · simp [h5]
        · simp [h5]
      rw [hk', hp]
      rfl
  refine ⟨?_, ?_, ?_, hperm, by simpa using h3⟩
  · intro t ht
    have hmem : t ∈ input.filter isFormulaToken := hperm.mem_iff.1 ht
    have hk := (List.mem_filter.1 hmem).2
    obtain ⟨p1, p2⟩ := isFormulaToken_not_par hk
    constructor
    · intro e; subst e; exact absurd p1 (by decide)
    · intro e; subst e; exact absurd p2 (by decide)
  · rw [hfilter]
    exact hperm.length_eq
  · rw [hfilter]
    exact hperm

/-- Witness of C33 at `(A&B)|-C`. -/
theorem infixToPostfix_keeps_formula_tokens_witness :
    (['A', 'B', '&', 'C', '-', '|'] : Queue).Perm
        (['(', 'A', '&', 'B', ')', '|', '-', 'C'].filter isFormulaToken) ∧
      (['A', 'B', '&', 'C', '-', '|'] : Queue).filter isOperand
        = (['(', 'A', '&', 'B', ')', '|', '-', 'C'] : Queue).filter isOperand :=
  ⟨(infixToPostfix_keeps_formula_tokens ['(', 'A', '&', 'B', ')', '|', '-', 'C']
      ['A', 'B', '&', 'C', '-', '|'] (by decide)).2.2.2.1,
    (infixToPostfix_keeps_formula_tokens ['(', 'A', '&', 'B', ')', '|', '-', 'C']
      ['A', 'B', '&', 'C', '-', '|'] (by decide)).2.2.2.2⟩

/-! ## C34: double negation, bare and parenthesised -/

theorem operand_not_operation {x : Token} (hx : isNumber x = true ∨ isVariable x = true) :
    (isNumber x || isVariable x) = true := by
  rcases hx with h | h <;> simp [h]

/-- C34: for every operand token `X` (constant or variable) `infixToPostfix`
turns `--X` into `-X-`: the second negation pops the first one, of equal
priority, to the output before the operand is read. Whatever is substituted
for `X`, `evaluate` of `-X-` throws "Invalid expression!". The parenthesised
form `-(-X)` becomes `X--`, and once `X` stands for a constant `evaluate`
returns that constant. -/
theorem double_negation_bare_and_parenthesised (X : Token) (varVal : Map)
    (hX : isNumber X = true ∨ isVariable X = true) :
    infixToPostfix ['-', '-', X] = .ok ['-', X, '-'] ∧
    popOperations '-' [] ['-'] = (['-'], []) ∧
    evaluate (substValues ['-', X, '-'] varVal) = .error (.thrown "Invalid expression!") ∧
    infixToPostfix ['-', '(', '-', X, ')'] = .ok [X, '-', '-'] ∧
    (∀ c, substValues [X] varVal = [c] → isNumber c = true →
      evaluate (substValues [X, '-', '-'] varVal) = .ok c) := by
  have hop := operand_not_operation hX
  have step : ∀ (input out : Queue) (s : Stack),
      infixToPostfixLoop (X :: input) out s = infixToPostfixLoop input (out ++ [X]) s := by
    intro input out s
    rw [infixToPostfixLoop, if_pos hop]
  refine ⟨?_, by decide, ?_, ?_, ?_⟩
  · have h1 : infixToPostfix ['-', '-', X] = infixToPostfixLoop [X] ['-'] ['-'] := rfl
    rw [h1, step]
    rfl
  · have e : substValues ['-', X, '-'] varVal = '-' :: substValues [X, '-'] varVal := rfl
    rw [e]
    rfl
  · have h1 : infixToPostfix ['-', '(', '-', X, ')']
        = infixToPostfixLoop [X, ')'] [] ['-', '(', '-'] := rfl
    rw [h1, step]
    rfl
  · intro c hc hnum
    have e : substValues [X, '-', '-'] varVal = substValues [X] varVal ++ ['-', '-'] := rfl
    rw [e, hc]
    rcases isNumber_cases hnum with h | h <;> subst h <;> decide

/-- Witness of C34 at the variable `A` with the value `1`. -/
theorem double_negation_bare_and_parenthesised_witness :
    infixToPostfix ['-', '-', 'A'] = .ok ['-', 'A', '-'] ∧
    evaluate (substValues ['-', 'A', '-'] [('A', '1')])
      = .error (.thrown "Invalid expression!") ∧
    infixToPostfix ['-', '(', '-', 'A', ')'] = .ok ['A', '-', '-'] ∧
    evaluate (substValues ['A', '-', '-'] [('A', '1')]) = .ok '1' :=
  ⟨(double_negation_bare_and_parenthesised 'A' [('A', '1')] (Or.inr (by decide))).1,
    (double_negation_bare_and_parenthesised 'A' [('A', '1')] (Or.inr (by decide))).2.2.1,
    (double_negation_bare_and_parenthesised 'A' [('A', '1')] (Or.inr (by decide))).2.2.2.1,
    (double_negation_bare_and_parenthesised 'A' [('A', '1')] (Or.inr (by decide))).2.2.2.2
      '1' (by decide) (by decide)⟩

/-! ## Room in the matrix for the rounds -/

theorem roundsRoom_mono : ∀ (r : Nat) {k k1 : Nat}, k ≤ k1 → roundsRoom r k ≤ roundsRoom r k1 := by
  intro r
  induction r with
  | zero => intro k k1 h; exact h
  | succ r ih =>
    intro k k1 h
    simp only [roundsRoom]
    apply ih
    have h1 : (k - 1) * k / 2 ≤ (k1 - 1) * k1 / 2 :=
      Nat.div_le_div_right (Nat.mul_le_mul (by omega) h)
    omega

theorem roundsRoom_le : ∀ (r k : Nat), k ≤ roundsRoom r k := by
  intro r
  induction r with
  | zero => intro k; exact le_refl _
  | succ r ih =>
    intro k
    simp only [roundsRoom]
    exact le_trans (Nat.le_add_right _ _) (ih _)

theorem row_length_of_map {m m1 : Matrix} (h : m1.map List.length = m.map List.length) (n : Nat) :
    (m1.getD n []).length = (m.getD n []).length := by
  have e1 := @List.getD_map _ _ m1 [] n List.length
  have e2 := @List.getD_map _ _ m [] n List.length
  rw [← e1, ← e2, h]

theorem length_of_map {m m1 : Matrix} (h : m1.map List.length = m.map List.length) :
    m1.length = m.length := by
  have e := congrArg List.length h
  simpa using e

/-- The `for` of `WriteArr` succeeds when row `n` is allocated with room for
the cells written. -/
theorem writeArrLoop_total (n : Nat) (a : List Int) : ∀ (steps i : Nat) (m : Matrix),
    n < m.length → i + steps ≤ (m.getD n []).length →
    ∃ m1, writeArrLoop n a steps i m = .ok m1 := by
  intro steps
  induction steps with
  | zero => intro i m _ _; exact ⟨m, rfl⟩
  | succ steps ih =>
    intro i m hn hw
    unfold writeArrLoop
    have hc : writeCell m n i (a.getD i 0) = .ok (m.set n ((m.getD n []).set i (a.getD i 0))) := by
      unfold writeCell
      rw [if_pos ⟨hn, by omega⟩]
    rw [hc]
    simp only
    have hl := (writeCell_lengths hc).1
    apply ih
    · rw [length_of_map hl]; exact hn
    · rw [row_length_of_map hl]; omega

/-- One pair combination succeeds when every row has room for `countVars`
cells and a row is allocated after the one the resolvent goes to; the result
is `true` exactly when the resolvent is empty. -/
theorem pairStep_total {countVars : Nat} {st : ResState} (i j : Nat)
    (hwide : ∀ n, n < st.matr.length → countVars ≤ (st.matr.getD n []).length)
    (hroom : st.tk + 1 < st.matr.length) :
    ∃ b st1, pairStep countVars st i j = .ok (b, st1) ∧
      st1.matr.map List.length = st.matr.map List.length ∧ st1.tk ≤ st.tk + 1 ∧
      (b = true → EmptySequence st1.a countVars = true) := by
  unfold pairStep
  split
  · rename_i he
    exact ⟨true, _, rfl, rfl, Nat.le_succ _, fun _ => he⟩
  · split
    · obtain ⟨m1, hm1⟩ := writeArrLoop_total st.tk (combine st.matr i j countVars st.a)
        countVars 0 st.matr (by omega) (by simpa using hwide st.tk (by omega))
      have hl := writeArrLoop_lengths _ _ _ _ _ _ hm1
      have hw : WriteArr st.matr st.tk countVars (combine st.matr i j countVars st.a)
          = .ok (m1, st.tk + 1) := by
        unfold WriteArr
        rw [hm1]
      rw [hw]
      simp only
      have hr : rowReadable m1 (st.tk + 1) countVars = true := by
        simp only [rowReadable, List.all_eq_true, List.mem_range, Bool.and_eq_true,
          decide_eq_true_eq]
        intro z hz
        refine ⟨by rw [length_of_map hl]; exact hroom, ?_⟩
        rw [row_length_of_map hl]
        exact lt_of_lt_of_le hz (hwide _ hroom)
      rw [if_pos hr]
      exact ⟨false, _, rfl, hl, le_refl _, fun h => by cases h⟩
    · exact ⟨false, _, rfl, rfl, Nat.le_succ _, fun h => by cases h⟩
theorem wide_of_map {m m1 : Matrix} {countVars : Nat}
    (h : m1.map List.length = m.map List.length)
    (hwide : ∀ n, n < m.length → countVars ≤ (m.getD n []).length) :
    ∀ n, n < m1.length → countVars ≤ (m1.getD n []).length := by
  intro n hn
  rw [row_length_of_map h]
  exact hwide n (by rw [← length_of_map h]; exact hn)

/-- The `j` loop succeeds when the matrix has room for one row per pair and
one row more. -/
theorem loopJ_total {countVars i : Nat} : ∀ (steps j : Nat) (st : ResState),
    (∀ n, n < st.matr.length → countVars ≤ (st.matr.getD n []).length) →
    st.tk + steps < st.matr.length →
    ∃ b st1, loopJ countVars i steps j st = .ok (b, st1) ∧
      st1.matr.map List.length = st.matr.map List.length ∧ st1.tk ≤ st.tk + steps ∧
      (b = true → EmptySequence st1.a countVars = true) := by
  intro steps
  induction steps with
  | zero => intro j st _ _; exact ⟨false, st, rfl, rfl, le_refl _, fun h => by cases h⟩
  | succ steps ih =>
    intro j st hwide hroom
    obtain ⟨b, st', hp, hs, ht, he⟩ := @pairStep_total countVars st i j hwide (by omega)
    unfold loopJ
    rw [hp]
    cases b with
    | true => exact ⟨true, st', rfl, hs, by omega, he⟩
    | false =>
      simp only
      obtain ⟨b2, st2, h2, hs2, ht2, he2⟩ := ih (j + 1) st' (wide_of_map hs hwide)
        (by rw [length_of_map hs]; omega)
      exact ⟨b2, st2, h2, hs2.trans hs, by omega, he2⟩

theorem triangle_succ (s : Nat) : (s + 1) * (s + 1 + 1) / 2 = s * (s + 1) / 2 + (s + 1) := by
  have e : (s + 1) * (s + 1 + 1) = s * (s + 1) + 2 * (s + 1) := by ring
  rw [e, Nat.add_mul_div_left _ _ (by decide : 0 < 2)]

/-- The `i` loop over its last `steps` values succeeds when the matrix has
room for one row per pair and one row more. -/
theorem loopI_total {countVars k : Nat} : ∀ (steps i : Nat) (st : ResState),
    k ≤ i + steps + 1 →
    (∀ n, n < st.matr.length → countVars ≤ (st.matr.getD n []).length) →
    st.tk + steps * (steps + 1) / 2 < st.matr.length →
    ∃ b st1, loopI countVars k steps i st = .ok (b, st1) ∧
      st1.matr.map List.length = st.matr.map List.length ∧
      st1.tk ≤ st.tk + steps * (steps + 1) / 2 ∧
      (b = true → EmptySequence st1.a countVars = true) := by
  intro steps
  induction steps with
  | zero => intro i st _ _ _; exact ⟨false, st, rfl, rfl, Nat.le_add_right _ _, fun h => by cases h⟩
  | succ steps ih =>
    intro i st hk hwide hroom
    rw [triangle_succ] at hroom ⊢
    obtain ⟨b, st', hp, hs, ht, he⟩ := @loopJ_total countVars i (k - (i + 1)) (i + 1) st hwide
      (by omega)
    unfold loopI
    rw [hp]
    cases b with
    | true => exact ⟨true, st', rfl, hs, by omega, he⟩
    | false =>
      simp only
      obtain ⟨b2, st2, h2, hs2, ht2, he2⟩ := ih (i + 1) st' (by omega) (wide_of_map hs hwide)
        (by rw [length_of_map hs]; omega)
      exact ⟨b2, st2, h2, hs2.trans hs, by omega, he2⟩

theorem triangle_pred (k : Nat) : (k - 1) * (k - 1 + 1) / 2 = (k - 1) * k / 2 := by
  cases k with
  | zero => rfl
  | succ k => rfl

/-- The rounds succeed when the matrix has more rows than `roundsRoom` counts. -/
theorem runRounds_total {countVars : Nat} : ∀ (r : Nat) (st : ResState),
    (∀ n, n < st.matr.length → countVars ≤ (st.matr.getD n []).length) →
    roundsRoom r st.tk < st.matr.length →
    ∃ b k1 st1, runRounds countVars r st.tk st = .ok (b, k1, st1) ∧
      (b = true → EmptySequence st1.a countVars = true) := by
  intro r
  induction r with
  | zero => intro st _ _; exact ⟨false, st.tk, st, rfl, fun h => by cases h⟩
  | succ r ih =>
    intro st hwide hroom
    simp only [roundsRoom] at hroom
    have hle := roundsRoom_le r (st.tk + (st.tk - 1) * st.tk / 2)
    obtain ⟨b, st', hp, hs, ht, he⟩ := @loopI_total countVars st.tk (st.tk - 1) 0 st (by omega)
      hwide (by rw [triangle_pred]; omega)
    rw [triangle_pred] at ht
    unfold runRounds
    rw [hp]
    cases b with
    | true => exact ⟨true, st.tk, st', rfl, he⟩
    | false =>
      simp only
      exact ih st' (wide_of_map hs hwide)
        (by rw [length_of_map hs]; exact lt_of_le_of_lt (roundsRoom_mono r ht) hroom)

/-- With room in the matrix, readings inside the time limit and then one
outside, `MethodResolution` returns a verdict: `true` with the empty resolvent
in the buffer, or `false`. -/
theorem MethodResolution_total (matr : Matrix) (n countVars : Nat) (a : List Int)
    (start final : Int) (readings rest : List Int)
    (hin : ∀ now ∈ readings, now - start < TIMEOUT_LIMIT)
    (hfinal : TIMEOUT_LIMIT ≤ final - start)
    (hwide : ∀ r, r < matr.length → countVars ≤ (matr.getD r []).length)
    (hroom : roundsRoom readings.length n < matr.length) :
    ∃ b st, MethodResolution matr n countVars a (start :: (readings ++ final :: rest))
        = .ok (some b, st) ∧ (b = true → EmptySequence st.a countVars = true) := by
  have key := @resolutionRounds_eq_runRounds countVars start final rest hfinal
    readings n { matr := matr, tk := n, a := a, pairs := [] } hin
  obtain ⟨b, k1, st1, hr, he⟩ := @runRounds_total countVars readings.length
    { matr := matr, tk := n, a := a, pairs := [] } hwide hroom
  unfold MethodResolution
  simp only
  simp only at hr
  rw [key, hr]
  cases b with
  | true => exact ⟨true, st1, rfl, he⟩
  | false => exact ⟨false, st1, rfl, he⟩
/-- A round over the three clauses `A | B`, `-A | B`, `B` appends nothing and
finds no empty resolvent, whatever the buffer holds. -/
theorem two_clauses_saturated_round (x y : Int) (ps : List (Nat × Nat)) :
    loopI 2 3 2 0 { matr := [[0, 0], [-1, 0], [1, 0], [9, 9]], tk := 3, a := [x, y], pairs := ps }
      = .ok (false, { matr := [[0, 0], [-1, 0], [1, 0], [9, 9]], tk := 3, a := [0, 0],
                      pairs := ps ++ [(0, 1)] ++ [(0, 2)] ++ [(1, 2)] }) := by
  rfl

theorem two_clauses_saturated_rounds : ∀ (r : Nat) (x y : Int) (ps : List (Nat × Nat)),
    ∃ st, runRounds 2 r 3
        { matr := [[0, 0], [-1, 0], [1, 0], [9, 9]], tk := 3, a := [x, y], pairs := ps }
      = .ok (false, 3, st) ∧ st.matr = [[0, 0], [-1, 0], [1, 0], [9, 9]] ∧ st.tk = 3 := by
  intro r
  induction r with
  | zero => intro x y ps; exact ⟨_, rfl, rfl, rfl⟩
  | succ r ih =>
    intro x y ps
    unfold runRounds
    rw [two_clauses_saturated_round]
    exact ih 0 0 _

theorem two_clauses_first_round :
    loopI 2 2 1 0 { matr := [[0, 0], [-1, 0], [9, 9], [9, 9]], tk := 2, a := [7, 7], pairs := [] }
      = .ok (false, { matr := [[0, 0], [-1, 0], [1, 0], [9, 9]], tk := 3, a := [1, 0],
                      pairs := [(0, 1)] }) := by
  decide
/-- The clauses `A | B` and `-A | B` with two spare rows: whatever the number
of rounds inside the time limit, the verdict is `false` and at most the
resolvent `B` is appended. -/
theorem MethodResolution_two_clauses_saturate (readings : List Int)
    (hin : ∀ now ∈ readings, now - 0 < TIMEOUT_LIMIT) :
    ∃ st, MethodResolution [[0, 0], [-1, 0], [9, 9], [9, 9]] 2 2 [7, 7]
        (0 :: (readings ++ 100 :: [])) = .ok (some false, st) ∧ st.tk ≤ 3 := by
  have key := @resolutionRounds_eq_runRounds 2 0 100 [] (by decide) readings 2
    { matr := [[0, 0], [-1, 0], [9, 9], [9, 9]], tk := 2, a := [7, 7], pairs := [] } hin
  unfold MethodResolution
  simp only
  rw [key]
  cases readings.length with
  | zero => exact ⟨_, rfl, by decide⟩
  | succ r =>
    unfold runRounds
    rw [two_clauses_first_round]
    simp only
    obtain ⟨st, h1, _, h3⟩ := two_clauses_saturated_rounds r 1 0 [(0, 1)]
    rw [h1]
    exact ⟨st, rfl, le_of_eq h3⟩

/-! ## C26: the time limit and the rows allocated -/

/-- C26 (defect): the loop of `MethodResolution` is bounded by the clock only;
nothing bounds the row count `tk` by the rows allocated, and after an append
the trace reads row `tk`, the row after the one written. The clauses `A | B`
and `-A | B` never combine to the empty clause (with two spare rows the
verdict is `false` for every number of rounds inside the time limit, and one
round appends the resolvent `B`), yet with these two rows alone `WriteArr`
writes out of bounds, and with one spare row the append fits and the read of
the next row is out of bounds: no verdict is returned. What holds: when
every row has `countVars` cells and the matrix has more rows than `roundsRoom`
counts for the rounds inside the limit, the run returns `false`, or `true`
with the empty resolvent in the buffer; and when the first reading already
reaches the limit the result is `false` with no pair combined and the clause
set unchanged. -/
theorem MethodResolution_overruns_within_time_limit :
    MethodResolution [[0, 0], [-1, 0]] 2 2 [7, 7] [0, 0, 100] = .error .outOfBounds ∧
    MethodResolution [[0, 0], [-1, 0], [9, 9]] 2 2 [7, 7] [0, 0, 100] = .error .outOfBounds ∧
    MethodResolution [[0, 0], [-1, 0], [9, 9], [9, 9]] 2 2 [7, 7] [0, 0, 100]
      = .ok (some false, { matr := [[0, 0], [-1, 0], [1, 0], [9, 9]], tk := 3, a := [1, 0],
                           pairs := [(0, 1)] }) ∧
    (∀ readings : List Int, (∀ now ∈ readings, now - 0 < TIMEOUT_LIMIT) →
      ∃ st, MethodResolution [[0, 0], [-1, 0], [9, 9], [9, 9]] 2 2 [7, 7]
          (0 :: (readings ++ 100 :: [])) = .ok (some false, st) ∧ st.tk ≤ 3) ∧
    (∀ (matr : Matrix) (n countVars : Nat) (a : List Int) (start final : Int)
        (readings rest : List Int),
      (∀ now ∈ readings, now - start < TIMEOUT_LIMIT) → TIMEOUT_LIMIT ≤ final - start →
      (∀ r, r < matr.length → countVars ≤ (matr.getD r []).length) →
      roundsRoom readings.length n < matr.length →
      ∃ b st, MethodResolution matr n countVars a (start :: (readings ++ final :: rest))
          = .ok (some b, st) ∧ (b = true → EmptySequence st.a countVars = true)) ∧
    (∀ (matr : Matrix) (n countVars : Nat) (a : List Int) (start final : Int) (rest : List Int),
      TIMEOUT_LIMIT ≤ final - start →
      MethodResolution matr n countVars a (start :: final :: rest)
        = .ok (some false, { matr := matr, tk := n, a := a, pairs := [] })) :=
  ⟨by decide, by decide, by decide, MethodResolution_two_clauses_saturate,
    MethodResolution_total,
    fun matr n countVars a start final rest hfinal =>
      (MethodResolution_stops_at_limit matr n countVars a start final [] rest
        (fun _ h => by cases h) hfinal).2.2⟩

end Resolution
